import Mathlib

/-!
# go-mcts: the UCT search engine over an explicit heap

The engine of `uct.go` and `node.go` works on heap-allocated `treeNode`s that point
at each other (`parent`, `children`).  Here the heap is a list of nodes and a pointer
is an index into it; node `0` is the root, and every new node is allocated at the end
of the list.  A run of a Go function that panics, dereferences an invalid pointer, or
does not terminate is a `Failure`.

* `float64` arithmetic is kept abstract (`Float64`): the engine only adds, compares
  and feeds numbers to `upperConfidenceBound`.
* `sort.Sort` of the Go standard library is kept abstract (`SortFn`, `SortContract`):
  it permutes its argument and, for a strict weak order, leaves it sorted; it is not
  promised stable.  `insertionSort` is the routine `sort.Sort` runs on short slices
  (at most 6 elements in every release of Go, at most 12 from Go 1.19 on).
* the two random sources (`rnd` of `node.go`, and the global source of `math/rand`
  used by the rollout) are streams of raw draws with a cursor.
* `visits` is a `uint64`, `Iterations` and `Simulations` are `uint` (64 bit) converted
  with `int(..)`.
* game states and slices are values: `Clone` and `MakeMove` are functions on states,
  and the sharing of the backing array of a slice between its holders is not modelled.
-/

namespace Mcts

/-- How a run can fail to return. -/
inductive Failure where
  /-- Slice index out of range (run-time panic). -/
  | indexOutOfRange
  /-- The argument of `Intn` is not positive (run-time panic). -/
  | invalidIntnArgument
  /-- A nil or invalid node pointer is dereferenced, or a nil move is replayed. -/
  | nilDereference
  /-- The recursion or loop does not come to an end. -/
  | diverged
  /-- An explicit panic of the program (`log.Panicf`). -/
  | panicked
  deriving DecidableEq, Repr

/-- The `float64` operations the engine uses. -/
structure Float64 (F : Type) where
  /-- The constant `0.0`. -/
  zero : F
  /-- The constant `0.5`. -/
  half : F
  /-- The constant `1.0`. -/
  one : F
  /-- The constant `2`. -/
  two : F
  /-- The conversion `float64(x)` of a `uint64`. -/
  ofUint64 : Nat → F
  /-- Addition. -/
  add : F → F → F
  /-- Multiplication. -/
  mul : F → F → F
  /-- Division. -/
  div : F → F → F
  /-- The function `math.Sqrt`. -/
  sqrt : F → F
  /-- The function `math.Log`. -/
  log : F → F
  /-- The comparison `x > y`. -/
  gt : F → F → Bool

/-- The interface `GameState` of `game.go`, over states `S` and moves `M`. -/
structure GameState (S M F : Type) where
  /-- Clone the game state. -/
  Clone : S → S
  /-- All the viable moves of a state; none for a finished game. -/
  AvailableMoves : S → List M
  /-- Take an action, changing the game state. -/
  MakeMove : S → M → S
  /-- The outcome of a state for a player. -/
  Score : S → Int → F
  /-- The player who made the last move. -/
  PlayerJustMoved : S → Int

/-- A node of the game tree (`node.go`); `parent` and `children` are heap indices,
`move` is `none` for Go's nil. -/
structure treeNode (S M F : Type) where
  parent : Option Nat
  move : Option M
  state : S
  totalOutcome : F
  visits : Nat
  untriedMoves : List M
  children : List Nat
  ucbC : F
  selectionScore : F
  player : Int
  deriving DecidableEq

/-- The heap of tree nodes. -/
abbrev Heap (S M F : Type) := List (treeNode S M F)

/-- The comparison `less` is a strict weak order on the elements of the slice `l`: the
comparisons `sort.Sort` is specified for. -/
def StrictWeak (less : Nat → Nat → Bool) (l : List Nat) : Prop :=
  (∀ a ∈ l, ∀ b ∈ l, less a b = true → less b a = false) ∧
  (∀ a ∈ l, ∀ b ∈ l, ∀ c ∈ l, less a c = true → less a b = true ∨ less b c = true)

/-- The function `sort.Sort` on a slice of node pointers, given `Less` on elements. -/
abbrev SortFn := (Nat → Nat → Bool) → List Nat → List Nat

/-- The contract of `sort.Sort`: the slice is permuted, and sorted when `Less` is a
strict weak order. -/
def SortContract (T : SortFn) : Prop :=
  (∀ less l, (T less l).Perm l) ∧
  (∀ less l, StrictWeak less l → (T less l).Pairwise (fun a b => less b a = false))

/-- The inner loop of Go's `insertionSort`: the new element `x` is swapped down
past every element it is `Less` than.  The sorted prefix is held in reverse. -/
def sink (less : Nat → Nat → Bool) (x : Nat) : List Nat → List Nat
  | [] => [x]
  | y :: ys => if less x y then y :: sink less x ys else x :: y :: ys

/-- Go's `insertionSort`, the routine `sort.Sort` runs on short slices. -/
def insertionSort (less : Nat → Nat → Bool) (l : List Nat) : List Nat :=
  (l.foldl (fun rp x => sink less x rp) []).reverse

/-- A random source: the stream of its raw draws and a cursor. -/
structure Rand where
  src : Nat → Nat
  pos : Nat

/-- The method `Intn`: panics for `n ≤ 0`, else a number in `[0, n)`. -/
def Rand.Intn (r : Rand) (n : Nat) : Except Failure (Nat × Rand) :=
  if n = 0 then .error .invalidIntnArgument
  else .ok (r.src r.pos % n, { r with pos := r.pos + 1 })

/-- The options of a search (`uct.go`). -/
structure UctOption (F : Type) where
  Iterations : Nat
  Simulations : Nat
  UcbConstant : F

/-- The conversion `int(x)` of a 64-bit `uint`. -/
def intOfUint (x : Nat) : Int :=
  if x % 2 ^ 64 < 2 ^ 63 then ((x % 2 ^ 64 : Nat) : Int) else ((x % 2 ^ 64 : Nat) : Int) - 2 ^ 64

section Engine

variable {S M F : Type}

/-- The function `upperConfidenceBound` of `uct.go`. -/
def upperConfidenceBound (A : Float64 F) (childAggregateOutcome ucbC : F)
    (parentVisits childVisits : Nat) : F :=
  A.add (A.div childAggregateOutcome (A.ofUint64 childVisits))
    (A.mul ucbC (A.sqrt (A.div (A.mul A.two (A.log (A.ofUint64 parentVisits)))
      (A.ofUint64 childVisits))))

/-- The function `newTreeNode` of `node.go`. -/
def newTreeNode (A : Float64 F) (G : GameState S M F) (parent : Option Nat)
    (move : Option M) (state : S) (ucbC : F) : treeNode S M F :=
  { parent := parent
    move := move
    state := state
    totalOutcome := A.zero
    visits := 0
    untriedMoves := G.AvailableMoves state
    children := []
    ucbC := ucbC
    selectionScore := A.zero
    player := G.PlayerJustMoved state }

/-- The method `getVisits`: `0` for a nil node. -/
def getVisits (h : Heap S M F) (n : Option Nat) : Nat :=
  match n with
  | none => 0
  | some p =>
    match h[p]? with
    | none => 0
    | some nd => nd.visits

/-- The method `computeSelectionScore`. -/
def computeSelectionScore (A : Float64 F) (h : Heap S M F) (n : Nat) :
    Except Failure (Heap S M F) :=
  match h[n]? with
  | none => .error .nilDereference
  | some nd =>
    .ok (h.set n { nd with
      selectionScore :=
        upperConfidenceBound A nd.totalOutcome nd.ucbC (getVisits h nd.parent) nd.visits })

/-- The method `Less` of `bySelectionScore`, on node pointers. -/
def bySelectionScore (A : Float64 F) (h : Heap S M F) (a b : Nat) : Bool :=
  match h[a]?, h[b]? with
  | some x, some y => A.gt x.selectionScore y.selectionScore
  | _, _ => false

/-- The method `Less` of `byVisits`, on node pointers. -/
def byVisits (h : Heap S M F) (a b : Nat) : Bool :=
  match h[a]?, h[b]? with
  | some x, some y => decide (x.visits > y.visits)
  | _, _ => false

/-- The method `selectChild`: sorts the children in place, returns the first. -/
def selectChild (A : Float64 F) (T : SortFn) (h : Heap S M F) (n : Nat) :
    Except Failure (Nat × Heap S M F) :=
  match h[n]? with
  | none => .error .nilDereference
  | some nd =>
    match T (bySelectionScore A h) nd.children with
    | [] => .error .indexOutOfRange
    | c :: cs => .ok (c, h.set n { nd with children := c :: cs })

/-- The method `update`, with the depth of the recursion bounded by `fuel`. -/
def updateAux (A : Float64 F) (score : Int → F) :
    Nat → Heap S M F → Option Nat → Except Failure (Heap S M F)
  | _, h, none => .ok h
  | 0, _, some _ => .error .diverged
  | fuel + 1, h, some n =>
    match h[n]? with
    | none => .error .nilDereference
    | some nd =>
      match updateAux A score fuel
          (h.set n { nd with
            totalOutcome := A.add nd.totalOutcome (score nd.player)
            visits := (nd.visits + 1) % 2 ^ 64 })
          nd.parent with
      | .error e => .error e
      | .ok h2 => computeSelectionScore A h2 n

/-- The method `update`: a chain of parents without a cycle is no longer than the
heap, so a run out of fuel is a recursion that does not end. -/
def update (A : Float64 F) (score : Int → F) (h : Heap S M F) (n : Option Nat) :
    Except Failure (Heap S M F) :=
  updateAux A score h.length h n

/-- The method `getRandomMoves`: draws from `rnd`, removes and returns the move. -/
def getRandomMoves (rnd : Rand) (h : Heap S M F) (n : Nat) :
    Except Failure (M × Rand × Heap S M F) :=
  match h[n]? with
  | none => .error .nilDereference
  | some nd =>
    match rnd.Intn nd.untriedMoves.length with
    | .error e => .error e
    | .ok (i, rnd1) =>
      match nd.untriedMoves[i]? with
      | none => .error .indexOutOfRange
      | some move =>
        .ok (move, rnd1, h.set n { nd with untriedMoves := nd.untriedMoves.eraseIdx i })

/-- Phase 1 of an iteration of `Uct`: the select loop, bounded by `fuel` descents. -/
def selectLoop (A : Float64 F) (T : SortFn) (G : GameState S M F) :
    Nat → Heap S M F → Nat → S → Except Failure (Heap S M F × Nat × S)
  | 0, h, node, st =>
    match h[node]? with
    | none => .error .nilDereference
    | some nd =>
      if nd.untriedMoves.length = 0 ∧ nd.children.length > 0 then .error .diverged
      else .ok (h, node, st)
  | fuel + 1, h, node, st =>
    match h[node]? with
    | none => .error .nilDereference
    | some nd =>
      if nd.untriedMoves.length = 0 ∧ nd.children.length > 0 then
        match selectChild A T h node with
        | .error e => .error e
        | .ok (c, h1) =>
          match h1[c]? with
          | none => .error .nilDereference
          | some cn =>
            match cn.move with
            | none => .error .nilDereference
            | some m => selectLoop A T G fuel h1 c (G.MakeMove st m)
      else .ok (h, node, st)

/-- Phase 2 of an iteration of `Uct`: expand. -/
def expand (A : Float64 F) (G : GameState S M F) (rnd : Rand) (h : Heap S M F)
    (node : Nat) (st : S) : Except Failure (Rand × Heap S M F × Nat × S) :=
  match h[node]? with
  | none => .error .nilDereference
  | some nd =>
    if nd.untriedMoves.length > 0 then
      match getRandomMoves rnd h node with
      | .error e => .error e
      | .ok (move, rnd1, h1) =>
        match h1[node]? with
        | none => .error .nilDereference
        | some nd1 =>
          let st1 := G.MakeMove st move
          let child := newTreeNode A G (some node) (some move) (G.Clone st1) nd1.ucbC
          .ok (rnd1, (h1.set node { nd1 with children := nd1.children ++ [h1.length] })
                ++ [child], h1.length, st1)
    else .ok (rnd, h, node, st)

/-- Phase 3 of an iteration of `Uct`: the rollout, `j` steps at most, drawing from
the global source of `math/rand`. -/
def simulate (G : GameState S M F) : Nat → Rand → S → Except Failure (Rand × S)
  | 0, rand, st => .ok (rand, st)
  | j + 1, rand, st =>
    match G.AvailableMoves st with
    | [] => .ok (rand, st)
    | mv :: mvs =>
      match rand.Intn (mv :: mvs).length with
      | .error e => .error e
      | .ok (i, rand1) =>
        match (mv :: mvs)[i]? with
        | none => .error .indexOutOfRange
        | some move => simulate G j rand1 (G.MakeMove st move)

/-- What an iteration of `Uct` works on: the heap and the two random sources. -/
structure World (S M F : Type) where
  heap : Heap S M F
  rnd : Rand
  rand : Rand

/-- One iteration of the loop of `Uct`. -/
def iteration (A : Float64 F) (T : SortFn) (G : GameState S M F) (opt : UctOption F)
    (w : World S M F) : Except Failure (World S M F) :=
  match w.heap[0]? with
  | none => .error .nilDereference
  | some root =>
    match selectLoop A T G w.heap.length w.heap 0 (G.Clone root.state) with
    | .error e => .error e
    | .ok (h1, node1, st1) =>
      match expand A G w.rnd h1 node1 st1 with
      | .error e => .error e
      | .ok (rnd2, h2, node2, st2) =>
        match simulate G (intOfUint opt.Simulations).toNat w.rand st2 with
        | .error e => .error e
        | .ok (rand3, st3) =>
          match update A (G.Score st3) h2 (some node2) with
          | .error e => .error e
          | .ok h4 => .ok { heap := h4, rnd := rnd2, rand := rand3 }

/-- The first `n` iterations of the loop of `Uct`. -/
def iterations (A : Float64 F) (T : SortFn) (G : GameState S M F) (opt : UctOption F) :
    Nat → World S M F → Except Failure (World S M F)
  | 0, w => .ok w
  | n + 1, w =>
    match iterations A T G opt n w with
    | .error e => .error e
    | .ok w1 => iteration A T G opt w1

/-- The state of `Uct` when it enters its loop: the heap holds the root alone. -/
def initWorld (A : Float64 F) (G : GameState S M F) (rnd rand : Rand) (state : S)
    (opt : UctOption F) : World S M F :=
  { heap := [newTreeNode A G none none state opt.UcbConstant], rnd := rnd, rand := rand }

/-- The loop of `Uct`, all `int(opt.Iterations)` iterations of it. -/
def UctLoop (A : Float64 F) (T : SortFn) (G : GameState S M F) (rnd rand : Rand)
    (state : S) (opt : UctOption F) : Except Failure (World S M F) :=
  iterations A T G opt (intOfUint opt.Iterations).toNat (initWorld A G rnd rand state opt)

/-- The last two lines of `Uct`: sort the children of the root by visits and return
the move of the first. -/
def bestMove (T : SortFn) (h : Heap S M F) : Except Failure (Option M) :=
  match h[0]? with
  | none => .error .nilDereference
  | some root =>
    match T (byVisits h) root.children with
    | [] => .error .indexOutOfRange
    | c :: _ =>
      match h[c]? with
      | none => .error .nilDereference
      | some cn => .ok cn.move

/-- The function `Uct` of `uct.go`. -/
def Uct (A : Float64 F) (T : SortFn) (G : GameState S M F) (rnd rand : Rand)
    (state : S) (opt : UctOption F) : Except Failure (Option M) :=
  match UctLoop A T G rnd rand state opt with
  | .error e => .error e
  | .ok w => bestMove T w.heap

/-- Parents are allocated before their children: every heap `Uct` builds is so. -/
def ParentsBelow (h : Heap S M F) : Prop :=
  ∀ (i : Nat) (nd : treeNode S M F), h[i]? = some nd → ∀ p, nd.parent = some p → p < i

/-- The parent chain from a node up to the root, at most `fuel` nodes of it. -/
def parentChain (h : Heap S M F) : Nat → Option Nat → List Nat
  | _, none => []
  | 0, some _ => []
  | fuel + 1, some n =>
    match h[n]? with
    | none => []
    | some nd => n :: parentChain h fuel nd.parent

/-- What `update` leaves of a node on the chain: the outcome added, one visit more,
and the score recomputed from these and the new visits of the parent. -/
def updated (A : Float64 F) (score : Int → F) (h : Heap S M F) (nd : treeNode S M F) :
    treeNode S M F :=
  { nd with
    totalOutcome := A.add nd.totalOutcome (score nd.player)
    visits := (nd.visits + 1) % 2 ^ 64
    selectionScore :=
      upperConfidenceBound A (A.add nd.totalOutcome (score nd.player)) nd.ucbC
        (match nd.parent with
         | none => 0
         | some p => (getVisits h (some p) + 1) % 2 ^ 64)
        ((nd.visits + 1) % 2 ^ 64) }

/-- Two heaps with the same tree in them: the same nodes with the same parent, move,
state and untried moves, and the same children up to their order. -/
def SameTree (h h2 : Heap S M F) : Prop :=
  h2.length = h.length ∧
  ∀ (i : Nat) (nd : treeNode S M F), h[i]? = some nd →
    ∃ nd2, h2[i]? = some nd2 ∧ nd2.parent = nd.parent ∧ nd2.move = nd.move ∧
      nd2.state = nd.state ∧ nd2.untriedMoves = nd.untriedMoves ∧
      nd2.children.Perm nd.children

/-- Two heaps that differ in the order of the children of their nodes only. -/
def Reordered (h h2 : Heap S M F) : Prop :=
  h2.length = h.length ∧
  ∀ (i : Nat) (nd : treeNode S M F), h[i]? = some nd →
    ∃ nd2, h2[i]? = some nd2 ∧ nd2 = { nd with children := nd2.children } ∧
      nd2.children.Perm nd.children

/-- The moves of the children of a node, in the order of the slice `children`. -/
def childMoves (h : Heap S M F) (nd : treeNode S M F) : List (Option M) :=
  nd.children.map (fun c => (h[c]?).bind (fun (cn : treeNode S M F) => cn.move))

/-- The shape of the tree that `Uct` builds from the state `s0`: node `0` is the root
and holds `s0`; parents are allocated before their children; every other node has a
parent, is among the children of that parent, and came by a move; children are nodes
of the heap; and the moves of the children of a node together with its untried
moves are the legal moves of its state. -/
structure TreeInv (G : GameState S M F) (s0 : S) (h : Heap S M F) : Prop where
  root : ∃ r, h[0]? = some r ∧ r.parent = none ∧ r.state = s0
  below : ParentsBelow h
  nonroot : ∀ (i : Nat) (nd : treeNode S M F), h[i]? = some nd → 0 < i →
    (∃ p, nd.parent = some p) ∧ (∃ m, nd.move = some m)
  childOf : ∀ (i : Nat) (nd : treeNode S M F), h[i]? = some nd →
    ∀ p, nd.parent = some p → ∃ pn, h[p]? = some pn ∧ i ∈ pn.children
  children : ∀ (i : Nat) (nd : treeNode S M F), h[i]? = some nd →
    ∀ c ∈ nd.children, i < c ∧ c < h.length
  moves : ∀ (i : Nat) (nd : treeNode S M F), h[i]? = some nd →
    (childMoves h nd ++ nd.untriedMoves.map some).Perm
      ((G.AvailableMoves nd.state).map some)

/-- A check of `ParentsBelow` that runs: the nodes of `h` stand at the indices
`i`, `i + 1`, .. -/
def parentsBelowFrom : Nat → Heap S M F → Bool
  | _, [] => true
  | i, nd :: t =>
    (match nd.parent with
     | none => true
     | some p => decide (p < i)) && parentsBelowFrom (i + 1) t

/-- The children of node `n` in the order of its slice `children`, each with its
pointer, incoming move, visits and selection score. -/
def childStats (h : Heap S M F) (n : Nat) : List (Nat × Option M × Nat × F) :=
  match h[n]? with
  | none => []
  | some nd =>
    nd.children.filterMap (fun c =>
      (h[c]?).map (fun (cn : treeNode S M F) => (c, cn.move, cn.visits, cn.selectionScore)))

/-- The links of the tree: no child stands twice in a slice `children`, and every
child points back to the node that holds it. -/
def LinkInv (h : Heap S M F) : Prop :=
  ∀ (i : Nat) (nd : treeNode S M F), h[i]? = some nd →
    nd.children.Nodup ∧ ∀ c ∈ nd.children, ∃ cn, h[c]? = some cn ∧ cn.parent = some i

/-- The states of the tree: the state of a node is the state of its parent, cloned,
with the move of the node made on it. -/
def StateInv (G : GameState S M F) (h : Heap S M F) : Prop :=
  ∀ (i : Nat) (nd : treeNode S M F), h[i]? = some nd → ∀ p, nd.parent = some p →
    ∃ pn m, h[p]? = some pn ∧ nd.move = some m ∧
      nd.state = G.MakeMove (G.Clone pn.state) m

/-- The field `player` of every node is the player who moved last in its state. -/
def PlayerInv (G : GameState S M F) (h : Heap S M F) : Prop :=
  ∀ (i : Nat) (nd : treeNode S M F), h[i]? = some nd →
    nd.player = G.PlayerJustMoved nd.state

/-- The sum of the `visits` of the children of a node. -/
def childVisits (h : Heap S M F) (nd : treeNode S M F) : Nat :=
  (nd.children.map (fun c => getVisits h (some c))).sum

/-- Conservation of visits between iterations: no `visits` is above `K`; every node
but the root has been visited; and a node whose state has moves has as many visits
as its children together, and one more when it is not the root. -/
structure VisitInv (G : GameState S M F) (K : Nat) (h : Heap S M F) : Prop where
  bound : ∀ (i : Nat) (nd : treeNode S M F), h[i]? = some nd → nd.visits ≤ K
  pos : ∀ (i : Nat) (nd : treeNode S M F), h[i]? = some nd → 0 < i → 1 ≤ nd.visits
  balance : ∀ (i : Nat) (nd : treeNode S M F), h[i]? = some nd →
    G.AvailableMoves nd.state ≠ [] →
    nd.visits = (if i = 0 then 0 else 1) + childVisits h nd

/-- The visits inside an iteration, before `update` runs from node `n`: as between
iterations, but for the visit that node `n` is about to get. -/
structure VisitPre (G : GameState S M F) (K : Nat) (h : Heap S M F) (n : Nat) : Prop where
  preBound : ∀ (i : Nat) (nd : treeNode S M F), h[i]? = some nd → nd.visits ≤ K
  prePos : ∀ (i : Nat) (nd : treeNode S M F), h[i]? = some nd → 0 < i → i ≠ n → 1 ≤ nd.visits
  preBalance : ∀ (i : Nat) (nd : treeNode S M F), h[i]? = some nd →
    G.AvailableMoves nd.state ≠ [] →
    nd.visits + (if i = n then 1 else 0) = (if i = 0 then 0 else 1) + childVisits h nd

/-- A call of `upperConfidenceBound`: the node whose score is computed, and the
arguments `parentVisits` and `childVisits` of the call. -/
structure UcbCall where
  node : Nat
  parentVisits : Nat
  childVisits : Nat
  deriving DecidableEq, Repr

/-- The method `computeSelectionScore`, returning with the new heap the call of
`upperConfidenceBound` it makes. -/
def computeSelectionScoreLog (A : Float64 F) (h : Heap S M F) (n : Nat) :
    Except Failure (Heap S M F × List UcbCall) :=
  match h[n]? with
  | none => .error .nilDereference
  | some nd =>
    .ok (h.set n { nd with
      selectionScore :=
        upperConfidenceBound A nd.totalOutcome nd.ucbC (getVisits h nd.parent) nd.visits },
      [{ node := n, parentVisits := getVisits h nd.parent, childVisits := nd.visits }])

/-- The method `update` with the depth of the recursion bounded by `fuel`, returning
with the new heap the calls of `upperConfidenceBound` made, in the order they are made. -/
def updateAuxLog (A : Float64 F) (score : Int → F) :
    Nat → Heap S M F → Option Nat → Except Failure (Heap S M F × List UcbCall)
  | _, h, none => .ok (h, [])
  | 0, _, some _ => .error .diverged
  | fuel + 1, h, some n =>
    match h[n]? with
    | none => .error .nilDereference
    | some nd =>
      match updateAuxLog A score fuel
          (h.set n { nd with
            totalOutcome := A.add nd.totalOutcome (score nd.player)
            visits := (nd.visits + 1) % 2 ^ 64 })
          nd.parent with
      | .error e => .error e
      | .ok (h2, calls) =>
        match computeSelectionScoreLog A h2 n with
        | .error e => .error e
        | .ok (h3, calls2) => .ok (h3, calls ++ calls2)

/-- One iteration of the loop of `Uct`, returning with the new world the calls of
`upperConfidenceBound` made in it: those of `update`, the only caller of
`computeSelectionScore`. -/
def iterationLog (A : Float64 F) (T : SortFn) (G : GameState S M F) (opt : UctOption F)
    (w : World S M F) : Except Failure (World S M F × List UcbCall) :=
  match w.heap[0]? with
  | none => .error .nilDereference
  | some root =>
    match selectLoop A T G w.heap.length w.heap 0 (G.Clone root.state) with
    | .error e => .error e
    | .ok (h1, node1, st1) =>
      match expand A G w.rnd h1 node1 st1 with
      | .error e => .error e
      | .ok (rnd2, h2, node2, st2) =>
        match simulate G (intOfUint opt.Simulations).toNat w.rand st2 with
        | .error e => .error e
        | .ok (rand3, st3) =>
          match updateAuxLog A (G.Score st3) h2.length h2 (some node2) with
          | .error e => .error e
          | .ok (h4, calls) => .ok ({ heap := h4, rnd := rnd2, rand := rand3 }, calls)

/-- The first `n` iterations of the loop of `Uct`, with the calls of
`upperConfidenceBound` made in them. -/
def iterationsLog (A : Float64 F) (T : SortFn) (G : GameState S M F) (opt : UctOption F) :
    Nat → World S M F → Except Failure (World S M F × List UcbCall)
  | 0, w => .ok (w, [])
  | n + 1, w =>
    match iterationsLog A T G opt n w with
    | .error e => .error e
    | .ok (w1, calls) =>
      match iterationLog A T G opt w1 with
      | .error e => .error e
      | .ok (w2, calls2) => .ok (w2, calls ++ calls2)

/-- The call of `upperConfidenceBound` that `update` makes for node `m` of the chain,
in terms of the heap `h` on entry. -/
def callOf (h : Heap S M F) (m : Nat) : UcbCall :=
  match h[m]? with
  | none => { node := m, parentVisits := 0, childVisits := 0 }
  | some nd =>
    { node := m
      parentVisits :=
        match nd.parent with
        | none => 0
        | some p => (getVisits h (some p) + 1) % 2 ^ 64
      childVisits := (nd.visits + 1) % 2 ^ 64 }

end Engine

/-! ## The game states as objects -/

/-- The game-state objects of a run.  A `GameState` held by the program is a pointer
to an object: here an index into the store. -/
abbrev Store (S : Type) := List S

/-- A game whose states are objects.  The methods of `GameState` act on the value of
the object; `Overwrite` says how the slice that `AvailableMoves()` returns is shared
with the object. -/
structure GameObject (S M F : Type) extends GameState S M F where
  /-- The value of an object of value `s` once the backing array of the slice that its
  `AvailableMoves()` returned holds `arr`: `s` itself when the method builds a new slice
  on every call, the state with its slice rewritten when the method returns a slice of
  its own. -/
  Overwrite : S → List M → S

namespace Ref

variable {S M F : Type}

/-- The method `Clone` on the object at `a`: a new object is allocated, holding the
copy, and its pointer returned. -/
def Clone (G : GameState S M F) (σ : Store S) (a : Nat) : Except Failure (Nat × Store S) :=
  match σ[a]? with
  | none => .error .nilDereference
  | some s => .ok (σ.length, σ ++ [G.Clone s])

/-- The method `MakeMove` on the object at `a`: the object is changed in place. -/
def MakeMove (G : GameState S M F) (σ : Store S) (a : Nat) (move : M) :
    Except Failure (Store S) :=
  match σ[a]? with
  | none => .error .nilDereference
  | some s => .ok (σ.set a (G.MakeMove s move))

/-- The function `newTreeNode` of `node.go`; the node holds the pointer `state`, and
its `untriedMoves` is the very slice that `state.AvailableMoves()` returned: the node
is returned with the backing array of that slice. -/
def newTreeNode (A : Float64 F) (G : GameState S M F) (σ : Store S) (parent : Option Nat)
    (move : Option M) (state : Nat) (ucbC : F) :
    Except Failure (treeNode Nat M F × List M) :=
  match σ[state]? with
  | none => .error .nilDereference
  | some s =>
    .ok ({ parent := parent
           move := move
           state := state
           totalOutcome := A.zero
           visits := 0
           untriedMoves := G.AvailableMoves s
           children := []
           ucbC := ucbC
           selectionScore := A.zero
           player := G.PlayerJustMoved s }, G.AvailableMoves s)

/-- The method `getRandomMoves`.  `β` holds for every node the backing array of its
slice `untriedMoves`, of which the slice is the first `len(untriedMoves)` elements.
The statement `append(n.untriedMoves[:i], n.untriedMoves[i+1:]...)` copies the
elements after `i` one place down inside that array, and the array is shared with the
object `n.state` points to, as `Overwrite` says. -/
def getRandomMoves (G : GameObject S M F) (rnd : Rand) (h : Heap Nat M F)
    (β : List (List M)) (σ : Store S) (n : Nat) :
    Except Failure (M × Rand × Heap Nat M F × List (List M) × Store S) :=
  match h[n]? with
  | none => .error .nilDereference
  | some nd =>
    match rnd.Intn nd.untriedMoves.length with
    | .error e => .error e
    | .ok (i, rnd1) =>
      match nd.untriedMoves[i]? with
      | none => .error .indexOutOfRange
      | some move =>
        match β[n]? with
        | none => .error .nilDereference
        | some arr =>
          match σ[nd.state]? with
          | none => .error .nilDereference
          | some s =>
            let arr1 := arr.take i ++ nd.untriedMoves.drop (i + 1) ++
              arr.drop (nd.untriedMoves.length - 1)
            .ok (move, rnd1,
              h.set n { nd with untriedMoves := nd.untriedMoves.eraseIdx i },
              β.set n arr1, σ.set nd.state (G.Overwrite s arr1))

/-- Phase 1 of an iteration of `Uct`: the select loop, bounded by `fuel` descents;
`sim` is the pointer `simulatedState`. -/
def selectLoop (A : Float64 F) (T : SortFn) (G : GameState S M F) :
    Nat → Heap Nat M F → Store S → Nat → Nat → Except Failure (Heap Nat M F × Store S × Nat)
  | 0, h, σ, node, _ =>
    match h[node]? with
    | none => .error .nilDereference
    | some nd =>
      if nd.untriedMoves.length = 0 ∧ nd.children.length > 0 then .error .diverged
      else .ok (h, σ, node)
  | fuel + 1, h, σ, node, sim =>
    match h[node]? with
    | none => .error .nilDereference
    | some nd =>
      if nd.untriedMoves.length = 0 ∧ nd.children.length > 0 then
        match selectChild A T h node with
        | .error e => .error e
        | .ok (c, h1) =>
          match h1[c]? with
          | none => .error .nilDereference
          | some cn =>
            match cn.move with
            | none => .error .nilDereference
            | some m =>
              match MakeMove G σ sim m with
              | .error e => .error e
              | .ok σ1 => selectLoop A T G fuel h1 σ1 c sim
      else .ok (h, σ, node)

/-- Phase 2 of an iteration of `Uct`: expand. -/
def expand (A : Float64 F) (G : GameObject S M F) (rnd : Rand) (h : Heap Nat M F)
    (β : List (List M)) (σ : Store S) (node sim : Nat) :
    Except Failure (Rand × Heap Nat M F × List (List M) × Store S × Nat) :=
  match h[node]? with
  | none => .error .nilDereference
  | some nd =>
    if nd.untriedMoves.length > 0 then
      match getRandomMoves G rnd h β σ node with
      | .error e => .error e
      | .ok (move, rnd1, h1, β1, σ0) =>
        match MakeMove G.toGameState σ0 sim move with
        | .error e => .error e
        | .ok σ1 =>
          match Clone G.toGameState σ1 sim with
          | .error e => .error e
          | .ok (cl, σ2) =>
            match h1[node]? with
            | none => .error .nilDereference
            | some nd1 =>
              match newTreeNode A G.toGameState σ2 (some node) (some move) cl nd1.ucbC with
              | .error e => .error e
              | .ok (child, arr) =>
                .ok (rnd1, (h1.set node { nd1 with children := nd1.children ++ [h1.length] })
                      ++ [child], β1 ++ [arr], σ2, h1.length)
    else .ok (rnd, h, β, σ, node)

/-- Phase 3 of an iteration of `Uct`: the rollout on the object `simulatedState`. -/
def simulate (G : GameState S M F) : Nat → Rand → Store S → Nat → Except Failure (Rand × Store S)
  | 0, rand, σ, _ => .ok (rand, σ)
  | j + 1, rand, σ, sim =>
    match σ[sim]? with
    | none => .error .nilDereference
    | some s =>
      match G.AvailableMoves s with
      | [] => .ok (rand, σ)
      | mv :: mvs =>
        match rand.Intn (mv :: mvs).length with
        | .error e => .error e
        | .ok (i, rand1) =>
          match (mv :: mvs)[i]? with
          | none => .error .indexOutOfRange
          | some move =>
            match MakeMove G σ sim move with
            | .error e => .error e
            | .ok σ1 => simulate G j rand1 σ1 sim

/-- What an iteration of `Uct` works on: the tree, the backing arrays of the slices
`untriedMoves` of its nodes, the game-state objects and the two random sources. -/
structure World (S M F : Type) where
  heap : Heap Nat M F
  backing : List (List M)
  store : Store S
  rnd : Rand
  rand : Rand

/-- One iteration of the loop of `Uct`. -/
def iteration (A : Float64 F) (T : SortFn) (G : GameObject S M F) (opt : UctOption F)
    (w : World S M F) : Except Failure (World S M F) :=
  match w.heap[0]? with
  | none => .error .nilDereference
  | some root =>
    match Clone G.toGameState w.store root.state with
    | .error e => .error e
    | .ok (sim, σ0) =>
      match selectLoop A T G.toGameState w.heap.length w.heap σ0 0 sim with
      | .error e => .error e
      | .ok (h1, σ1, node1) =>
        match expand A G w.rnd h1 w.backing σ1 node1 sim with
        | .error e => .error e
        | .ok (rnd2, h2, β2, σ2, node2) =>
          match simulate G.toGameState (intOfUint opt.Simulations).toNat w.rand σ2 sim with
          | .error e => .error e
          | .ok (rand3, σ3) =>
            match σ3[sim]? with
            | none => .error .nilDereference
            | some s3 =>
              match update A (G.Score s3) h2 (some node2) with
              | .error e => .error e
              | .ok h4 =>
                .ok { heap := h4, backing := β2, store := σ3, rnd := rnd2, rand := rand3 }

/-- The first `n` iterations of the loop of `Uct`. -/
def iterations (A : Float64 F) (T : SortFn) (G : GameObject S M F) (opt : UctOption F) :
    Nat → World S M F → Except Failure (World S M F)
  | 0, w => .ok w
  | n + 1, w =>
    match iterations A T G opt n w with
    | .error e => .error e
    | .ok w1 => iteration A T G opt w1

/-- The function `Uct` of `uct.go`, called with the pointer `state` into the store `σ`;
the store on return is returned with the move. -/
def Uct (A : Float64 F) (T : SortFn) (G : GameObject S M F) (rnd rand : Rand)
    (σ : Store S) (state : Nat) (opt : UctOption F) : Except Failure (Option M × Store S) :=
  match newTreeNode A G.toGameState σ none none state opt.UcbConstant with
  | .error e => .error e
  | .ok (root, arr) =>
    match iterations A T G opt (intOfUint opt.Iterations).toNat
        { heap := [root], backing := [arr], store := σ, rnd := rnd, rand := rand } with
    | .error e => .error e
    | .ok w =>
      match bestMove T w.heap with
      | .error e => .error e
      | .ok mv => .ok (mv, w.store)

end Ref

/-- The value `s2` comes from the value `s` by writes into the slice that
`AvailableMoves()` returned, none or more, and by nothing else. -/
def Overwritten {S M F : Type} (G : GameObject S M F) (s s2 : S) : Prop :=
  Relation.ReflTransGen (fun a b => ∃ arr, b = G.Overwrite a arr) s s2

/-- No object of `σ` is missing from `σ2`, and the objects below address `L` hold in
`σ2` the value they hold in `σ` but for writes into the slices their `AvailableMoves()`
returned. -/
def Keeps {S M F : Type} (G : GameObject S M F) (L : Nat) (σ σ2 : Store S) : Prop :=
  σ.length ≤ σ2.length ∧
    ∀ a s, a < L → σ[a]? = some s → ∃ s2, σ2[a]? = some s2 ∧ Overwritten G s s2

section Abstraction

variable {S M F : Type}

/-- A node with its state seen through `g`; every other field is kept. -/
def mapState {S1 S2 : Type} (g : S1 → S2) (nd : treeNode S1 M F) : treeNode S2 M F :=
  { parent := nd.parent
    move := nd.move
    state := g nd.state
    totalOutcome := nd.totalOutcome
    visits := nd.visits
    untriedMoves := nd.untriedMoves
    children := nd.children
    ucbC := nd.ucbC
    selectionScore := nd.selectionScore
    player := nd.player }

/-- The value of the object at `a`; `d` where there is no object. -/
def valueAt (σ : Store S) (d : S) (a : Nat) : S :=
  (σ[a]?).getD d

/-- No node of the heap points to the object `sim`, and every node points to an object
below `len`. -/
def StatesOff (sim len : Nat) (h : Heap Nat M F) : Prop :=
  ∀ nd ∈ h, nd.state ≠ sim ∧ nd.state < len

/-- The stores `σ` and `σ1` hold the same objects but for the one at `sim`. -/
def AgreeOff (sim : Nat) (σ σ1 : Store S) : Prop :=
  σ1.length = σ.length ∧ ∀ a, a ≠ sim → σ1[a]? = σ[a]?

/-- The world of the value embedding that a world of the object embedding stands for. -/
def absWorld (d : S) (w : Ref.World S M F) : World S M F :=
  { heap := w.heap.map (mapState (valueAt w.store d)), rnd := w.rnd, rand := w.rand }

end Abstraction

/-- Equality of results is decidable. -/
instance instDecidableEqExcept {ε α : Type} [DecidableEq ε] [DecidableEq α] :
    DecidableEq (Except ε α)
  | .ok a, .ok b =>
    if h : a = b then isTrue (by rw [h]) else isFalse (by intro e; cases e; exact h rfl)
  | .error a, .error b =>
    if h : a = b then isTrue (by rw [h]) else isFalse (by intro e; cases e; exact h rfl)
  | .ok _, .error _ => isFalse (by intro e; cases e)
  | .error _, .ok _ => isFalse (by intro e; cases e)

/-- Exact rational arithmetic in the place of `float64`, for runs on concrete inputs.
Square root and logarithm have no rational values in general: they are constant `0`
here, and the runs below take the exploration constant `0`, for which the exploration
term `ucbC * sqrt(..)` is `0` in `float64` as well (for `parentVisits ≥ 1`). -/
def ratFloat64 : Float64 ℚ :=
  { zero := 0
    half := 1 / 2
    one := 1
    two := 2
    ofUint64 := fun n => (n : ℚ)
    add := fun a b => a + b
    mul := fun a b => a * b
    div := fun a b => a / b
    sqrt := fun _ => 0
    log := fun _ => 0
    gt := fun a b => decide (b < a) }

/-- The arithmetic of the reals in the place of `float64`: what the formulas say
when rounding is left out. -/
noncomputable def realFloat64 : Float64 ℝ :=
  { zero := 0
    half := 1 / 2
    one := 1
    two := 2
    ofUint64 := fun n => (n : ℝ)
    add := fun a b => a + b
    mul := fun a b => a * b
    div := fun a b => a / b
    sqrt := Real.sqrt
    log := Real.log
    gt := fun a b => decide (b < a) }

/-! ## The game of Nim (`examples/games/nim`) -/

namespace Nim

/-- The max chips a player can pick on their move. -/
def MAX_PICKABLE_CHIPS : Nat := 3

/-- The state of a Nim game; `chips` is a `uint64`. -/
structure NimState where
  JustMovedPlayerId : Int
  ActivePlayerId : Int
  chips : Nat
  deriving DecidableEq, Repr

/-- A single move in a Nim game; `chips` is a `uint64`. -/
structure NimMove where
  playerId : Int
  chips : Nat
  deriving DecidableEq, Repr

/-- The function `newNimMove`: panics unless 1 to 3 chips are taken. -/
def newNimMove (playerId : Int) (chips : Nat) : Except Failure NimMove :=
  if chips < 1 ∨ chips > 3 then .error .panicked
  else .ok { playerId := playerId, chips := chips }

/-- The function `NewNimState`. -/
def NewNimState (chips : Nat) : NimState :=
  { JustMovedPlayerId := 2, ActivePlayerId := 1, chips := chips }

/-- The method `Clone`. -/
def NimState.Clone (g : NimState) : NimState :=
  { JustMovedPlayerId := g.JustMovedPlayerId
    ActivePlayerId := g.ActivePlayerId
    chips := g.chips }

/-- The method `AvailableMoves`: the moves `newNimMove` makes for 1, 2, .. up to
`maxChipsPickable` chips (a panic of `newNimMove` would show as a missing move). -/
def NimState.AvailableMoves (g : NimState) : List NimMove :=
  let maxChipsPickable := if g.chips > MAX_PICKABLE_CHIPS then MAX_PICKABLE_CHIPS else g.chips
  (List.range maxChipsPickable).filterMap
    (fun k => (newNimMove g.ActivePlayerId (k + 1)).toOption)

/-- The method `MakeMove`: the subtraction is that of `uint64`. -/
def NimState.MakeMove (g : NimState) (move : NimMove) : NimState :=
  { JustMovedPlayerId := g.ActivePlayerId
    ActivePlayerId := g.JustMovedPlayerId
    chips := (g.chips + 2 ^ 64 - move.chips % 2 ^ 64) % 2 ^ 64 }

/-- The method `Score`. -/
def NimState.Score {F : Type} (A : Float64 F) (g : NimState) (player : Int) : F :=
  if g.AvailableMoves.length > 0 then A.half
  else if player = g.JustMovedPlayerId then A.one
  else A.zero

/-- The method `PlayerJustMoved`. -/
def NimState.PlayerJustMoved (g : NimState) : Int :=
  g.JustMovedPlayerId

/-- The type `NimState` as a `GameState`. -/
def nimGame {F : Type} (A : Float64 F) : GameState NimState NimMove F :=
  { Clone := NimState.Clone
    AvailableMoves := NimState.AvailableMoves
    MakeMove := NimState.MakeMove
    Score := NimState.Score A
    PlayerJustMoved := NimState.PlayerJustMoved }

/-- The player `p` has a winning strategy from the state `g`: the game can be brought
to its end with `Score(p) = 1.0` whatever the other player moves.  At most `fuel` moves
are looked ahead. -/
def wins {F : Type} [DecidableEq F] (A : Float64 F) : Nat → NimState → Int → Bool
  | 0, g, p => decide (g.Score A p = A.one)
  | fuel + 1, g, p =>
    if g.AvailableMoves = [] then decide (g.Score A p = A.one)
    else if p = g.ActivePlayerId then
      g.AvailableMoves.any (fun m => wins A fuel (g.MakeMove m) p)
    else g.AvailableMoves.all (fun m => wins A fuel (g.MakeMove m) p)

end Nim

/-- A random source that draws the same number every time. -/
def constRand (k : Nat) : Rand :=
  { src := fun _ => k, pos := 0 }

/-- The heap after 8 iterations of `Uct` on the Nim game of 4 chips, with
`Simulations = 0`, `UcbConstant = 0` and `rnd` drawing 2 every time
(`nimHeap8_is_run`).  Node 1 is the child by "take 3", node 2 by "take 1", node 3 by
"take 2", appended in this order; the slice `children` of the root stands as the
`selectChild` calls left it. -/
def nimHeap8 : Heap Nim.NimState Nim.NimMove ℚ :=
  [ { parent := none, move := none, state := ⟨2, 1, 4⟩, totalOutcome := 6, visits := 8,
      untriedMoves := [], children := [3, 2, 1], ucbC := 0, selectionScore := 3 / 4,
      player := 2 },
    { parent := some 0, move := some ⟨1, 3⟩, state := ⟨1, 2, 1⟩, totalOutcome := 1 / 2,
      visits := 2, untriedMoves := [], children := [4], ucbC := 0,
      selectionScore := 1 / 4, player := 1 },
    { parent := some 0, move := some ⟨1, 1⟩, state := ⟨1, 2, 3⟩, totalOutcome := 1 / 2,
      visits := 2, untriedMoves := [⟨2, 1⟩, ⟨2, 2⟩], children := [5], ucbC := 0,
      selectionScore := 1 / 4, player := 1 },
    { parent := some 0, move := some ⟨1, 2⟩, state := ⟨1, 2, 2⟩, totalOutcome := 1,
      visits := 4, untriedMoves := [], children := [7, 6], ucbC := 0,
      selectionScore := 1 / 4, player := 1 },
    { parent := some 1, move := some ⟨2, 1⟩, state := ⟨2, 1, 0⟩, totalOutcome := 1,
      visits := 1, untriedMoves := [], children := [], ucbC := 0, selectionScore := 1,
      player := 2 },
    { parent := some 2, move := some ⟨2, 3⟩, state := ⟨2, 1, 0⟩, totalOutcome := 1,
      visits := 1, untriedMoves := [], children := [], ucbC := 0, selectionScore := 1,
      player := 2 },
    { parent := some 3, move := some ⟨2, 1⟩, state := ⟨2, 1, 1⟩, totalOutcome := 1 / 2,
      visits := 1, untriedMoves := [⟨1, 1⟩], children := [], ucbC := 0,
      selectionScore := 1 / 2, player := 2 },
    { parent := some 3, move := some ⟨2, 2⟩, state := ⟨2, 1, 0⟩, totalOutcome := 2,
      visits := 2, untriedMoves := [], children := [], ucbC := 0, selectionScore := 1,
      player := 2 } ]

/-- The game-state objects when `Uct` returns from 3 iterations on the Nim game of 4
chips, with `Simulations = 2`, `rnd` drawing 0 and the global source drawing 1:
object 0 is the state of the caller, objects 1, 3
and 5 are the working states of the iterations, objects 2, 4 and 6 the states stored in
the new nodes. -/
def nimStore3 : Store Nim.NimState :=
  [{ JustMovedPlayerId := 2, ActivePlayerId := 1, chips := 4 },
   { JustMovedPlayerId := 1, ActivePlayerId := 2, chips := 0 },
   { JustMovedPlayerId := 1, ActivePlayerId := 2, chips := 3 },
   { JustMovedPlayerId := 2, ActivePlayerId := 1, chips := 0 },
   { JustMovedPlayerId := 1, ActivePlayerId := 2, chips := 2 },
   { JustMovedPlayerId := 2, ActivePlayerId := 1, chips := 0 },
   { JustMovedPlayerId := 1, ActivePlayerId := 2, chips := 1 }]

/-- The type `NimState` as a game of objects: `AvailableMoves` builds a new slice on
every call, which shares nothing with the state. -/
def Nim.nimObject {F : Type} (A : Float64 F) : GameObject Nim.NimState Nim.NimMove F :=
  { Nim.nimGame A with Overwrite := fun s _ => s }

/-- A game whose state is the slice of its moves: `AvailableMoves()` returns that
slice itself, `Clone()` copies it, and a move ends the game. -/
def sliceGame {F : Type} (A : Float64 F) : GameObject (List Nat) Nat F :=
  { Clone := fun s => s
    AvailableMoves := fun s => s
    MakeMove := fun _ _ => []
    Score := fun _ _ => A.zero
    PlayerJustMoved := fun _ => 0
    Overwrite := fun _ arr => arr }

/-! ## The insertion sort of `sort.Sort` meets its contract -/

theorem sink_perm (less : Nat → Nat → Bool) (x : Nat) (l : List Nat) :
    (sink less x l).Perm (x :: l) := by
  induction l with
  | nil => simp [sink]
  | cons y ys ih =>
    simp only [sink]
    split
    · exact (List.Perm.cons y ih).trans (List.Perm.swap x y ys)
    · exact List.Perm.refl _

theorem foldl_sink_perm (less : Nat → Nat → Bool) (l rp : List Nat) :
    (l.foldl (fun rp x => sink less x rp) rp).Perm (l.reverse ++ rp) := by
  induction l generalizing rp with
  | nil => simp
  | cons x xs ih =>
    simp only [List.foldl_cons, List.reverse_cons, List.append_assoc, List.singleton_append]
    exact (ih _).trans (List.Perm.append_left _ (sink_perm less x rp))

theorem insertionSort_perm (less : Nat → Nat → Bool) (l : List Nat) :
    (insertionSort less l).Perm l := by
  unfold insertionSort
  have h := foldl_sink_perm less l []
  simp only [List.append_nil] at h
  exact (List.reverse_perm _).trans (h.trans (List.reverse_perm _))

theorem sink_pairwise (less : Nat → Nat → Bool) (l0 : List Nat) (hw : StrictWeak less l0)
    (x : Nat) (hx : x ∈ l0) (l : List Nat) (hsub : ∀ y ∈ l, y ∈ l0)
    (hl : l.Pairwise (fun a b => less a b = false)) :
    (sink less x l).Pairwise (fun a b => less a b = false) := by
  induction l with
  | nil => simp [sink]
  | cons y ys ih =>
    rw [List.pairwise_cons] at hl
    have hy : y ∈ l0 := hsub y (List.mem_cons_self _ _)
    have hys : ∀ z ∈ ys, z ∈ l0 := fun z hz => hsub z (List.mem_cons_of_mem _ hz)
    simp only [sink]
    split
    · rename_i hxy
      rw [List.pairwise_cons]
      refine ⟨?_, ih hys hl.2⟩
      intro z hz
      have hz1 := (sink_perm less x ys).mem_iff.mp hz
      rw [List.mem_cons] at hz1
      rcases hz1 with rfl | hz1
      · exact hw.1 _ hx _ hy hxy
      · exact hl.1 z hz1
    · rename_i hxy
      rw [List.pairwise_cons]
      refine ⟨?_, List.pairwise_cons.mpr hl⟩
      intro z hz
      rw [List.mem_cons] at hz
      rcases hz with rfl | hz
      · simpa using hxy
      · by_contra hc
        have hc1 : less x z = true := by simpa using hc
        rcases hw.2 x hx y hy z (hys z hz) hc1 with h1 | h1
        · exact hxy h1
        · have := hl.1 z hz
          rw [this] at h1
          cases h1

theorem foldl_sink_pairwise (less : Nat → Nat → Bool) (l0 : List Nat)
    (hw : StrictWeak less l0) (l rp : List Nat) (hl0 : ∀ y ∈ l, y ∈ l0)
    (hsub : ∀ y ∈ rp, y ∈ l0) (hl : rp.Pairwise (fun a b => less a b = false)) :
    (l.foldl (fun rp x => sink less x rp) rp).Pairwise (fun a b => less a b = false) := by
  induction l generalizing rp with
  | nil => simpa using hl
  | cons x xs ih =>
    have hx : x ∈ l0 := hl0 x (List.mem_cons_self _ _)
    refine ih _ (fun y hy => hl0 y (List.mem_cons_of_mem _ hy)) ?_
      (sink_pairwise less l0 hw x hx rp hsub hl)
    intro y hy
    have := (sink_perm less x rp).mem_iff.mp hy
    rw [List.mem_cons] at this
    rcases this with rfl | h1
    · exact hx
    · exact hsub y h1

theorem insertionSort_sorted (less : Nat → Nat → Bool) (l : List Nat)
    (hw : StrictWeak less l) :
    (insertionSort less l).Pairwise (fun a b => less b a = false) := by
  unfold insertionSort
  rw [List.pairwise_reverse]
  exact foldl_sink_pairwise less l hw l [] (fun _ hy => hy) (fun _ hy => by cases hy)
    List.Pairwise.nil

theorem insertionSort_contract : SortContract insertionSort :=
  ⟨insertionSort_perm, insertionSort_sorted⟩

/-! ## Backpropagation: what `update` does to the heap -/

section Update

variable {S M F : Type}

theorem parentChain_le (h : Heap S M F) (hp : ParentsBelow h) :
    ∀ fuel n m, m ∈ parentChain h fuel (some n) → m ≤ n := by
  intro fuel
  induction fuel with
  | zero => intro n m hm; simp [parentChain] at hm
  | succ f ih =>
    intro n m hm
    simp only [parentChain] at hm
    cases hn : h[n]? with
    | none => simp [hn] at hm
    | some nd =>
      simp only [hn, List.mem_cons] at hm
      rcases hm with rfl | hm
      · exact Nat.le_refl _
      · cases hpar : nd.parent with
        | none => simp [hpar, parentChain] at hm
        | some p =>
          rw [hpar] at hm
          exact Nat.le_trans (ih p m hm) (Nat.le_of_lt (hp n nd hn p hpar))

theorem parentChain_congr (h1 h : Heap S M F)
    (hpar : ∀ i : Nat, (h1[i]?).map (fun (nd : treeNode S M F) => nd.parent) =
      (h[i]?).map (fun (nd : treeNode S M F) => nd.parent)) :
    ∀ fuel x, parentChain h1 fuel x = parentChain h fuel x := by
  intro fuel
  induction fuel with
  | zero => intro x; cases x <;> simp [parentChain]
  | succ f ih =>
    intro x
    cases x with
    | none => simp [parentChain]
    | some n =>
      have := hpar n
      simp only [parentChain]
      cases h1n : h1[n]? with
      | none =>
        rw [h1n] at this
        cases hn : h[n]? with
        | none => rfl
        | some nd => rw [hn] at this; simp at this
      | some nd1 =>
        rw [h1n] at this
        cases hn : h[n]? with
        | none => rw [hn] at this; simp at this
        | some nd =>
          rw [hn] at this
          simp only [Option.map_some', Option.some.injEq] at this
          simp only [this, ih]

theorem updateAux_spec (A : Float64 F) (score : Int → F) :
    ∀ fuel (h : Heap S M F) n, ParentsBelow h → n < h.length → n < fuel →
      ∃ h2, updateAux A score fuel h (some n) = .ok h2 ∧ h2.length = h.length ∧
        ∀ m, h2[m]? = (h[m]?).map (fun nd =>
          if m ∈ parentChain h fuel (some n) then updated A score h nd else nd) := by
  intro fuel
  induction fuel with
  | zero => intro h n _ _ hf; omega
  | succ f ih =>
    intro h n hp hn hf
    obtain ⟨nd0, hnd0⟩ : ∃ nd0, h[n]? = some nd0 := ⟨h[n], List.getElem?_eq_getElem hn⟩
    obtain ⟨b, hb⟩ : ∃ b : treeNode S M F, b = { nd0 with
        totalOutcome := A.add nd0.totalOutcome (score nd0.player)
        visits := (nd0.visits + 1) % 2 ^ 64 } := ⟨_, rfl⟩
    simp only [updateAux, hnd0, parentChain]
    rw [← hb]
    rcases Option.eq_none_or_eq_some nd0.parent with hpar | ⟨p, hpar⟩
    · rw [hpar]
      simp only [updateAux, computeSelectionScore, List.getElem?_set_self hn, parentChain,
        List.mem_singleton, List.set_set]
      refine ⟨_, rfl, by simp, ?_⟩
      intro m
      by_cases hm : m = n
      · subst hm
        simp [List.getElem?_set_self hn, hnd0, updated, hpar, getVisits, hb]
      · have hm2 : n ≠ m := fun e => hm e.symm
        simp [List.getElem?_set_ne hm2, hm]
    · have hpn : p < n := hp n nd0 hnd0 p hpar
      have hbpar : b.parent = nd0.parent := by rw [hb]
      have hget1 : ∀ m, m ≠ n → (h.set n b)[m]? = h[m]? := by
        intro m hm
        exact List.getElem?_set_ne (fun e => hm e.symm)
      have hparEq : ∀ i : Nat, ((h.set n b)[i]?).map
              (fun (nd : treeNode S M F) => nd.parent) =
            (h[i]?).map (fun (nd : treeNode S M F) => nd.parent) := by
        intro i
        by_cases hi : i = n
        · subst hi
          simp [List.getElem?_set_self hn, hnd0, hbpar]
        · rw [hget1 i hi]
      have hp1 : ParentsBelow (h.set n b) := by
        intro i nd hi q hq
        by_cases hin : i = n
        · subst hin
          rw [List.getElem?_set_self hn] at hi
          cases hi
          exact hp i nd0 hnd0 q (hbpar ▸ hq)
        · rw [hget1 i hin] at hi
          exact hp i nd hi q hq
      obtain ⟨h2, hrec, hlen2, hspec2⟩ := ih _ p hp1 (by simp; omega) (by omega)
      rw [hpar, hrec]
      have hnotin : n ∉ parentChain (h.set n b) f (some p) := by
        intro hmem
        have := parentChain_le _ hp1 f p n hmem
        omega
      have h2n : h2[n]? = some b := by
        rw [hspec2 n, List.getElem?_set_self hn]
        simp [hnotin]
      obtain ⟨ndp, hndp⟩ : ∃ ndp, h[p]? = some ndp :=
        ⟨h[p], List.getElem?_eq_getElem (by omega)⟩
      have hpin : p ∈ parentChain (h.set n b) f (some p) := by
        obtain ⟨f1, rfl⟩ : ∃ f1, f = f1 + 1 := ⟨f - 1, by omega⟩
        simp [parentChain, hget1 p (by omega), hndp]
      have h2p : getVisits h2 (some p) = (getVisits h (some p) + 1) % 2 ^ 64 := by
        simp only [getVisits, hspec2 p, hget1 p (Nat.ne_of_lt hpn), hndp, Option.map_some',
          if_pos hpin, updated]
      simp only [computeSelectionScore, h2n, hbpar, hpar, h2p]
      refine ⟨_, rfl, by simp [hlen2], ?_⟩
      intro m
      by_cases hm : m = n
      · subst hm
        rw [List.getElem?_set_self (by rw [hlen2, List.length_set]; exact hn), hnd0]
        simp [updated, hpar, hb]
      · rw [List.getElem?_set_ne (fun e => hm e.symm), hspec2 m, hget1 m hm,
          parentChain_congr _ h hparEq]
        cases hmm : h[m]? with
        | none => rfl
        | some nd =>
          simp only [Option.map_some', List.mem_cons, hm, false_or, Option.some.injEq]
          by_cases hin : m ∈ parentChain h f (some p)
          · simp only [if_pos hin]
            have hmp : m ≤ p := parentChain_le h hp f p m hin
            simp only [updated]
            cases hq : nd.parent with
            | none => rfl
            | some q =>
              have hqm : q < m := hp m nd hmm q hq
              simp only [getVisits, hget1 q (by omega)]
          · simp only [if_neg hin]

end Update

/-! ## Heaps that hold the same tree -/

section Shape

variable {S M F : Type}

theorem sameTree_refl (h : Heap S M F) : SameTree h h :=
  ⟨rfl, fun _ nd hnd => ⟨nd, hnd, rfl, rfl, rfl, rfl, List.Perm.refl _⟩⟩

theorem sameTree_trans {h1 h2 h3 : Heap S M F} (a : SameTree h1 h2) (b : SameTree h2 h3) :
    SameTree h1 h3 := by
  refine ⟨b.1.trans a.1, ?_⟩
  intro i nd hnd
  obtain ⟨nd2, h2, e1, e2, e3, e4, e5⟩ := a.2 i nd hnd
  obtain ⟨nd3, h3, f1, f2, f3, f4, f5⟩ := b.2 i nd2 h2
  exact ⟨nd3, h3, f1.trans e1, f2.trans e2, f3.trans e3, f4.trans e4, f5.trans e5⟩

theorem sameTree_back {h h2 : Heap S M F} (a : SameTree h h2) (i : Nat)
    (nd2 : treeNode S M F) (hi : h2[i]? = some nd2) :
    ∃ nd, h[i]? = some nd ∧ nd2.parent = nd.parent ∧ nd2.move = nd.move ∧
      nd2.state = nd.state ∧ nd2.untriedMoves = nd.untriedMoves ∧
      nd2.children.Perm nd.children := by
  have hlt : i < h.length := by
    have := (List.getElem?_eq_some_iff.mp hi).1
    rw [a.1] at this
    exact this
  obtain ⟨nd3, h3, e⟩ := a.2 i h[i] (List.getElem?_eq_getElem hlt)
  rw [hi] at h3
  cases h3
  exact ⟨h[i], List.getElem?_eq_getElem hlt, e⟩

theorem sameTree_move_eq {h h2 : Heap S M F} (a : SameTree h h2) (c : Nat) :
    (h2[c]?).bind (fun (cn : treeNode S M F) => cn.move) =
      (h[c]?).bind (fun (cn : treeNode S M F) => cn.move) := by
  cases hc : h[c]? with
  | none =>
    have : h2[c]? = none := by
      rw [List.getElem?_eq_none_iff] at hc ⊢
      rw [a.1]
      exact hc
    rw [this]
  | some nd =>
    obtain ⟨nd2, h2c, _, e2, _⟩ := a.2 c nd hc
    rw [h2c]
    exact e2

theorem treeInv_of_sameTree {G : GameState S M F} {s0 : S} {h h2 : Heap S M F}
    (inv : TreeInv G s0 h) (a : SameTree h h2) : TreeInv G s0 h2 := by
  constructor
  · obtain ⟨r, hr, hp, hs⟩ := inv.root
    obtain ⟨r2, hr2, e1, _, e3, _⟩ := a.2 0 r hr
    exact ⟨r2, hr2, e1.trans hp, e3.trans hs⟩
  · intro i nd2 hi p hp
    obtain ⟨nd, hnd, e1, _⟩ := sameTree_back a i nd2 hi
    exact inv.below i nd hnd p (e1 ▸ hp)
  · intro i nd2 hi h0
    obtain ⟨nd, hnd, e1, e2, _⟩ := sameTree_back a i nd2 hi
    rw [e1, e2]
    exact inv.nonroot i nd hnd h0
  · intro i nd2 hi p hp
    obtain ⟨nd, hnd, e1, _⟩ := sameTree_back a i nd2 hi
    obtain ⟨pn, hpn, hmem⟩ := inv.childOf i nd hnd p (e1 ▸ hp)
    obtain ⟨pn2, hpn2, _, _, _, _, e5⟩ := a.2 p pn hpn
    exact ⟨pn2, hpn2, e5.mem_iff.mpr hmem⟩
  · intro i nd2 hi c hc
    obtain ⟨nd, hnd, _, _, _, _, e5⟩ := sameTree_back a i nd2 hi
    rw [a.1]
    exact inv.children i nd hnd c (e5.mem_iff.mp hc)
  · intro i nd2 hi
    obtain ⟨nd, hnd, _, _, e3, e4, e5⟩ := sameTree_back a i nd2 hi
    have hfun : (fun c => (h2[c]?).bind (fun (cn : treeNode S M F) => cn.move)) =
        (fun c => (h[c]?).bind (fun (cn : treeNode S M F) => cn.move)) :=
      funext (fun c => sameTree_move_eq a c)
    rw [e3, e4]
    unfold childMoves
    rw [hfun]
    exact (List.Perm.append_right _ (e5.map _)).trans (inv.moves i nd hnd)

theorem reordered_refl (h : Heap S M F) : Reordered h h :=
  ⟨rfl, fun _ nd hnd => ⟨nd, hnd, rfl, List.Perm.refl _⟩⟩

theorem reordered_trans {h1 h2 h3 : Heap S M F} (a : Reordered h1 h2) (b : Reordered h2 h3) :
    Reordered h1 h3 := by
  refine ⟨b.1.trans a.1, ?_⟩
  intro i nd hnd
  obtain ⟨nd2, h2, e1, e2⟩ := a.2 i nd hnd
  obtain ⟨nd3, h3, f1, f2⟩ := b.2 i nd2 h2
  refine ⟨nd3, h3, ?_, f2.trans e2⟩
  rw [f1, e1]

theorem reordered_sameTree {h h2 : Heap S M F} (a : Reordered h h2) : SameTree h h2 := by
  refine ⟨a.1, ?_⟩
  intro i nd hnd
  obtain ⟨nd2, h2, e1, e2⟩ := a.2 i nd hnd
  refine ⟨nd2, h2, ?_, ?_, ?_, ?_, e2⟩ <;> rw [e1]

theorem reordered_getVisits {h h2 : Heap S M F} (a : Reordered h h2) (x : Option Nat) :
    getVisits h2 x = getVisits h x := by
  cases x with
  | none => rfl
  | some p =>
    simp only [getVisits]
    cases hp : h[p]? with
    | none =>
      have : h2[p]? = none := by
        rw [List.getElem?_eq_none_iff] at hp ⊢
        rw [a.1]
        exact hp
      rw [this]
    | some nd =>
      obtain ⟨nd2, h2p, e1, _⟩ := a.2 p nd hp
      rw [h2p, e1]

end Shape

/-! ## The phases of an iteration -/

section Phases

variable {S M F : Type}

theorem update_spec (A : Float64 F) (score : Int → F) (h : Heap S M F) (n : Nat)
    (hp : ParentsBelow h) (hn : n < h.length) :
    ∃ h2, update A score h (some n) = .ok h2 ∧ h2.length = h.length ∧
      ∀ m, h2[m]? = (h[m]?).map (fun nd =>
        if m ∈ parentChain h h.length (some n) then updated A score h nd else nd) :=
  updateAux_spec A score h.length h n hp hn hn

theorem update_sameTree (A : Float64 F) (score : Int → F) (h : Heap S M F) (n : Nat)
    (hp : ParentsBelow h) (hn : n < h.length) :
    ∃ h2, update A score h (some n) = .ok h2 ∧ SameTree h h2 := by
  obtain ⟨h2, hu, hlen, hspec⟩ := update_spec A score h n hp hn
  refine ⟨h2, hu, hlen, ?_⟩
  intro i nd hnd
  rw [hspec i, hnd]
  by_cases hin : i ∈ parentChain h h.length (some n)
  · exact ⟨updated A score h nd, by simp only [Option.map_some', if_pos hin], rfl, rfl, rfl,
      rfl, List.Perm.refl _⟩
  · exact ⟨nd, by simp only [Option.map_some', if_neg hin], rfl, rfl, rfl, rfl,
      List.Perm.refl _⟩

theorem zero_mem_parentChain (h : Heap S M F) (hp : ParentsBelow h)
    (hnr : ∀ (i : Nat) (nd : treeNode S M F), h[i]? = some nd → 0 < i →
      ∃ p, nd.parent = some p) :
    ∀ fuel n, n < h.length → n < fuel → 0 ∈ parentChain h fuel (some n) := by
  intro fuel
  induction fuel with
  | zero => intro n _ hf; omega
  | succ f ih =>
    intro n hn hf
    have hnd : h[n]? = some h[n] := List.getElem?_eq_getElem hn
    simp only [parentChain, hnd, List.mem_cons]
    by_cases h0 : n = 0
    · exact Or.inl h0.symm
    · right
      obtain ⟨p, hpar⟩ := hnr n h[n] hnd (by omega)
      have hpn : p < n := hp n h[n] hnd p hpar
      rw [hpar]
      exact ih p (by omega) (by omega)

theorem update_root_visits (A : Float64 F) (score : Int → F) (h : Heap S M F) (n : Nat)
    (hp : ParentsBelow h)
    (hnr : ∀ (i : Nat) (nd : treeNode S M F), h[i]? = some nd → 0 < i →
      ∃ p, nd.parent = some p)
    (hn : n < h.length) :
    ∃ h2, update A score h (some n) = .ok h2 ∧ SameTree h h2 ∧
      getVisits h2 (some 0) = (getVisits h (some 0) + 1) % 2 ^ 64 := by
  obtain ⟨h2, hu, hlen, hspec⟩ := update_spec A score h n hp hn
  obtain ⟨h3, hu3, hst⟩ := update_sameTree A score h n hp hn
  rw [hu] at hu3
  cases hu3
  refine ⟨h2, hu, hst, ?_⟩
  have h0 : 0 < h.length := by omega
  have hin := zero_mem_parentChain h hp hnr h.length n hn hn
  simp only [getVisits, hspec 0, List.getElem?_eq_getElem h0, Option.map_some', if_pos hin,
    updated]

theorem selectChild_spec (A : Float64 F) (T : SortFn) (hT : SortContract T)
    (h : Heap S M F) (n : Nat) (nd : treeNode S M F) (hnd : h[n]? = some nd)
    (hne : nd.children ≠ []) :
    ∃ c cs, T (bySelectionScore A h) nd.children = c :: cs ∧
      selectChild A T h n = .ok (c, h.set n { nd with children := c :: cs }) ∧
      c ∈ nd.children ∧ Reordered h (h.set n { nd with children := c :: cs }) := by
  have hperm := hT.1 (bySelectionScore A h) nd.children
  cases hs : T (bySelectionScore A h) nd.children with
  | nil =>
    rw [hs] at hperm
    exact absurd hperm.symm.eq_nil hne
  | cons c cs =>
    rw [hs] at hperm
    refine ⟨c, cs, rfl, ?_, ?_, ?_⟩
    · simp only [selectChild, hnd, hs]
    · exact hperm.mem_iff.mp (List.mem_cons_self _ _)
    · refine ⟨by simp, ?_⟩
      intro i ndi hi
      by_cases hin : i = n
      · subst hin
        rw [hnd] at hi
        cases hi
        have hlt : i < h.length := (List.getElem?_eq_some_iff.mp hnd).1
        exact ⟨_, List.getElem?_set_self hlt, rfl, hperm⟩
      · exact ⟨ndi, by rw [List.getElem?_set_ne (fun e => hin e.symm)]; exact hi, rfl,
          List.Perm.refl _⟩

theorem selectLoop_spec (A : Float64 F) (T : SortFn) (hT : SortContract T)
    (G : GameState S M F) (s0 : S) :
    ∀ fuel (h : Heap S M F) node st, TreeInv G s0 h → node < h.length →
      h.length ≤ fuel + node + 1 →
      ∃ h1 node1 st1 nd1, selectLoop A T G fuel h node st = .ok (h1, node1, st1) ∧
        Reordered h h1 ∧ h1[node1]? = some nd1 ∧
        ¬ (nd1.untriedMoves.length = 0 ∧ nd1.children.length > 0) := by
  intro fuel
  induction fuel with
  | zero =>
    intro h node st inv hn hf
    have hnd : h[node]? = some h[node] := List.getElem?_eq_getElem hn
    simp only [selectLoop]
    simp only [hnd]
    by_cases hc : h[node].untriedMoves.length = 0 ∧ h[node].children.length > 0
    · exfalso
      obtain ⟨c, hcm⟩ := List.exists_mem_of_length_pos hc.2
      have := inv.children node h[node] hnd c hcm
      omega
    · rw [if_neg hc]
      exact ⟨h, node, st, h[node], rfl, reordered_refl h, hnd, hc⟩
  | succ f ih =>
    intro h node st inv hn hf
    have hnd : h[node]? = some h[node] := List.getElem?_eq_getElem hn
    simp only [selectLoop]
    simp only [hnd]
    by_cases hc : h[node].untriedMoves.length = 0 ∧ h[node].children.length > 0
    · rw [if_pos hc]
      have hne : h[node].children ≠ [] := List.ne_nil_of_length_pos hc.2
      obtain ⟨c, cs, hs, hsel, hcm, hre⟩ := selectChild_spec A T hT h node h[node] hnd hne
      have hcb := inv.children node h[node] hnd c hcm
      have inv1 := treeInv_of_sameTree inv (reordered_sameTree hre)
      have hc1 : c < (h.set node { h[node] with children := c :: cs }).length := by
        simp only [List.length_set]; exact hcb.2
      have hcn : (h.set node { h[node] with children := c :: cs })[c]? = some
          (h.set node { h[node] with children := c :: cs })[c] :=
        List.getElem?_eq_getElem hc1
      obtain ⟨_, m, hm⟩ := inv1.nonroot c _ hcn (by omega)
      obtain ⟨h2, node2, st2, nd2, hrec, hre2, hnd2, hcond2⟩ :=
        ih _ c (G.MakeMove st m) inv1 hc1 (by simp only [List.length_set]; omega)
      refine ⟨h2, node2, st2, nd2, ?_, reordered_trans hre hre2, hnd2, hcond2⟩
      simp only [hsel, hcn, hm, hrec]
    · rw [if_neg hc]
      exact ⟨h, node, st, h[node], rfl, reordered_refl h, hnd, hc⟩

theorem getRandomMoves_ok (rnd : Rand) (h : Heap S M F) (n : Nat) (nd : treeNode S M F)
    (hnd : h[n]? = some nd) (hne : nd.untriedMoves ≠ []) :
    ∃ move, nd.untriedMoves[rnd.src rnd.pos % nd.untriedMoves.length]? = some move ∧
      getRandomMoves rnd h n = .ok (move, { rnd with pos := rnd.pos + 1 },
        h.set n { nd with untriedMoves :=
          nd.untriedMoves.eraseIdx (rnd.src rnd.pos % nd.untriedMoves.length) }) := by
  have hpos : 0 < nd.untriedMoves.length := List.length_pos.mpr hne
  have hlt : rnd.src rnd.pos % nd.untriedMoves.length < nd.untriedMoves.length :=
    Nat.mod_lt _ hpos
  refine ⟨nd.untriedMoves[rnd.src rnd.pos % nd.untriedMoves.length],
    List.getElem?_eq_getElem hlt, ?_⟩
  simp only [getRandomMoves, hnd, Rand.Intn, if_neg (Nat.ne_of_gt hpos),
    List.getElem?_eq_getElem hlt]

theorem getRandomMoves_empty (rnd : Rand) (h : Heap S M F) (n : Nat) (nd : treeNode S M F)
    (hnd : h[n]? = some nd) (he : nd.untriedMoves = []) :
    getRandomMoves rnd h n = .error .invalidIntnArgument := by
  simp [getRandomMoves, hnd, Rand.Intn, he]

theorem expand_skip (A : Float64 F) (G : GameState S M F) (rnd : Rand) (h : Heap S M F)
    (node : Nat) (st : S) (nd : treeNode S M F) (hnd : h[node]? = some nd)
    (he : nd.untriedMoves = []) :
    expand A G rnd h node st = .ok (rnd, h, node, st) := by
  simp [expand, hnd, he]

theorem expand_grow (A : Float64 F) (G : GameState S M F) (rnd : Rand) (h : Heap S M F)
    (node : Nat) (st : S) (nd : treeNode S M F) (hnd : h[node]? = some nd)
    (hne : nd.untriedMoves ≠ []) :
    ∃ move, nd.untriedMoves[rnd.src rnd.pos % nd.untriedMoves.length]? = some move ∧
      expand A G rnd h node st = .ok ({ rnd with pos := rnd.pos + 1 },
        (h.set node { nd with
          untriedMoves :=
            nd.untriedMoves.eraseIdx (rnd.src rnd.pos % nd.untriedMoves.length)
          children := nd.children ++ [h.length] }) ++
          [newTreeNode A G (some node) (some move) (G.Clone (G.MakeMove st move)) nd.ucbC],
        h.length, G.MakeMove st move) := by
  obtain ⟨move, hmove, hget⟩ := getRandomMoves_ok rnd h node nd hnd hne
  have hlt : node < h.length := (List.getElem?_eq_some_iff.mp hnd).1
  refine ⟨move, hmove, ?_⟩
  have hpos : nd.untriedMoves.length > 0 := List.length_pos.mpr hne
  simp only [expand, hnd, if_pos hpos, hget, List.getElem?_set_self hlt, List.set_set,
    List.length_set]
theorem perm_cons_eraseIdx {α : Type} : ∀ (l : List α) (i : Nat) (a : α),
    l[i]? = some a → l.Perm (a :: l.eraseIdx i)
  | [], i, a, h => by simp at h
  | x :: xs, 0, a, h => by
    simp only [List.getElem?_cons_zero, Option.some.injEq] at h
    subst h
    exact List.Perm.refl _
  | x :: xs, i + 1, a, h => by
    simp only [List.getElem?_cons_succ] at h
    simp only [List.eraseIdx_cons_succ]
    exact (List.Perm.cons x (perm_cons_eraseIdx xs i a h)).trans (List.Perm.swap a x _)

theorem grow_lookup (h : Heap S M F) (node : Nat) (hn : node < h.length)
    (nd2 child : treeNode S M F) (k : Nat) :
    ((h.set node nd2) ++ [child])[k]? =
      if k = node then some nd2 else if k = h.length then some child else h[k]? := by
  rw [List.getElem?_append, List.length_set]
  by_cases hk : k < h.length
  · rw [if_pos hk]
    by_cases hkn : k = node
    · subst hkn
      rw [if_pos rfl, List.getElem?_set_self hn]
    · rw [if_neg hkn, if_neg (Nat.ne_of_lt hk), List.getElem?_set_ne (fun e => hkn e.symm)]
  · rw [if_neg hk, if_neg (by omega)]
    by_cases hkl : k = h.length
    · subst hkl
      simp
    · rw [if_neg hkl]
      have h1 : k - h.length = (k - h.length - 1) + 1 := by omega
      rw [h1, List.getElem?_cons_succ, List.getElem?_nil, List.getElem?_eq_none (by omega)]

theorem treeInv_grow {G : GameState S M F} {s0 : S} {h : Heap S M F}
    (inv : TreeInv G s0 h) (A : Float64 F) (node : Nat) (nd : treeNode S M F)
    (hnd : h[node]? = some nd) (i : Nat) (move : M)
    (hi : nd.untriedMoves[i]? = some move) (cs : S) (ucbC : F) :
    TreeInv G s0 ((h.set node { nd with
        untriedMoves := nd.untriedMoves.eraseIdx i
        children := nd.children ++ [h.length] }) ++
      [newTreeNode A G (some node) (some move) cs ucbC]) := by
  have hn : node < h.length := (List.getElem?_eq_some_iff.mp hnd).1
  have hlook := grow_lookup h node hn { nd with
        untriedMoves := nd.untriedMoves.eraseIdx i
        children := nd.children ++ [h.length] }
      (newTreeNode A G (some node) (some move) cs ucbC)
  have hmv : ∀ c, c ≠ h.length →
      (((h.set node { nd with
        untriedMoves := nd.untriedMoves.eraseIdx i
        children := nd.children ++ [h.length] }) ++
      [newTreeNode A G (some node) (some move) cs ucbC])[c]?).bind
        (fun (cn : treeNode S M F) => cn.move) =
      (h[c]?).bind (fun (cn : treeNode S M F) => cn.move) := by
    intro c hc
    rw [hlook c]
    by_cases hcn : c = node
    · subst hcn
      rw [if_pos rfl, hnd]
      rfl
    · rw [if_neg hcn, if_neg hc]
  have hcm : ∀ (k : Nat) (ndk : treeNode S M F), h[k]? = some ndk →
      ndk.children.map (fun c => (((h.set node { nd with
        untriedMoves := nd.untriedMoves.eraseIdx i
        children := nd.children ++ [h.length] }) ++
      [newTreeNode A G (some node) (some move) cs ucbC])[c]?).bind
        (fun (cn : treeNode S M F) => cn.move)) = childMoves h ndk := by
    intro k ndk hk
    unfold childMoves
    apply List.map_congr_left
    intro c hc
    exact hmv c (Nat.ne_of_lt (inv.children k ndk hk c hc).2)
  constructor
  · obtain ⟨r, hr, hp, hs⟩ := inv.root
    rw [hlook 0]
    by_cases h0 : 0 = node
    · subst h0
      rw [hnd] at hr
      cases hr
      exact ⟨_, if_pos rfl, hp, hs⟩
    · exact ⟨r, by rw [if_neg h0, if_neg (by omega)]; exact hr, hp, hs⟩
  · intro k ndk hk p hp
    rw [hlook k] at hk
    by_cases hkn : k = node
    · subst hkn
      rw [if_pos rfl] at hk
      cases hk
      exact inv.below k nd hnd p hp
    · rw [if_neg hkn] at hk
      by_cases hkl : k = h.length
      · subst hkl
        rw [if_pos rfl] at hk
        cases hk
        simp only [newTreeNode, Option.some.injEq] at hp
        omega
      · rw [if_neg hkl] at hk
        exact inv.below k ndk hk p hp
  · intro k ndk hk h0
    rw [hlook k] at hk
    by_cases hkn : k = node
    · subst hkn
      rw [if_pos rfl] at hk
      cases hk
      exact inv.nonroot k nd hnd h0
    · rw [if_neg hkn] at hk
      by_cases hkl : k = h.length
      · subst hkl
        rw [if_pos rfl] at hk
        cases hk
        exact ⟨⟨node, rfl⟩, ⟨move, rfl⟩⟩
      · rw [if_neg hkl] at hk
        exact inv.nonroot k ndk hk h0
  · intro k ndk hk p hp
    rw [hlook k] at hk
    have key : ∀ ndk0 : treeNode S M F, h[k]? = some ndk0 → ndk0.parent = some p →
        ∃ pn, ((h.set node { nd with
          untriedMoves := nd.untriedMoves.eraseIdx i
          children := nd.children ++ [h.length] }) ++
          [newTreeNode A G (some node) (some move) cs ucbC])[p]? = some pn ∧
          k ∈ pn.children := by
      intro ndk0 hk0 hp0
      obtain ⟨pn, hpn, hmem⟩ := inv.childOf k ndk0 hk0 p hp0
      rw [hlook p]
      by_cases hpn2 : p = node
      · subst hpn2
        rw [hnd] at hpn
        cases hpn
        exact ⟨_, if_pos rfl, List.mem_append_left _ hmem⟩
      · have hpl : p < h.length := (List.getElem?_eq_some_iff.mp hpn).1
        exact ⟨pn, by rw [if_neg hpn2, if_neg (Nat.ne_of_lt hpl)]; exact hpn, hmem⟩
    by_cases hkn : k = node
    · subst hkn
      rw [if_pos rfl] at hk
      cases hk
      exact key nd hnd hp
    · rw [if_neg hkn] at hk
      by_cases hkl : k = h.length
      · subst hkl
        rw [if_pos rfl] at hk
        cases hk
        simp only [newTreeNode, Option.some.injEq] at hp
        subst hp
        rw [hlook node, if_pos rfl]
        exact ⟨_, rfl, by simp⟩
      · rw [if_neg hkl] at hk
        exact key ndk hk hp
  · intro k ndk hk c hc
    rw [hlook k] at hk
    simp only [List.length_append, List.length_set, List.length_singleton]
    by_cases hkn : k = node
    · subst hkn
      rw [if_pos rfl] at hk
      cases hk
      simp only [List.mem_append, List.mem_singleton] at hc
      rcases hc with hc | hc
      · have := inv.children k nd hnd c hc
        omega
      · omega
    · rw [if_neg hkn] at hk
      by_cases hkl : k = h.length
      · subst hkl
        rw [if_pos rfl] at hk
        cases hk
        simp [newTreeNode] at hc
      · rw [if_neg hkl] at hk
        have := inv.children k ndk hk c hc
        omega
  · intro k ndk hk
    rw [hlook k] at hk
    by_cases hkn : k = node
    · subst hkn
      rw [if_pos rfl] at hk
      cases hk
      unfold childMoves
      simp only [List.map_append, List.map_cons, List.map_nil]
      rw [hcm k nd hnd, hlook h.length, if_neg (Nat.ne_of_gt hn), if_pos rfl]
      simp only [Option.some_bind, newTreeNode]
      refine List.Perm.trans ?_ (inv.moves k nd hnd)
      rw [List.append_assoc]
      apply List.Perm.append_left
      exact ((perm_cons_eraseIdx nd.untriedMoves i move hi).map some).symm
    · rw [if_neg hkn] at hk
      by_cases hkl : k = h.length
      · subst hkl
        rw [if_pos rfl] at hk
        cases hk
        simp [childMoves, newTreeNode]
      · rw [if_neg hkl] at hk
        unfold childMoves
        rw [hcm k ndk hk]
        exact inv.moves k ndk hk

theorem simulate_total (G : GameState S M F) :
    ∀ j rand st, ∃ rand1 st1, simulate G j rand st = .ok (rand1, st1) := by
  intro j
  induction j with
  | zero => intro rand st; exact ⟨rand, st, rfl⟩
  | succ j ih =>
    intro rand st
    simp only [simulate]
    cases hm : G.AvailableMoves st with
    | nil => exact ⟨rand, st, rfl⟩
    | cons mv mvs =>
      have hlt : rand.src rand.pos % (mv :: mvs).length < (mv :: mvs).length :=
        Nat.mod_lt _ (by simp)
      obtain ⟨r1, s1, h1⟩ := ih { rand with pos := rand.pos + 1 }
        (G.MakeMove st (mv :: mvs)[rand.src rand.pos % (mv :: mvs).length])
      refine ⟨r1, s1, ?_⟩
      have hne : ¬ (mv :: mvs).length = 0 := by simp
      simp only [Rand.Intn, if_neg hne, List.getElem?_eq_getElem hlt]
      exact h1

theorem iteration_spec (A : Float64 F) (T : SortFn) (hT : SortContract T)
    (G : GameState S M F) (opt : UctOption F) (s0 : S) (w : World S M F)
    (inv : TreeInv G s0 w.heap) :
    ∃ w1, iteration A T G opt w = .ok w1 ∧ TreeInv G s0 w1.heap ∧
      getVisits w1.heap (some 0) = (getVisits w.heap (some 0) + 1) % 2 ^ 64 := by
  obtain ⟨r, hr, _, _⟩ := inv.root
  have h0 : 0 < w.heap.length := (List.getElem?_eq_some_iff.mp hr).1
  obtain ⟨h1, node1, st1, nd1, hsel, hre, hnd1, _⟩ :=
    selectLoop_spec A T hT G s0 w.heap.length w.heap 0 (G.Clone r.state) inv h0 (by omega)
  have inv1 := treeInv_of_sameTree inv (reordered_sameTree hre)
  have hn1 : node1 < h1.length := (List.getElem?_eq_some_iff.mp hnd1).1
  have hv1 : getVisits h1 (some 0) = getVisits w.heap (some 0) := reordered_getVisits hre _
  have hexp : ∃ rnd2 h2 node2 st2, expand A G w.rnd h1 node1 st1 = .ok (rnd2, h2, node2, st2) ∧
      TreeInv G s0 h2 ∧ node2 < h2.length ∧
      getVisits h2 (some 0) = getVisits h1 (some 0) := by
    by_cases he : nd1.untriedMoves = []
    · exact ⟨_, _, _, _, expand_skip A G w.rnd h1 node1 st1 nd1 hnd1 he, inv1, hn1, rfl⟩
    · obtain ⟨move, hmove, hexp⟩ := expand_grow A G w.rnd h1 node1 st1 nd1 hnd1 he
      refine ⟨_, _, _, _, hexp, treeInv_grow inv1 A node1 nd1 hnd1 _ move hmove _ _, by simp, ?_⟩
      simp only [getVisits, grow_lookup h1 node1 hn1]
      by_cases hz : 0 = node1
      · subst hz
        rw [if_pos rfl, hnd1]
      · rw [if_neg hz, if_neg (by omega)]
  obtain ⟨rnd2, h2, node2, st2, hexp2, inv2, hn2, hv2⟩ := hexp
  obtain ⟨rand3, st3, hsim⟩ := simulate_total G (intOfUint opt.Simulations).toNat w.rand st2
  obtain ⟨h4, hup, hst, hv4⟩ := update_root_visits A (G.Score st3) h2 node2 inv2.below
    (fun i nd hi hpos => (inv2.nonroot i nd hi hpos).1) hn2
  refine ⟨{ heap := h4, rnd := rnd2, rand := rand3 }, ?_, treeInv_of_sameTree inv2 hst, ?_⟩
  · simp only [iteration, hr, hsel, hexp2, hsim, hup]
  · simp only [hv4, hv2, hv1]

theorem initWorld_inv (A : Float64 F) (G : GameState S M F) (rnd rand : Rand) (state : S)
    (opt : UctOption F) : TreeInv G state (initWorld A G rnd rand state opt).heap := by
  have hlook : ∀ (i : Nat) (nd : treeNode S M F),
      (initWorld A G rnd rand state opt).heap[i]? = some nd →
      i = 0 ∧ nd = newTreeNode A G none none state opt.UcbConstant := by
    intro i nd hi
    cases i with
    | zero =>
      simp only [initWorld, List.getElem?_cons_zero, Option.some.injEq] at hi
      exact ⟨rfl, hi.symm⟩
    | succ k => simp [initWorld] at hi
  constructor
  · exact ⟨newTreeNode A G none none state opt.UcbConstant, rfl, rfl, rfl⟩
  · intro i nd hi p hp
    obtain ⟨_, rfl⟩ := hlook i nd hi
    simp [newTreeNode] at hp
  · intro i nd hi hpos
    obtain ⟨rfl, _⟩ := hlook i nd hi
    omega
  · intro i nd hi p hp
    obtain ⟨_, rfl⟩ := hlook i nd hi
    simp [newTreeNode] at hp
  · intro i nd hi c hc
    obtain ⟨_, rfl⟩ := hlook i nd hi
    simp [newTreeNode] at hc
  · intro i nd hi
    obtain ⟨_, rfl⟩ := hlook i nd hi
    simp [childMoves, newTreeNode]

theorem iterations_spec (A : Float64 F) (T : SortFn) (hT : SortContract T)
    (G : GameState S M F) (rnd rand : Rand) (state : S) (opt : UctOption F) :
    ∀ N, ∃ w, iterations A T G opt N (initWorld A G rnd rand state opt) = .ok w ∧
      TreeInv G state w.heap ∧ getVisits w.heap (some 0) = N % 2 ^ 64 := by
  intro N
  induction N with
  | zero =>
    exact ⟨_, rfl, initWorld_inv A G rnd rand state opt, rfl⟩
  | succ n ih =>
    obtain ⟨w, hw, inv, hv⟩ := ih
    obtain ⟨w1, hw1, inv1, hv1⟩ := iteration_spec A T hT G opt state w inv
    refine ⟨w1, ?_, inv1, ?_⟩
    · simp only [iterations, hw, hw1]
    · rw [hv1, hv]
      omega

theorem byVisits_strictWeak (h : Heap S M F) (l : List Nat) (hl : ∀ a ∈ l, a < h.length) :
    StrictWeak (byVisits h) l := by
  have hval : ∀ a ∈ l, ∃ x, h[a]? = some x :=
    fun a ha => ⟨h.get ⟨a, hl a ha⟩, List.getElem?_eq_getElem (hl a ha)⟩
  constructor
  · intro a ha b hb hab
    obtain ⟨x, hx⟩ := hval a ha
    obtain ⟨y, hy⟩ := hval b hb
    simp only [byVisits, hx, hy, decide_eq_true_eq, decide_eq_false_iff_not] at hab ⊢
    omega
  · intro a ha b hb c hc hac
    obtain ⟨x, hx⟩ := hval a ha
    obtain ⟨y, hy⟩ := hval b hb
    obtain ⟨z, hz⟩ := hval c hc
    simp only [byVisits, hx, hy, hz, decide_eq_true_eq] at hac ⊢
    omega

theorem bestMove_spec (T : SortFn) (hT : SortContract T) (G : GameState S M F) (s0 : S)
    (h : Heap S M F) (inv : TreeInv G s0 h) (mv : Option M)
    (hb : bestMove T h = .ok mv) :
    ∃ root c cs cn, h[0]? = some root ∧ T (byVisits h) root.children = c :: cs ∧
      c ∈ root.children ∧ h[c]? = some cn ∧ cn.move = mv := by
  obtain ⟨r, hr, _, _⟩ := inv.root
  simp only [bestMove, hr] at hb
  cases hs : T (byVisits h) r.children with
  | nil => simp [hs] at hb
  | cons c cs =>
    have hperm := hT.1 (byVisits h) r.children
    rw [hs] at hperm
    have hc : c ∈ r.children := hperm.mem_iff.mp (List.mem_cons_self _ _)
    have hcl := (inv.children 0 r hr c hc).2
    simp only [hs, List.getElem?_eq_getElem hcl, Except.ok.injEq] at hb
    exact ⟨r, c, cs, h[c], hr, hs, hc, List.getElem?_eq_getElem hcl, hb⟩

theorem Uct_eq_bestMove (A : Float64 F) (T : SortFn) (hT : SortContract T)
    (G : GameState S M F) (rnd rand : Rand) (state : S) (opt : UctOption F) :
    ∃ w, UctLoop A T G rnd rand state opt = .ok w ∧ TreeInv G state w.heap ∧
      getVisits w.heap (some 0) = (intOfUint opt.Iterations).toNat % 2 ^ 64 ∧
      Uct A T G rnd rand state opt = bestMove T w.heap := by
  obtain ⟨w, hw, inv, hv⟩ := iterations_spec A T hT G rnd rand state opt
    (intOfUint opt.Iterations).toNat
  refine ⟨w, hw, inv, hv, ?_⟩
  unfold Uct UctLoop
  rw [hw]

end Phases

/-! ## The search: what `Uct` returns -/

section Search

variable {S M F : Type}

/-- C1: after every completed iteration of `Uct`, every node of the tree has
`len(children) + len(untriedMoves) = len(state.AvailableMoves())`, and the moves of its
children together with its untried moves are a permutation of that list of legal
moves.  The iterations all complete. -/
theorem uct_children_untried_partition (A : Float64 F) (T : SortFn) (hT : SortContract T)
    (G : GameState S M F) (rnd rand : Rand) (state : S) (opt : UctOption F) (N : Nat) :
    ∃ w, iterations A T G opt N (initWorld A G rnd rand state opt) = .ok w ∧
      ∀ (i : Nat) (nd : treeNode S M F), w.heap[i]? = some nd →
        nd.children.length + nd.untriedMoves.length = (G.AvailableMoves nd.state).length ∧
        (childMoves w.heap nd ++ nd.untriedMoves.map some).Perm
          ((G.AvailableMoves nd.state).map some) := by
  obtain ⟨w, hw, inv, _⟩ := iterations_spec A T hT G rnd rand state opt N
  refine ⟨w, hw, ?_⟩
  intro i nd hi
  have hperm := inv.moves i nd hi
  refine ⟨?_, hperm⟩
  have := hperm.length_eq
  simpa [childMoves] using this

theorem uct_children_untried_partition_witness :
    ∃ w, iterations ratFloat64 insertionSort (Nim.nimGame ratFloat64)
        { Iterations := 5, Simulations := 0, UcbConstant := 0 } 5
        (initWorld ratFloat64 (Nim.nimGame ratFloat64) (constRand 1) (constRand 0)
          (Nim.NewNimState 4) { Iterations := 5, Simulations := 0, UcbConstant := 0 })
          = .ok w ∧
      ∀ (i : Nat) (nd : treeNode Nim.NimState Nim.NimMove ℚ), w.heap[i]? = some nd →
        nd.children.length + nd.untriedMoves.length =
          ((Nim.nimGame ratFloat64).AvailableMoves nd.state).length ∧
        (childMoves w.heap nd ++ nd.untriedMoves.map some).Perm
          (((Nim.nimGame ratFloat64).AvailableMoves nd.state).map some) :=
  uct_children_untried_partition ratFloat64 insertionSort insertionSort_contract
    (Nim.nimGame ratFloat64) (constRand 1) (constRand 0) (Nim.NewNimState 4)
    { Iterations := 5, Simulations := 0, UcbConstant := 0 } 5

/-- C2: after `N` completed iterations of the loop of `Uct` the `visits` of the root is
`N`, for every count `N` a `uint64` holds.  The iterations all complete. -/
theorem uct_root_visits (A : Float64 F) (T : SortFn) (hT : SortContract T)
    (G : GameState S M F) (rnd rand : Rand) (state : S) (opt : UctOption F) (N : Nat)
    (hN : N < 2 ^ 64) :
    ∃ w root, iterations A T G opt N (initWorld A G rnd rand state opt) = .ok w ∧
      w.heap[0]? = some root ∧ root.visits = N := by
  obtain ⟨w, hw, inv, hv⟩ := iterations_spec A T hT G rnd rand state opt N
  obtain ⟨r, hr, _, _⟩ := inv.root
  refine ⟨w, r, hw, hr, ?_⟩
  simp only [getVisits, hr] at hv
  rw [hv]
  exact Nat.mod_eq_of_lt hN

theorem uct_root_visits_witness :
    (1000 : Nat) < 2 ^ 64 ∧
    ∃ w root, iterations ratFloat64 insertionSort (Nim.nimGame ratFloat64)
        { Iterations := 1000, Simulations := 100, UcbConstant := 0 } 1000
        (initWorld ratFloat64 (Nim.nimGame ratFloat64) (constRand 1) (constRand 0)
          (Nim.NewNimState 100) { Iterations := 1000, Simulations := 100, UcbConstant := 0 })
          = .ok w ∧
      w.heap[0]? = some root ∧ root.visits = 1000 :=
  ⟨by decide, uct_root_visits ratFloat64 insertionSort insertionSort_contract
    (Nim.nimGame ratFloat64) (constRand 1) (constRand 0) (Nim.NewNimState 100)
    { Iterations := 1000, Simulations := 100, UcbConstant := 0 } 1000 (by decide)⟩

/-- C3: whenever `Uct` returns a move, it is the incoming move of a child of the root
whose `visits`, at the end of the last iteration, is at least that of every child of
the root. -/
theorem uct_returns_most_visited (A : Float64 F) (T : SortFn) (hT : SortContract T)
    (G : GameState S M F) (rnd rand : Rand) (state : S) (opt : UctOption F)
    (mv : Option M) (hret : Uct A T G rnd rand state opt = .ok mv) :
    ∃ w root c cn, UctLoop A T G rnd rand state opt = .ok w ∧
      w.heap[0]? = some root ∧ c ∈ root.children ∧ w.heap[c]? = some cn ∧
      cn.move = mv ∧
      ∀ d ∈ root.children, ∀ dn, w.heap[d]? = some dn → dn.visits ≤ cn.visits := by
  obtain ⟨w, hw, inv, _, hu⟩ := Uct_eq_bestMove A T hT G rnd rand state opt
  rw [hu] at hret
  obtain ⟨root, c, cs, cn, hr, hs, hc, hcn, hmv⟩ := bestMove_spec T hT G state w.heap inv mv hret
  refine ⟨w, root, c, cn, hw, hr, hc, hcn, hmv, ?_⟩
  intro d hd dn hdn
  have hsorted := hT.2 (byVisits w.heap) root.children
    (byVisits_strictWeak w.heap root.children
      (fun a ha => (inv.children 0 root hr a ha).2))
  rw [hs, List.pairwise_cons] at hsorted
  have hd2 : d ∈ c :: cs := by
    rw [← hs]
    exact (hT.1 (byVisits w.heap) root.children).mem_iff.mpr hd
  rw [List.mem_cons] at hd2
  rcases hd2 with rfl | hd2
  · rw [hcn] at hdn
    cases hdn
    exact Nat.le_refl _
  · have := hsorted.1 d hd2
    simp only [byVisits, hdn, hcn, decide_eq_false_iff_not] at this
    omega

theorem uct_returns_most_visited_witness :
    Uct ratFloat64 insertionSort (Nim.nimGame ratFloat64) (constRand 1) (constRand 0)
        (Nim.NewNimState 4) { Iterations := 5, Simulations := 0, UcbConstant := 0 } =
      .ok (some { playerId := 1, chips := 3 }) ∧
    ∃ w root c cn, UctLoop ratFloat64 insertionSort (Nim.nimGame ratFloat64) (constRand 1)
        (constRand 0) (Nim.NewNimState 4)
        { Iterations := 5, Simulations := 0, UcbConstant := 0 } = .ok w ∧
      w.heap[0]? = some root ∧ c ∈ root.children ∧ w.heap[c]? = some cn ∧
      cn.move = some { playerId := 1, chips := 3 } ∧
      ∀ d ∈ root.children, ∀ dn, w.heap[d]? = some dn → dn.visits ≤ cn.visits :=
  ⟨by decide!, uct_returns_most_visited ratFloat64 insertionSort insertionSort_contract
    (Nim.nimGame ratFloat64) (constRand 1) (constRand 0) (Nim.NewNimState 4)
    { Iterations := 5, Simulations := 0, UcbConstant := 0 }
    (some { playerId := 1, chips := 3 }) (by decide!)⟩


/-- C4: whenever `Uct` returns a move, it is one of the `AvailableMoves()` of the
initial state. -/
theorem uct_returns_legal_move (A : Float64 F) (T : SortFn) (hT : SortContract T)
    (G : GameState S M F) (rnd rand : Rand) (state : S) (opt : UctOption F)
    (mv : Option M) (hret : Uct A T G rnd rand state opt = .ok mv) :
    ∃ m, mv = some m ∧ m ∈ G.AvailableMoves state := by
  obtain ⟨w, hw, inv, _, hu⟩ := Uct_eq_bestMove A T hT G rnd rand state opt
  rw [hu] at hret
  obtain ⟨root, c, cs, cn, hr, hs, hc, hcn, hmv⟩ := bestMove_spec T hT G state w.heap inv mv hret
  obtain ⟨r, hr2, _, hst⟩ := inv.root
  rw [hr] at hr2
  cases hr2
  have hmem : mv ∈ childMoves w.heap root ++ root.untriedMoves.map some := by
    apply List.mem_append_left
    unfold childMoves
    rw [List.mem_map]
    exact ⟨c, hc, by rw [hcn]; exact hmv⟩
  have := (inv.moves 0 root hr).mem_iff.mp hmem
  rw [List.mem_map] at this
  obtain ⟨m, hm, hmm⟩ := this
  exact ⟨m, hmm.symm, hst ▸ hm⟩

theorem uct_returns_legal_move_witness :
    Uct ratFloat64 insertionSort (Nim.nimGame ratFloat64) (constRand 0) (constRand 1)
        (Nim.NewNimState 10) { Iterations := 3, Simulations := 2, UcbConstant := 0 } =
      .ok (some { playerId := 1, chips := 1 }) ∧
    ∃ m, some ({ playerId := 1, chips := 1 } : Nim.NimMove) = some m ∧
      m ∈ (Nim.nimGame ratFloat64).AvailableMoves (Nim.NewNimState 10) :=
  ⟨by decide!, uct_returns_legal_move ratFloat64 insertionSort insertionSort_contract
    (Nim.nimGame ratFloat64) (constRand 0) (constRand 1) (Nim.NewNimState 10)
    { Iterations := 3, Simulations := 2, UcbConstant := 0 }
    (some { playerId := 1, chips := 1 }) (by decide!)⟩

theorem iteration_terminal (A : Float64 F) (T : SortFn) (G : GameState S M F)
    (opt : UctOption F) (w : World S M F) (r : treeNode S M F) (hw : w.heap = [r])
    (hp : r.parent = none) (hc : r.children = []) (hu : r.untriedMoves = []) :
    ∃ rand3 r2, iteration A T G opt w = .ok { heap := [r2], rnd := w.rnd, rand := rand3 } ∧
      r2.parent = none ∧ r2.children = [] ∧ r2.untriedMoves = [] ∧
      r2.visits = (r.visits + 1) % 2 ^ 64 := by
  obtain ⟨rand3, st3, hsim⟩ :=
    simulate_total G (intOfUint opt.Simulations).toNat w.rand (G.Clone r.state)
  refine ⟨rand3, { r with
      totalOutcome := A.add r.totalOutcome (G.Score st3 r.player)
      visits := (r.visits + 1) % 2 ^ 64
      selectionScore := upperConfidenceBound A (A.add r.totalOutcome (G.Score st3 r.player))
        r.ucbC 0 ((r.visits + 1) % 2 ^ 64) }, ?_, hp, hc, hu, rfl⟩
  simp [iteration, hw, selectLoop, hc, hu, expand, hsim, update, updateAux, hp,
    computeSelectionScore, getVisits]

theorem iterations_terminal (A : Float64 F) (T : SortFn) (G : GameState S M F)
    (rnd rand : Rand) (state : S) (opt : UctOption F) (hterm : G.AvailableMoves state = []) :
    ∀ N, ∃ w r, iterations A T G opt N (initWorld A G rnd rand state opt) = .ok w ∧
      w.heap = [r] ∧ r.parent = none ∧ r.children = [] ∧ r.untriedMoves = [] ∧
      r.visits = N % 2 ^ 64 ∧ w.rnd = rnd := by
  intro N
  induction N with
  | zero =>
    exact ⟨_, newTreeNode A G none none state opt.UcbConstant, rfl, rfl, rfl, rfl, hterm,
      rfl, rfl⟩
  | succ n ih =>
    obtain ⟨w, r, hw, hh, hp, hc, hu, hv, hr⟩ := ih
    obtain ⟨rand3, r2, hit, hp2, hc2, hu2, hv2⟩ := iteration_terminal A T G opt w r hh hp hc hu
    refine ⟨{ heap := [r2], rnd := w.rnd, rand := rand3 }, r2, ?_, rfl, hp2, hc2, hu2, ?_, hr⟩
    · simp only [iterations, hw, hit]
    · rw [hv2, hv]
      omega

/-- C5, as the code has it: on an initial state without legal moves `Uct` fails, by the
index-out-of-range panic of `root.children[0]` (a `NoMovesAvailableError` does not
exist), after its loop has run all `int(Iterations)` iterations.  None of them creates
a node or draws from `rnd`, but each backpropagates through the root, whose `visits`
ends at the number of iterations. -/
theorem uct_terminal_root (A : Float64 F) (T : SortFn) (hT : SortContract T)
    (G : GameState S M F) (rnd rand : Rand) (state : S) (opt : UctOption F)
    (hterm : G.AvailableMoves state = []) :
    Uct A T G rnd rand state opt = .error .indexOutOfRange ∧
    ∃ w root, UctLoop A T G rnd rand state opt = .ok w ∧ w.heap = [root] ∧
      root.children = [] ∧ root.untriedMoves = [] ∧
      root.visits = (intOfUint opt.Iterations).toNat % 2 ^ 64 ∧ w.rnd = rnd := by
  obtain ⟨w, r, hw, hh, hp, hc, hu, hv, hr⟩ :=
    iterations_terminal A T G rnd rand state opt hterm (intOfUint opt.Iterations).toNat
  have hnil : T (byVisits [r]) [] = [] := (hT.1 (byVisits [r]) []).eq_nil
  refine ⟨?_, w, r, hw, hh, hc, hu, hv, hr⟩
  simp only [Uct, UctLoop, hw, bestMove, hh, List.getElem?_cons_zero, hc, hnil]

theorem uct_terminal_root_witness :
    (Nim.nimGame ratFloat64).AvailableMoves (Nim.NewNimState 0) = [] ∧
    (Uct ratFloat64 insertionSort (Nim.nimGame ratFloat64) (constRand 0) (constRand 0)
        (Nim.NewNimState 0) { Iterations := 1000, Simulations := 100, UcbConstant := 0 } =
      .error .indexOutOfRange ∧
    ∃ w root, UctLoop ratFloat64 insertionSort (Nim.nimGame ratFloat64) (constRand 0)
        (constRand 0) (Nim.NewNimState 0)
        { Iterations := 1000, Simulations := 100, UcbConstant := 0 } = .ok w ∧
      w.heap = [root] ∧ root.children = [] ∧ root.untriedMoves = [] ∧
      root.visits = (intOfUint 1000).toNat % 2 ^ 64 ∧ w.rnd = constRand 0) :=
  ⟨by decide, uct_terminal_root ratFloat64 insertionSort insertionSort_contract
    (Nim.nimGame ratFloat64) (constRand 0) (constRand 0) (Nim.NewNimState 0)
    { Iterations := 1000, Simulations := 100, UcbConstant := 0 } (by decide)⟩

/-- C5 fails as stated: on the finished Nim game of 0 chips, with 3 iterations, the loop
of `Uct` runs before the failure and leaves the root with 3 visits and a total outcome
of 3, where the tree held 0 and 0 on entry; the failure is the index-out-of-range
panic. -/
theorem uct_terminal_root_counterexample :
    (Nim.nimGame ratFloat64).AvailableMoves (Nim.NewNimState 0) = [] ∧
    (initWorld ratFloat64 (Nim.nimGame ratFloat64) (constRand 0) (constRand 0)
        (Nim.NewNimState 0) { Iterations := 3, Simulations := 0, UcbConstant := 0 }).heap.map
      (fun nd => (nd.visits, nd.totalOutcome)) = [(0, 0)] ∧
    (UctLoop ratFloat64 insertionSort (Nim.nimGame ratFloat64) (constRand 0) (constRand 0)
        (Nim.NewNimState 0) { Iterations := 3, Simulations := 0, UcbConstant := 0 }).toOption.map
      (fun w => w.heap.map (fun nd => (nd.visits, nd.totalOutcome))) = some [(3, 3)] ∧
    Uct ratFloat64 insertionSort (Nim.nimGame ratFloat64) (constRand 0) (constRand 0)
        (Nim.NewNimState 0) { Iterations := 3, Simulations := 0, UcbConstant := 0 } =
      .error .indexOutOfRange := by
  refine ⟨by decide, by decide!, by decide!, by decide!⟩

end Search

/-! ## Backpropagation: the claims on `update` -/

section Backpropagation

variable {S M F : Type}

theorem parentChain_fuel (h : Heap S M F) (hp : ParentsBelow h) :
    ∀ f1 f2 n, n < f1 → n < f2 → parentChain h f1 (some n) = parentChain h f2 (some n) := by
  intro f1
  induction f1 with
  | zero => intro f2 n h1 _; omega
  | succ f ih =>
    intro f2 n h1 h2
    obtain ⟨g, rfl⟩ : ∃ g, f2 = g + 1 := ⟨f2 - 1, by omega⟩
    simp only [parentChain]
    cases hn : h[n]? with
    | none => rfl
    | some nd =>
      simp only
      cases hpar : nd.parent with
      | none => cases f <;> cases g <;> simp [parentChain]
      | some p =>
        have := hp n nd hn p hpar
        rw [ih g p (by omega) (by omega)]

theorem parentsBelowFrom_sound : ∀ (h : Heap S M F) (k : Nat), parentsBelowFrom k h = true →
    ∀ (i : Nat) (nd : treeNode S M F), h[i]? = some nd → ∀ p, nd.parent = some p → p < k + i
  | [], _, _, i, nd, hi, _, _ => by simp at hi
  | x :: t, k, hc, 0, nd, hi, p, hp => by
    simp only [List.getElem?_cons_zero, Option.some.injEq] at hi
    subst hi
    simp only [parentsBelowFrom, hp, Bool.and_eq_true, decide_eq_true_eq] at hc
    omega
  | x :: t, k, hc, i + 1, nd, hi, p, hp => by
    simp only [List.getElem?_cons_succ] at hi
    simp only [parentsBelowFrom, Bool.and_eq_true] at hc
    have := parentsBelowFrom_sound t (k + 1) hc.2 i nd hi p hp
    omega

theorem parentsBelow_of_check (h : Heap S M F) (hc : parentsBelowFrom 0 h = true) :
    ParentsBelow h := by
  intro i nd hi p hp
  have := parentsBelowFrom_sound h 0 hc i nd hi p hp
  omega

theorem nimHeap8_is_run :
    (UctLoop ratFloat64 insertionSort (Nim.nimGame ratFloat64) (constRand 2) (constRand 0)
      (Nim.NewNimState 4)
      { Iterations := 8, Simulations := 0, UcbConstant := 0 }).toOption.map
        (fun w => w.heap) = some nimHeap8 := by decide!

theorem nimHeap8_parentsBelow : ParentsBelow nimHeap8 :=
  parentsBelow_of_check nimHeap8 (by decide)

/-- C6: in a tree (parents allocated before their children, visits below the top of
`uint64`), `n.update(score)` returns and adds `score(m.player)` to `m.totalOutcome` and
exactly 1 to `m.visits` for every node `m` on the parent chain from `n` to the root,
and leaves every node off that chain as it was; `untriedMoves` and `children` change
nowhere; `update` on a nil node is a no-op.  The chain is complete: more fuel adds no
node to it. -/
theorem update_chain_frame (A : Float64 F) (score : Int → F) (h : Heap S M F) (n : Nat)
    (hp : ParentsBelow h) (hn : n < h.length)
    (hv : ∀ (i : Nat) (nd : treeNode S M F), h[i]? = some nd → nd.visits + 1 < 2 ^ 64) :
    update A score h none = .ok h ∧
    (∀ k, parentChain h (h.length + k) (some n) = parentChain h h.length (some n)) ∧
    ∃ h2, update A score h (some n) = .ok h2 ∧ h2.length = h.length ∧
      ∀ (m : Nat) (nd : treeNode S M F), h[m]? = some nd →
        ∃ nd2, h2[m]? = some nd2 ∧
          nd2.untriedMoves = nd.untriedMoves ∧ nd2.children = nd.children ∧
          (m ∈ parentChain h h.length (some n) →
            nd2.totalOutcome = A.add nd.totalOutcome (score nd.player) ∧
            nd2.visits = nd.visits + 1) ∧
          (m ∉ parentChain h h.length (some n) → nd2 = nd) := by
  refine ⟨by simp [update, updateAux], fun k => parentChain_fuel h hp _ _ n (by omega) hn, ?_⟩
  obtain ⟨h2, hu, hlen, hspec⟩ := update_spec A score h n hp hn
  refine ⟨h2, hu, hlen, ?_⟩
  intro m nd hm
  rw [hspec m, hm]
  by_cases hin : m ∈ parentChain h h.length (some n)
  · refine ⟨updated A score h nd, by simp only [Option.map_some', if_pos hin], rfl, rfl,
      fun _ => ⟨rfl, ?_⟩, fun hc => absurd hin hc⟩
    exact Nat.mod_eq_of_lt (hv m nd hm)
  · exact ⟨nd, by simp only [Option.map_some', if_neg hin], rfl, rfl,
      fun hc => absurd hc hin, fun _ => rfl⟩

theorem update_chain_frame_witness :
    ParentsBelow nimHeap8 ∧ 7 < nimHeap8.length ∧
    (∀ (i : Nat) (nd : treeNode Nim.NimState Nim.NimMove ℚ),
      nimHeap8[i]? = some nd → nd.visits + 1 < 2 ^ 64) ∧
    (update ratFloat64 (Nim.NimState.Score ratFloat64 ⟨2, 1, 0⟩) nimHeap8 none = .ok nimHeap8 ∧
    (∀ k, parentChain nimHeap8 (nimHeap8.length + k) (some 7) =
      parentChain nimHeap8 nimHeap8.length (some 7)) ∧
    ∃ h2, update ratFloat64 (Nim.NimState.Score ratFloat64 ⟨2, 1, 0⟩) nimHeap8 (some 7) =
        .ok h2 ∧ h2.length = nimHeap8.length ∧
      ∀ (m : Nat) (nd : treeNode Nim.NimState Nim.NimMove ℚ), nimHeap8[m]? = some nd →
        ∃ nd2, h2[m]? = some nd2 ∧
          nd2.untriedMoves = nd.untriedMoves ∧ nd2.children = nd.children ∧
          (m ∈ parentChain nimHeap8 nimHeap8.length (some 7) →
            nd2.totalOutcome = ratFloat64.add nd.totalOutcome
              (Nim.NimState.Score ratFloat64 ⟨2, 1, 0⟩ nd.player) ∧
            nd2.visits = nd.visits + 1) ∧
          (m ∉ parentChain nimHeap8 nimHeap8.length (some 7) → nd2 = nd)) :=
  have hv : ∀ (i : Nat) (nd : treeNode Nim.NimState Nim.NimMove ℚ),
      nimHeap8[i]? = some nd → nd.visits + 1 < 2 ^ 64 :=
    fun _ nd hi => (by decide : ∀ nd ∈ nimHeap8, nd.visits + 1 < 2 ^ 64) nd
      (List.getElem?_mem hi)
  ⟨nimHeap8_parentsBelow, by decide, hv,
    update_chain_frame ratFloat64 (Nim.NimState.Score ratFloat64 ⟨2, 1, 0⟩) nimHeap8 7
      nimHeap8_parentsBelow (by decide) hv⟩
/-- C7: for a node `n` with a parent, right after `n.update(score)` has returned,
`n.selectionScore` is `upperConfidenceBound` of the new `n.totalOutcome`, `n.ucbC`, the
new (incremented) `visits` of the parent and the new `n.visits`. -/
theorem update_selectionScore (A : Float64 F) (score : Int → F) (h : Heap S M F)
    (n p : Nat) (nd : treeNode S M F) (hp : ParentsBelow h) (hnd : h[n]? = some nd)
    (hpar : nd.parent = some p) :
    ∃ h2 nd2 pn2, update A score h (some n) = .ok h2 ∧ h2[n]? = some nd2 ∧
      h2[p]? = some pn2 ∧ nd2.parent = some p ∧
      nd2.selectionScore =
        upperConfidenceBound A nd2.totalOutcome nd2.ucbC pn2.visits nd2.visits ∧
      nd2.totalOutcome = A.add nd.totalOutcome (score nd.player) ∧
      nd2.visits = (nd.visits + 1) % 2 ^ 64 ∧
      pn2.visits = (getVisits h (some p) + 1) % 2 ^ 64 := by
  have hn : n < h.length := (List.getElem?_eq_some_iff.mp hnd).1
  have hpn : p < n := hp n nd hnd p hpar
  have hpl : p < h.length := by omega
  obtain ⟨h2, hu, hlen, hspec⟩ := update_spec A score h n hp hn
  have hnin : n ∈ parentChain h h.length (some n) := by
    obtain ⟨f, hf⟩ : ∃ f, h.length = f + 1 := ⟨h.length - 1, by omega⟩
    rw [hf]
    simp [parentChain, hnd]
  have hpin : p ∈ parentChain h h.length (some n) := by
    obtain ⟨f, hf⟩ : ∃ f, h.length = f + 1 := ⟨h.length - 1, by omega⟩
    obtain ⟨g, hg⟩ : ∃ g, f = g + 1 := ⟨f - 1, by omega⟩
    rw [hf, hg]
    simp [parentChain, hnd, hpar, List.getElem?_eq_getElem hpl]
  refine ⟨h2, updated A score h nd, updated A score h (h.get ⟨p, hpl⟩), hu, ?_, ?_, hpar,
    ?_, rfl, rfl, ?_⟩
  · rw [hspec n, hnd]
    simp only [Option.map_some', if_pos hnin]
  · rw [hspec p, List.getElem?_eq_getElem hpl]
    simp only [Option.map_some', if_pos hpin]
    rfl
  · simp only [updated, hpar, getVisits, List.getElem?_eq_getElem hpl]
    rfl
  · simp only [updated, getVisits, List.getElem?_eq_getElem hpl]
    rfl


theorem update_selectionScore_witness :
    ParentsBelow nimHeap8 ∧
    ∃ nd, nimHeap8[7]? = some nd ∧ nd.parent = some 3 ∧
    ∃ h2 nd2 pn2, update ratFloat64 (Nim.NimState.Score ratFloat64 ⟨2, 1, 0⟩) nimHeap8
        (some 7) = .ok h2 ∧ h2[7]? = some nd2 ∧
      h2[3]? = some pn2 ∧ nd2.parent = some 3 ∧
      nd2.selectionScore =
        upperConfidenceBound ratFloat64 nd2.totalOutcome nd2.ucbC pn2.visits nd2.visits ∧
      nd2.totalOutcome = ratFloat64.add nd.totalOutcome
        (Nim.NimState.Score ratFloat64 ⟨2, 1, 0⟩ nd.player) ∧
      nd2.visits = (nd.visits + 1) % 2 ^ 64 ∧
      pn2.visits = (getVisits nimHeap8 (some 3) + 1) % 2 ^ 64 :=
  ⟨nimHeap8_parentsBelow, _, rfl, rfl,
    update_selectionScore ratFloat64 (Nim.NimState.Score ratFloat64 ⟨2, 1, 0⟩) nimHeap8 7 3
      _ nimHeap8_parentsBelow rfl rfl⟩

end Backpropagation

/-! ## Selection: `selectChild`, ties, and `getRandomMoves` -/

section Selection

variable {S M F : Type}

theorem bySelectionScore_strictWeak [LinearOrder F] (A : Float64 F)
    (hgt : ∀ a b, A.gt a b = decide (b < a)) (h : Heap S M F) (l : List Nat)
    (hl : ∀ a ∈ l, a < h.length) : StrictWeak (bySelectionScore A h) l := by
  have hval : ∀ a ∈ l, ∃ x, h[a]? = some x :=
    fun a ha => ⟨h.get ⟨a, hl a ha⟩, List.getElem?_eq_getElem (hl a ha)⟩
  constructor
  · intro a ha b hb hab
    obtain ⟨x, hx⟩ := hval a ha
    obtain ⟨y, hy⟩ := hval b hb
    simp only [bySelectionScore, hx, hy, hgt, decide_eq_true_eq,
      decide_eq_false_iff_not] at hab ⊢
    exact not_lt.mpr (le_of_lt hab)
  · intro a ha b hb c hc hac
    obtain ⟨x, hx⟩ := hval a ha
    obtain ⟨y, hy⟩ := hval b hb
    obtain ⟨z, hz⟩ := hval c hc
    simp only [bySelectionScore, hx, hy, hz, hgt, decide_eq_true_eq] at hac ⊢
    rcases lt_or_le z.selectionScore y.selectionScore with h1 | h1
    · exact Or.inr h1
    · exact Or.inl (lt_of_le_of_lt h1 hac)

/-- C8: for a node whose slice `children` is not empty, `selectChild` returns a child
whose `selectionScore` is at least that of every child of the node, when the scores
are compared as totally ordered numbers. -/
theorem selectChild_max [LinearOrder F] (A : Float64 F)
    (hgt : ∀ a b, A.gt a b = decide (b < a)) (T : SortFn) (hT : SortContract T)
    (h : Heap S M F) (n : Nat) (nd : treeNode S M F) (hnd : h[n]? = some nd)
    (hne : nd.children ≠ []) (hvalid : ∀ c ∈ nd.children, c < h.length) :
    ∃ c h2 cn, selectChild A T h n = .ok (c, h2) ∧ c ∈ nd.children ∧ h[c]? = some cn ∧
      ∀ d ∈ nd.children, ∀ dn, h[d]? = some dn → dn.selectionScore ≤ cn.selectionScore := by
  obtain ⟨c, cs, hs, hsel, hcm, _⟩ := selectChild_spec A T hT h n nd hnd hne
  have hcl := hvalid c hcm
  refine ⟨c, _, h.get ⟨c, hcl⟩, hsel, hcm, List.getElem?_eq_getElem hcl, ?_⟩
  intro d hd dn hdn
  have hsorted := hT.2 (bySelectionScore A h) nd.children
    (bySelectionScore_strictWeak A hgt h nd.children hvalid)
  rw [hs, List.pairwise_cons] at hsorted
  have hd2 : d ∈ c :: cs := by
    rw [← hs]
    exact (hT.1 (bySelectionScore A h) nd.children).mem_iff.mpr hd
  rw [List.mem_cons] at hd2
  rcases hd2 with rfl | hd2
  · rw [List.getElem?_eq_getElem hcl] at hdn
    cases hdn
    exact le_refl _
  · have := hsorted.1 d hd2
    simp only [bySelectionScore, hdn, List.getElem?_eq_getElem hcl, hgt,
      decide_eq_false_iff_not, not_lt] at this
    exact this

theorem selectChild_max_witness :
    (∀ a b, ratFloat64.gt a b = decide (b < a)) ∧ SortContract insertionSort ∧
    ∃ nd, nimHeap8[0]? = some nd ∧ nd.children ≠ [] ∧
      (∀ c ∈ nd.children, c < nimHeap8.length) ∧
      ∃ c h2 cn, selectChild ratFloat64 insertionSort nimHeap8 0 = .ok (c, h2) ∧
        c ∈ nd.children ∧ nimHeap8[c]? = some cn ∧
        ∀ d ∈ nd.children, ∀ dn, nimHeap8[d]? = some dn →
          dn.selectionScore ≤ cn.selectionScore :=
  ⟨fun _ _ => rfl, insertionSort_contract, _, rfl, by decide, by decide,
    selectChild_max ratFloat64 (fun _ _ => rfl) insertionSort insertionSort_contract
      nimHeap8 0 _ rfl (by decide) (by decide)⟩

theorem sink_all_less (less : Nat → Nat → Bool) (x : Nat) :
    ∀ rp : List Nat, (∀ y ∈ rp, less x y = true) → sink less x rp = rp ++ [x]
  | [], _ => rfl
  | y :: ys, hall => by
    have hy : less x y = true := hall y (List.mem_cons_self _ _)
    simp only [sink, hy, if_true, List.cons_append]
    rw [sink_all_less less x ys (fun z hz => hall z (List.mem_cons_of_mem _ hz))]

theorem sink_keeps_last (less : Nat → Nat → Bool) (x m : Nat) (hxm : less x m = false) :
    ∀ init : List Nat, ∃ init2, sink less x (init ++ [m]) = init2 ++ [m]
  | [] => ⟨[x], by simp [sink, hxm]⟩
  | y :: ys => by
    obtain ⟨i2, hi2⟩ := sink_keeps_last less x m hxm ys
    by_cases hy : less x y = true
    · refine ⟨y :: i2, ?_⟩
      show sink less x (y :: (ys ++ [m])) = y :: (i2 ++ [m])
      simp only [sink, hy, if_true, hi2]
    · exact ⟨x :: y :: ys, by simp [sink, hy]⟩

theorem foldl_sink_keeps_last (less : Nat → Nat → Bool) (m : Nat) :
    ∀ (post init : List Nat), (∀ y ∈ post, less y m = false) →
      ∃ init2, post.foldl (fun rp x => sink less x rp) (init ++ [m]) = init2 ++ [m]
  | [], init, _ => ⟨init, rfl⟩
  | x :: xs, init, hpost => by
    obtain ⟨i2, hi2⟩ := sink_keeps_last less x m (hpost x (List.mem_cons_self _ _)) init
    simp only [List.foldl_cons, hi2]
    exact foldl_sink_keeps_last less m xs i2 (fun y hy => hpost y (List.mem_cons_of_mem _ hy))

theorem insertionSort_head (less : Nat → Nat → Bool) (pre post : List Nat) (c : Nat)
    (hpre : ∀ y ∈ pre, less c y = true) (hpost : ∀ y ∈ post, less y c = false) :
    ∃ rest, insertionSort less (pre ++ c :: post) = c :: rest := by
  unfold insertionSort
  rw [List.foldl_append, List.foldl_cons]
  have h1 : sink less c (pre.foldl (fun rp x => sink less x rp) []) =
      pre.foldl (fun rp x => sink less x rp) [] ++ [c] := by
    apply sink_all_less
    intro y hy
    have hperm := foldl_sink_perm less pre []
    have : y ∈ pre := by
      have := hperm.mem_iff.mp hy
      simpa using this
    exact hpre y this
  rw [h1]
  obtain ⟨i2, hi2⟩ := foldl_sink_keeps_last less c post _ hpost
  rw [hi2]
  exact ⟨i2.reverse, by simp⟩

/-- C9, as the code has it, on the short slices that `sort.Sort` sorts by insertion:
among tied children the first in the slice `children`, as it stands at the call, wins.
`selectChild` returns the child `c` that beats every child before it in the slice and
that no child after it beats; `Uct` ends by returning the move of the child of the root
that stands so for `visits`.  The slice is in the order of appending only as long as
no `selectChild` has reordered it. -/
theorem tie_break_first_in_slice (A : Float64 F) (h : Heap S M F) (n : Nat)
    (nd : treeNode S M F) (hnd : h[n]? = some nd) (pre post : List Nat) (c : Nat)
    (hch : nd.children = pre ++ c :: post)
    (hpre : ∀ d ∈ pre, bySelectionScore A h c d = true)
    (hpost : ∀ d ∈ post, bySelectionScore A h d c = false)
    (hb : Heap S M F) (root cn : treeNode S M F) (hroot : hb[0]? = some root)
    (pre2 post2 : List Nat) (c2 : Nat) (hch2 : root.children = pre2 ++ c2 :: post2)
    (hcn : hb[c2]? = some cn)
    (hpre2 : ∀ d ∈ pre2, byVisits hb c2 d = true)
    (hpost2 : ∀ d ∈ post2, byVisits hb d c2 = false) :
    (∃ h2, selectChild A insertionSort h n = .ok (c, h2)) ∧
    bestMove insertionSort hb = .ok cn.move := by
  constructor
  · obtain ⟨rest, hrest⟩ := insertionSort_head (bySelectionScore A h) pre post c hpre hpost
    refine ⟨h.set n { nd with children := c :: rest }, ?_⟩
    simp only [selectChild, hnd, hch, hrest]
  · obtain ⟨rest, hrest⟩ := insertionSort_head (byVisits hb) pre2 post2 c2 hpre2 hpost2
    simp only [bestMove, hroot, hch2, hrest, hcn]

theorem tie_break_first_in_slice_witness :
    ∃ nd, nimHeap8[0]? = some nd ∧ nd.children = [] ++ 3 :: [2, 1] ∧
      (∀ d ∈ ([] : List Nat), bySelectionScore ratFloat64 nimHeap8 3 d = true) ∧
      (∀ d ∈ [2, 1], bySelectionScore ratFloat64 nimHeap8 d 3 = false) ∧
      ∃ cn, nimHeap8[3]? = some cn ∧
      (∀ d ∈ ([] : List Nat), byVisits nimHeap8 3 d = true) ∧
      (∀ d ∈ [2, 1], byVisits nimHeap8 d 3 = false) ∧
      (∃ h2, selectChild ratFloat64 insertionSort nimHeap8 0 = .ok (3, h2)) ∧
      bestMove insertionSort nimHeap8 = .ok cn.move :=
  ⟨_, rfl, rfl, by decide, by decide!, _, rfl, by decide, by decide,
    tie_break_first_in_slice ratFloat64 nimHeap8 0 _ rfl [] [2, 1] 3 rfl (by decide)
      (by decide!) nimHeap8 _ _ rfl [] [2, 1] 3 rfl rfl (by decide) (by decide)⟩

/-- C9 fails as stated, in both its parts, on Nim with 4 chips, `Simulations = 0` and
`UcbConstant = 0`.  With `rnd` drawing 1 every time and 5 iterations, the children of
the root are appended as nodes 1, 2, 3; the loop leaves the slice as `[2, 3, 1]` with
visits 2, 1, 2, and `Uct` returns "take 3", the move of node 2, though node 1 with the
same visits was appended before it.  With `rnd` drawing 2 every time and 8 iterations,
the slice is `[3, 2, 1]`, the three selection scores are all 1/4, and `selectChild`
returns node 3, the last appended. -/
theorem tie_break_counterexample :
    ((UctLoop ratFloat64 insertionSort (Nim.nimGame ratFloat64) (constRand 1) (constRand 0)
        (Nim.NewNimState 4)
        { Iterations := 5, Simulations := 0, UcbConstant := 0 }).toOption.map
        (fun w => childStats w.heap 0) =
      some [(2, some ⟨1, 3⟩, 2, 1 / 4), (3, some ⟨1, 1⟩, 1, 1 / 2),
        (1, some ⟨1, 2⟩, 2, 1 / 4)] ∧
    Uct ratFloat64 insertionSort (Nim.nimGame ratFloat64) (constRand 1) (constRand 0)
        (Nim.NewNimState 4) { Iterations := 5, Simulations := 0, UcbConstant := 0 } =
      .ok (some ⟨1, 3⟩)) ∧
    ((UctLoop ratFloat64 insertionSort (Nim.nimGame ratFloat64) (constRand 2) (constRand 0)
        (Nim.NewNimState 4)
        { Iterations := 8, Simulations := 0, UcbConstant := 0 }).toOption.map
        (fun w => childStats w.heap 0) =
      some [(3, some ⟨1, 2⟩, 4, 1 / 4), (2, some ⟨1, 1⟩, 2, 1 / 4),
        (1, some ⟨1, 3⟩, 2, 1 / 4)] ∧
    (UctLoop ratFloat64 insertionSort (Nim.nimGame ratFloat64) (constRand 2) (constRand 0)
        (Nim.NewNimState 4)
        { Iterations := 8, Simulations := 0, UcbConstant := 0 }).toOption.bind
        (fun w => (selectChild ratFloat64 insertionSort w.heap 0).toOption.map
          (fun r => r.1)) = some 3) := by
  refine ⟨⟨by decide!, by decide!⟩, by decide!, by decide!⟩

/-- C10: on a node whose `untriedMoves` is not empty, for the index `i` that `rnd` draws
in `[0, len(untriedMoves))`, `getRandomMoves` returns `untriedMoves[i]` and leaves the
heap as it was but for `untriedMoves` of the node, which is the old list without its
element at `i`: the elements before `i` and those after it, in their order, one
element fewer.  On a node whose `untriedMoves` is empty the call fails (the panic of
`Intn(0)`). -/
theorem getRandomMoves_removes (rnd : Rand) (h : Heap S M F) (n : Nat)
    (nd : treeNode S M F) (hnd : h[n]? = some nd) :
    (nd.untriedMoves = [] → getRandomMoves rnd h n = .error .invalidIntnArgument) ∧
    (∀ i, nd.untriedMoves ≠ [] → rnd.src rnd.pos % nd.untriedMoves.length = i →
      i < nd.untriedMoves.length ∧
      ∃ move, nd.untriedMoves[i]? = some move ∧
        getRandomMoves rnd h n = .ok (move, { rnd with pos := rnd.pos + 1 },
          h.set n { nd with untriedMoves := nd.untriedMoves.eraseIdx i }) ∧
        nd.untriedMoves.eraseIdx i = nd.untriedMoves.take i ++ nd.untriedMoves.drop (i + 1) ∧
        (nd.untriedMoves.eraseIdx i).length + 1 = nd.untriedMoves.length) := by
  refine ⟨getRandomMoves_empty rnd h n nd hnd, ?_⟩
  intro i hne hi
  have hpos : 0 < nd.untriedMoves.length := List.length_pos.mpr hne
  have hlt : i < nd.untriedMoves.length := hi ▸ Nat.mod_lt _ hpos
  obtain ⟨move, hmove, hget⟩ := getRandomMoves_ok rnd h n nd hnd hne
  rw [hi] at hmove hget
  refine ⟨hlt, move, hmove, hget, List.eraseIdx_eq_take_drop_succ _ _, ?_⟩
  rw [List.length_eraseIdx_of_lt hlt]
  omega

theorem getRandomMoves_removes_witness :
    ∃ nd, nimHeap8[2]? = some nd ∧
    ((nd.untriedMoves = [] →
      getRandomMoves (constRand 1) nimHeap8 2 = .error .invalidIntnArgument) ∧
    (∀ i, nd.untriedMoves ≠ [] →
      (constRand 1).src (constRand 1).pos % nd.untriedMoves.length = i →
      i < nd.untriedMoves.length ∧
      ∃ move, nd.untriedMoves[i]? = some move ∧
        getRandomMoves (constRand 1) nimHeap8 2 =
          .ok (move, { constRand 1 with pos := (constRand 1).pos + 1 },
            nimHeap8.set 2 { nd with untriedMoves := nd.untriedMoves.eraseIdx i }) ∧
        nd.untriedMoves.eraseIdx i = nd.untriedMoves.take i ++ nd.untriedMoves.drop (i + 1) ∧
        (nd.untriedMoves.eraseIdx i).length + 1 = nd.untriedMoves.length)) :=
  ⟨_, rfl, getRandomMoves_removes (constRand 1) nimHeap8 2 _ rfl⟩

end Selection

/-! ## The selection policy over the reals -/

/-- C12: with the arithmetic read over the reals, `upperConfidenceBound` is
`outcome / childVisits + C * sqrt(2 * ln(parentVisits) / childVisits)`. -/
theorem upperConfidenceBound_real (outcome c : ℝ) (parentVisits childVisits : Nat)
    (_hc : 1 ≤ childVisits) (_hp : 1 ≤ parentVisits) :
    upperConfidenceBound realFloat64 outcome c parentVisits childVisits =
      outcome / childVisits + c * Real.sqrt (2 * Real.log parentVisits / childVisits) :=
  rfl

theorem upperConfidenceBound_real_witness :
    1 ≤ 4 ∧ 1 ≤ 10 ∧
    upperConfidenceBound realFloat64 3 1 10 4 = 3 / 4 + Real.sqrt (2 * Real.log 10 / 4) :=
  ⟨by decide, by decide, by
    rw [upperConfidenceBound_real 3 1 10 4 (by decide) (by decide)]
    norm_num⟩

/-! ## The rules of Nim -/

namespace Nim

theorem availableMoves_eq (g : NimState) :
    g.AvailableMoves =
      (List.range (min g.chips 3)).map
        (fun k => ({ playerId := g.ActivePlayerId, chips := k + 1 } : NimMove)) := by
  unfold NimState.AvailableMoves MAX_PICKABLE_CHIPS
  have hm : (if g.chips > 3 then 3 else g.chips) = min g.chips 3 := by
    split <;> omega
  simp only [hm]
  rw [← List.filterMap_eq_map]
  apply List.filterMap_congr
  intro k hk
  rw [List.mem_range] at hk
  have h3 : ¬ (k + 1 < 1 ∨ k + 1 > 3) := by omega
  simp only [newNimMove, if_neg h3, Except.toOption]
  rfl

theorem availableMoves_length (g : NimState) : g.AvailableMoves.length = min g.chips 3 := by
  rw [availableMoves_eq]; simp

theorem availableMoves_eq_nil_iff (g : NimState) : g.AvailableMoves = [] ↔ g.chips = 0 := by
  rw [← List.length_eq_zero, availableMoves_length]; omega

/-- C14: for every `NimState` and every player, `Score(player)` is exactly `0.5` when
chips remain, and when none remain it is exactly `1.0` for the player who just moved
and exactly `0.0` for every other player. -/
theorem score_values {F : Type} (A : Float64 F) (g : NimState) (player : Int) :
    (0 < g.chips → g.Score A player = A.half) ∧
    (g.chips = 0 → player = g.JustMovedPlayerId → g.Score A player = A.one) ∧
    (g.chips = 0 → player ≠ g.JustMovedPlayerId → g.Score A player = A.zero) ∧
    (g.chips = 0 → g.ActivePlayerId ≠ g.JustMovedPlayerId →
      g.Score A g.JustMovedPlayerId = A.one ∧ g.Score A g.ActivePlayerId = A.zero) := by
  unfold NimState.Score
  rw [availableMoves_length]
  refine ⟨?_, ?_, ?_, ?_⟩
  · intro h
    rw [if_pos (by omega)]
  · intro h hp
    rw [if_neg (by omega), if_pos hp]
  · intro h hp
    rw [if_neg (by omega), if_neg hp]
  · intro h hp
    have h0 : ¬ (min g.chips 3 > 0) := by omega
    simp only [if_neg h0, if_pos, if_neg hp, and_self]

/-- C15, as the code has it: `MakeMove` checks nothing and never fails.  For every
state and every move, legal or not, it swaps the two player ids and subtracts the chips
of the move from those of the state in `uint64`: the difference when the move takes no
more than remain, and wrapped around by `2^64` when it takes more. -/
theorem makeMove_unchecked (g : NimState) (m : NimMove) (hg : g.chips < 2 ^ 64)
    (hm : m.chips < 2 ^ 64) :
    (g.MakeMove m).JustMovedPlayerId = g.ActivePlayerId ∧
    (g.MakeMove m).ActivePlayerId = g.JustMovedPlayerId ∧
    (m.chips ≤ g.chips → (g.MakeMove m).chips = g.chips - m.chips) ∧
    (g.chips < m.chips → (g.MakeMove m).chips = g.chips + 2 ^ 64 - m.chips) := by
  refine ⟨rfl, rfl, ?_, ?_⟩
  · intro h
    simp only [NimState.MakeMove, Nat.mod_eq_of_lt hm]
    omega
  · intro h
    simp only [NimState.MakeMove, Nat.mod_eq_of_lt hm]
    omega

theorem makeMove_unchecked_witness :
    (2 : Nat) < 2 ^ 64 ∧ (3 : Nat) < 2 ^ 64 ∧
    ((NimState.MakeMove ⟨2, 1, 2⟩ ⟨1, 3⟩).JustMovedPlayerId = 1 ∧
    (NimState.MakeMove ⟨2, 1, 2⟩ ⟨1, 3⟩).ActivePlayerId = 2 ∧
    (3 ≤ 2 → (NimState.MakeMove ⟨2, 1, 2⟩ ⟨1, 3⟩).chips = 2 - 3) ∧
    (2 < 3 → (NimState.MakeMove ⟨2, 1, 2⟩ ⟨1, 3⟩).chips = 2 + 2 ^ 64 - 3)) :=
  ⟨by decide, by decide, makeMove_unchecked ⟨2, 1, 2⟩ ⟨1, 3⟩ (by decide) (by decide)⟩

/-- C15 fails as stated: with 2 chips left and player 1 to move, "take 3" is not among
the available moves, yet `MakeMove` applies it: the players are swapped and the chips
wrap around to `2^64 - 1`. -/
theorem makeMove_illegal_counterexample :
    ({ playerId := 1, chips := 3 } : NimMove) ∉
      NimState.AvailableMoves { JustMovedPlayerId := 2, ActivePlayerId := 1, chips := 2 } ∧
    NimState.MakeMove { JustMovedPlayerId := 2, ActivePlayerId := 1, chips := 2 }
        { playerId := 1, chips := 3 } =
      { JustMovedPlayerId := 1, ActivePlayerId := 2, chips := 18446744073709551615 } ∧
    NimState.MakeMove { JustMovedPlayerId := 2, ActivePlayerId := 1, chips := 2 }
        { playerId := 1, chips := 3 } ≠
      { JustMovedPlayerId := 2, ActivePlayerId := 1, chips := 2 } := by
  refine ⟨by decide, by decide, by decide⟩

theorem score_eq {F : Type} (A : Float64 F) (g : NimState) (player : Int) :
    g.Score A player =
      if 0 < g.chips then A.half
      else if player = g.JustMovedPlayerId then A.one else A.zero := by
  unfold NimState.Score
  rw [availableMoves_length]
  by_cases h : 0 < g.chips
  · rw [if_pos (by omega), if_pos h]
  · rw [if_neg (by omega), if_neg h]

theorem makeMove_chips_of_le (g : NimState) (m : NimMove) (hg : g.chips < 2 ^ 64)
    (hm : m.chips ≤ g.chips) : (g.MakeMove m).chips = g.chips - m.chips := by
  have hm2 : m.chips < 2 ^ 64 := by omega
  simp only [NimState.MakeMove, Nat.mod_eq_of_lt hm2]
  omega

theorem mem_availableMoves (g : NimState) (m : NimMove) :
    m ∈ g.AvailableMoves ↔ m.playerId = g.ActivePlayerId ∧ 1 ≤ m.chips ∧ m.chips ≤ 3 ∧
      m.chips ≤ g.chips := by
  obtain ⟨pid, ch⟩ := m
  rw [availableMoves_eq, List.mem_map]
  simp only [NimMove.mk.injEq, List.mem_range]
  constructor
  · rintro ⟨k, hk, h1, h2⟩
    exact ⟨h1.symm, by omega, by omega, by omega⟩
  · rintro ⟨h1, h2, h3, h4⟩
    exact ⟨ch - 1, by omega, h1.symm, by omega⟩

theorem wins_iff {F : Type} [DecidableEq F] (A : Float64 F) (h0 : A.one ≠ A.zero) :
    ∀ fuel (g : NimState), g.chips ≤ fuel → g.chips < 2 ^ 64 →
      g.ActivePlayerId ≠ g.JustMovedPlayerId →
      (wins A fuel g g.ActivePlayerId = true ↔ g.chips % 4 ≠ 0) ∧
      (wins A fuel g g.JustMovedPlayerId = true ↔ g.chips % 4 = 0) := by
  intro fuel
  induction fuel with
  | zero =>
    intro g hf _ hne
    have hc : g.chips = 0 := by omega
    have hz : ¬ 0 < g.chips := by omega
    simp only [wins, score_eq, if_neg hz, if_neg hne, if_true, decide_eq_true_eq, hc]
    exact ⟨⟨fun h => absurd h.symm h0, fun h => absurd rfl h⟩,
        ⟨fun _ => trivial, fun _ => if_neg (Nat.lt_irrefl 0)⟩⟩
  | succ f ih =>
    intro g hf hlt hne
    by_cases hc : g.chips = 0
    · have hnil : g.AvailableMoves = [] := (availableMoves_eq_nil_iff g).mpr hc
      have hz : ¬ 0 < g.chips := by omega
      simp only [wins, hnil, score_eq, if_neg hz, if_neg hne, if_true, decide_eq_true_eq, hc]
      exact ⟨⟨fun h => absurd h.symm h0, fun h => absurd rfl h⟩,
        ⟨fun _ => trivial, fun _ => if_neg (Nat.lt_irrefl 0)⟩⟩
    · have hnil : g.AvailableMoves ≠ [] := fun h => hc ((availableMoves_eq_nil_iff g).mp h)
      have hstep : ∀ m ∈ g.AvailableMoves,
          (wins A f (g.MakeMove m) g.JustMovedPlayerId = true ↔ (g.chips - m.chips) % 4 ≠ 0) ∧
          (wins A f (g.MakeMove m) g.ActivePlayerId = true ↔ (g.chips - m.chips) % 4 = 0) := by
        intro m hm
        rw [mem_availableMoves] at hm
        obtain ⟨_, _, hm3, hm4⟩ := hm
        have hch2 := makeMove_chips_of_le g m hlt hm4
        have := ih (g.MakeMove m) (by omega) (by omega) (fun e => hne e.symm)
        rw [hch2] at this
        exact this
      simp only [wins, if_neg hnil, if_true, if_neg (Ne.symm hne), List.any_eq_true,
        List.all_eq_true]
      constructor
      · constructor
        · rintro ⟨m, hm, hw⟩
          have h2 := ((hstep m hm).2).mp hw
          rw [mem_availableMoves] at hm
          omega
        · intro hr
          refine ⟨⟨g.ActivePlayerId, g.chips % 4⟩, ?_, ?_⟩
          · rw [mem_availableMoves]
            refine ⟨rfl, ?_, ?_, ?_⟩ <;> simp only <;> omega
          · have hmem : (⟨g.ActivePlayerId, g.chips % 4⟩ : NimMove) ∈ g.AvailableMoves := by
              rw [mem_availableMoves]
              refine ⟨rfl, ?_, ?_, ?_⟩ <;> simp only <;> omega
            apply ((hstep _ hmem).2).mpr
            simp only
            omega
      · constructor
        · intro hall
          by_contra hr
          have hmem : (⟨g.ActivePlayerId, g.chips % 4⟩ : NimMove) ∈ g.AvailableMoves := by
            rw [mem_availableMoves]
            refine ⟨rfl, ?_, ?_, ?_⟩ <;> simp only <;> omega
          have := ((hstep _ hmem).1).mp (hall _ hmem)
          simp only at this
          omega
        · intro hr m hm
          apply ((hstep m hm).1).mpr
          rw [mem_availableMoves] at hm
          omega

/-- C16: under the rules of `NimState`, from `NewNimState(c)` with `1 ≤ c`: if `c` is
`4n + k` with `k` in 1, 2, 3, player 1, who is to move, has a winning strategy, and
taking `k` chips is a legal first move after which player 1 still has one; if `c` is
`4n`, player 2 has a winning strategy, and has one after every first move of
player 1. -/
theorem nim_winning_strategy {F : Type} [DecidableEq F] (A : Float64 F)
    (h0 : A.one ≠ A.zero) (c : Nat) (hc1 : 1 ≤ c) (hc : c < 2 ^ 64) :
    (c % 4 ≠ 0 →
      wins A c (NewNimState c) 1 = true ∧
      ({ playerId := 1, chips := c % 4 } : NimMove) ∈ (NewNimState c).AvailableMoves ∧
      wins A (c - 1) ((NewNimState c).MakeMove { playerId := 1, chips := c % 4 }) 1 = true) ∧
    (c % 4 = 0 →
      wins A c (NewNimState c) 2 = true ∧
      ∀ m ∈ (NewNimState c).AvailableMoves,
        wins A (c - 1) ((NewNimState c).MakeMove m) 2 = true) := by
  have hne : (NewNimState c).ActivePlayerId ≠ (NewNimState c).JustMovedPlayerId := by
    simp [NewNimState]
  have hroot := wins_iff A h0 c (NewNimState c) (Nat.le_refl _) hc hne
  have hafter : ∀ m ∈ (NewNimState c).AvailableMoves,
      (wins A (c - 1) ((NewNimState c).MakeMove m) 2 = true ↔ (c - m.chips) % 4 ≠ 0) ∧
      (wins A (c - 1) ((NewNimState c).MakeMove m) 1 = true ↔ (c - m.chips) % 4 = 0) := by
    intro m hm
    rw [mem_availableMoves] at hm
    obtain ⟨_, hm1, hm3, hm4⟩ := hm
    have hch2 : ((NewNimState c).MakeMove m).chips = c - m.chips :=
      makeMove_chips_of_le (NewNimState c) m hc hm4
    have := wins_iff A h0 (c - 1) ((NewNimState c).MakeMove m) (by omega) (by omega)
      (fun e => hne e.symm)
    rw [hch2] at this
    exact this
  constructor
  · intro hr
    have hmem : ({ playerId := 1, chips := c % 4 } : NimMove) ∈
        (NewNimState c).AvailableMoves := by
      rw [mem_availableMoves]
      refine ⟨rfl, ?_, ?_, ?_⟩ <;> simp only [NewNimState] <;> omega
    refine ⟨hroot.1.mpr hr, hmem, (hafter _ hmem).2.mpr ?_⟩
    simp only
    omega
  · intro hr
    refine ⟨hroot.2.mpr hr, ?_⟩
    intro m hm
    apply (hafter m hm).1.mpr
    rw [mem_availableMoves] at hm
    simp only [NewNimState] at hm
    omega

theorem nim_winning_strategy_witness :
    ratFloat64.one ≠ ratFloat64.zero ∧ 1 ≤ 7 ∧ 7 < 2 ^ 64 ∧
    ((7 % 4 ≠ 0 →
      wins ratFloat64 7 (NewNimState 7) 1 = true ∧
      ({ playerId := 1, chips := 7 % 4 } : NimMove) ∈ (NewNimState 7).AvailableMoves ∧
      wins ratFloat64 (7 - 1)
        ((NewNimState 7).MakeMove { playerId := 1, chips := 7 % 4 }) 1 = true) ∧
    (7 % 4 = 0 →
      wins ratFloat64 7 (NewNimState 7) 2 = true ∧
      ∀ m ∈ (NewNimState 7).AvailableMoves,
        wins ratFloat64 (7 - 1) ((NewNimState 7).MakeMove m) 2 = true)) :=
  ⟨by decide, by decide, by decide,
    nim_winning_strategy ratFloat64 (by decide) 7 (by decide) (by decide)⟩

end Nim

/-! ## Links, states and visits of the tree -/

section Conservation

variable {S M F : Type}

theorem linkInv_of_sameTree {h h2 : Heap S M F} (li : LinkInv h) (a : SameTree h h2) :
    LinkInv h2 := by
  intro i nd2 hi
  obtain ⟨nd, hnd, _, _, _, _, e5⟩ := sameTree_back a i nd2 hi
  obtain ⟨hnodup, hpar⟩ := li i nd hnd
  refine ⟨e5.nodup_iff.mpr hnodup, ?_⟩
  intro c hc
  obtain ⟨cn, hcn, hcp⟩ := hpar c (e5.mem_iff.mp hc)
  obtain ⟨cn2, hcn2, e1, _⟩ := a.2 c cn hcn
  exact ⟨cn2, hcn2, e1.trans hcp⟩

theorem linkInv_grow {G : GameState S M F} {s0 : S} {h : Heap S M F}
    (inv : TreeInv G s0 h) (li : LinkInv h) (A : Float64 F) (node : Nat) (nd : treeNode S M F)
    (hnd : h[node]? = some nd) (i : Nat) (move : M) (cs : S) (ucbC : F) :
    LinkInv ((h.set node { nd with
        untriedMoves := nd.untriedMoves.eraseIdx i
        children := nd.children ++ [h.length] }) ++
      [newTreeNode A G (some node) (some move) cs ucbC]) := by
  have hn : node < h.length := (List.getElem?_eq_some_iff.mp hnd).1
  have hlook := grow_lookup h node hn { nd with
        untriedMoves := nd.untriedMoves.eraseIdx i
        children := nd.children ++ [h.length] }
      (newTreeNode A G (some node) (some move) cs ucbC)
  have key : ∀ (k : Nat) (ndk : treeNode S M F), h[k]? = some ndk → ∀ c ∈ ndk.children,
      ∃ cn, ((h.set node { nd with
        untriedMoves := nd.untriedMoves.eraseIdx i
        children := nd.children ++ [h.length] }) ++
      [newTreeNode A G (some node) (some move) cs ucbC])[c]? = some cn ∧
        cn.parent = some k := by
    intro k ndk hk c hc
    obtain ⟨cn, hcn, hcp⟩ := (li k ndk hk).2 c hc
    have hcl := (inv.children k ndk hk c hc).2
    rw [hlook c]
    by_cases hcn2 : c = node
    · subst hcn2
      rw [hnd] at hcn
      cases hcn
      exact ⟨_, if_pos rfl, hcp⟩
    · exact ⟨cn, by rw [if_neg hcn2, if_neg (Nat.ne_of_lt hcl)]; exact hcn, hcp⟩
  intro k ndk hk
  rw [hlook k] at hk
  by_cases hkn : k = node
  · subst hkn
    rw [if_pos rfl] at hk
    cases hk
    refine ⟨?_, ?_⟩
    · refine List.Nodup.append (li k nd hnd).1 (List.nodup_singleton _) ?_
      intro c hc hc2
      rw [List.mem_singleton] at hc2
      have := (inv.children k nd hnd c hc).2
      omega
    · intro c hc
      simp only [List.mem_append, List.mem_singleton] at hc
      rcases hc with hc | hc
      · exact key k nd hnd c hc
      · subst hc
        rw [hlook h.length, if_neg (Nat.ne_of_gt hn), if_pos rfl]
        exact ⟨_, rfl, rfl⟩
  · rw [if_neg hkn] at hk
    by_cases hkl : k = h.length
    · subst hkl
      rw [if_pos rfl] at hk
      cases hk
      exact ⟨List.nodup_nil, by simp [newTreeNode]⟩
    · rw [if_neg hkl] at hk
      exact ⟨(li k ndk hk).1, key k ndk hk⟩

theorem initWorld_linkInv (A : Float64 F) (G : GameState S M F) (rnd rand : Rand) (state : S)
    (opt : UctOption F) : LinkInv (initWorld A G rnd rand state opt).heap := by
  intro i nd hi
  cases i with
  | zero =>
    simp only [initWorld, List.getElem?_cons_zero, Option.some.injEq] at hi
    subst hi
    exact ⟨List.nodup_nil, by simp [newTreeNode]⟩
  | succ k => simp [initWorld] at hi

theorem stateInv_of_sameTree {G : GameState S M F} {h h2 : Heap S M F}
    (si : StateInv G h) (a : SameTree h h2) : StateInv G h2 := by
  intro i nd2 hi p hp
  obtain ⟨nd, hnd, e1, e2, e3, _⟩ := sameTree_back a i nd2 hi
  obtain ⟨pn, m, hpn, hm, hs⟩ := si i nd hnd p (e1 ▸ hp)
  obtain ⟨pn2, hpn2, _, _, f3, _⟩ := a.2 p pn hpn
  exact ⟨pn2, m, hpn2, e2.trans hm, by rw [e3, f3, hs]⟩

theorem playerInv_of_reordered {G : GameState S M F} {h h2 : Heap S M F}
    (pi : PlayerInv G h) (a : Reordered h h2) : PlayerInv G h2 := by
  intro i nd2 hi
  have hlt : i < h.length := by
    have := (List.getElem?_eq_some_iff.mp hi).1
    rw [a.1] at this
    exact this
  obtain ⟨nd3, h3, e, _⟩ := a.2 i h[i] (List.getElem?_eq_getElem hlt)
  rw [hi] at h3
  cases h3
  rw [e]
  exact pi i h[i] (List.getElem?_eq_getElem hlt)

theorem playerInv_update {G : GameState S M F} (A : Float64 F) (score : Int → F)
    {h h2 : Heap S M F} (n : Nat) (pi : PlayerInv G h)
    (hspec : ∀ m, h2[m]? = (h[m]?).map (fun nd =>
        if m ∈ parentChain h h.length (some n) then updated A score h nd else nd)) :
    PlayerInv G h2 := by
  intro i nd2 hi
  rw [hspec i] at hi
  cases hnd : h[i]? with
  | none => rw [hnd] at hi; simp at hi
  | some nd =>
    rw [hnd] at hi
    simp only [Option.map_some', Option.some.injEq] at hi
    have := pi i nd hnd
    by_cases hin : i ∈ parentChain h h.length (some n)
    · rw [if_pos hin] at hi
      subst hi
      exact this
    · rw [if_neg hin] at hi
      subst hi
      exact this

theorem stateInv_grow {G : GameState S M F} {h : Heap S M F}
    (hclone : ∀ s, G.Clone s = s)
    (si : StateInv G h) (pi : PlayerInv G h) (A : Float64 F) (node : Nat)
    (nd : treeNode S M F) (hnd : h[node]? = some nd) (i : Nat) (move : M) (ucbC : F) :
    StateInv G ((h.set node { nd with
        untriedMoves := nd.untriedMoves.eraseIdx i
        children := nd.children ++ [h.length] }) ++
      [newTreeNode A G (some node) (some move) (G.Clone (G.MakeMove nd.state move)) ucbC]) ∧
    PlayerInv G ((h.set node { nd with
        untriedMoves := nd.untriedMoves.eraseIdx i
        children := nd.children ++ [h.length] }) ++
      [newTreeNode A G (some node) (some move) (G.Clone (G.MakeMove nd.state move)) ucbC]) := by
  have hn : node < h.length := (List.getElem?_eq_some_iff.mp hnd).1
  have hlook := grow_lookup h node hn { nd with
        untriedMoves := nd.untriedMoves.eraseIdx i
        children := nd.children ++ [h.length] }
      (newTreeNode A G (some node) (some move) (G.Clone (G.MakeMove nd.state move)) ucbC)
  have key : ∀ (k : Nat) (ndk : treeNode S M F), h[k]? = some ndk → ∀ p, ndk.parent = some p →
      ∃ pn m, ((h.set node { nd with
          untriedMoves := nd.untriedMoves.eraseIdx i
          children := nd.children ++ [h.length] }) ++
        [newTreeNode A G (some node) (some move) (G.Clone (G.MakeMove nd.state move))
          ucbC])[p]? = some pn ∧ ndk.move = some m ∧
        ndk.state = G.MakeMove (G.Clone pn.state) m := by
    intro k ndk hk p hp
    obtain ⟨pn, m, hpn, hm, hs⟩ := si k ndk hk p hp
    have hpl : p < h.length := (List.getElem?_eq_some_iff.mp hpn).1
    rw [hlook p]
    by_cases hpn2 : p = node
    · subst hpn2
      rw [hnd] at hpn
      cases hpn
      exact ⟨_, m, if_pos rfl, hm, hs⟩
    · exact ⟨pn, m, by rw [if_neg hpn2, if_neg (Nat.ne_of_lt hpl)]; exact hpn, hm, hs⟩
  constructor
  · intro k ndk hk p hp
    rw [hlook k] at hk
    by_cases hkn : k = node
    · subst hkn
      rw [if_pos rfl] at hk
      cases hk
      exact key k nd hnd p hp
    · rw [if_neg hkn] at hk
      by_cases hkl : k = h.length
      · subst hkl
        rw [if_pos rfl] at hk
        cases hk
        simp only [newTreeNode, Option.some.injEq] at hp
        subst hp
        rw [hlook node, if_pos rfl]
        refine ⟨_, move, rfl, rfl, ?_⟩
        simp only [newTreeNode, hclone]
      · rw [if_neg hkl] at hk
        exact key k ndk hk p hp
  · intro k ndk hk
    rw [hlook k] at hk
    by_cases hkn : k = node
    · subst hkn
      rw [if_pos rfl] at hk
      cases hk
      exact pi k nd hnd
    · rw [if_neg hkn] at hk
      by_cases hkl : k = h.length
      · subst hkl
        rw [if_pos rfl] at hk
        cases hk
        rfl
      · rw [if_neg hkl] at hk
        exact pi k ndk hk

theorem selectLoop_state (A : Float64 F) (T : SortFn) (hT : SortContract T)
    (G : GameState S M F) (hclone : ∀ s, G.Clone s = s) (s0 : S) :
    ∀ fuel (h : Heap S M F) node st, TreeInv G s0 h → LinkInv h → StateInv G h →
      node < h.length → (∃ nd, h[node]? = some nd ∧ nd.state = st) →
      ∀ h1 node1 st1, selectLoop A T G fuel h node st = .ok (h1, node1, st1) →
        ∃ nd1, h1[node1]? = some nd1 ∧ nd1.state = st1 := by
  intro fuel
  induction fuel with
  | zero =>
    intro h node st inv li si hn hst h1 node1 st1 hrun
    obtain ⟨nd, hnd, hs⟩ := hst
    simp only [selectLoop, hnd] at hrun
    split at hrun
    · cases hrun
    · cases hrun
      exact ⟨nd, hnd, hs⟩
  | succ f ih =>
    intro h node st inv li si hn hst h1 node1 st1 hrun
    obtain ⟨nd, hnd, hs⟩ := hst
    simp only [selectLoop, hnd] at hrun
    by_cases hc : nd.untriedMoves.length = 0 ∧ nd.children.length > 0
    · rw [if_pos hc] at hrun
      have hne : nd.children ≠ [] := List.ne_nil_of_length_pos hc.2
      obtain ⟨c, cs, hsort, hsel, hcm, hre⟩ := selectChild_spec A T hT h node nd hnd hne
      have hst2 := reordered_sameTree hre
      have inv1 := treeInv_of_sameTree inv hst2
      have li1 := linkInv_of_sameTree li hst2
      have si1 := stateInv_of_sameTree si hst2
      have hnode1 : (h.set node { nd with children := c :: cs })[node]? =
          some { nd with children := c :: cs } := List.getElem?_set_self hn
      obtain ⟨cn, hcn, hcp⟩ := (li1 node _ hnode1).2 c (List.mem_cons_self _ _)
      obtain ⟨pn, m, hpn, hm, hcs⟩ := si1 c cn hcn node hcp
      rw [hnode1] at hpn
      cases hpn
      simp only [hsel, hcn, hm] at hrun
      have hc1 : c < (h.set node { nd with children := c :: cs }).length :=
        (List.getElem?_eq_some_iff.mp hcn).1
      refine ih _ c (G.MakeMove st m) inv1 li1 si1 hc1 ⟨cn, hcn, ?_⟩ h1 node1 st1 hrun
      rw [hcs, hclone]
      simp only [hs]
    · rw [if_neg hc] at hrun
      cases hrun
      exact ⟨nd, hnd, hs⟩

theorem iteration_phases (A : Float64 F) (T : SortFn) (hT : SortContract T)
    (G : GameState S M F) (opt : UctOption F) (s0 : S) (w : World S M F)
    (inv : TreeInv G s0 w.heap) :
    ∃ r h1 node1 st1 nd1 rnd2 h2 node2 st2 rand3 st3 h4,
      w.heap[0]? = some r ∧
      selectLoop A T G w.heap.length w.heap 0 (G.Clone r.state) = .ok (h1, node1, st1) ∧
      Reordered w.heap h1 ∧ h1[node1]? = some nd1 ∧
      ¬ (nd1.untriedMoves.length = 0 ∧ nd1.children.length > 0) ∧
      expand A G w.rnd h1 node1 st1 = .ok (rnd2, h2, node2, st2) ∧
      ((nd1.untriedMoves = [] ∧ h2 = h1 ∧ node2 = node1 ∧ st2 = st1) ∨
       (∃ i move, nd1.untriedMoves[i]? = some move ∧
          h2 = (h1.set node1 { nd1 with
              untriedMoves := nd1.untriedMoves.eraseIdx i
              children := nd1.children ++ [h1.length] }) ++
            [newTreeNode A G (some node1) (some move) (G.Clone (G.MakeMove st1 move))
              nd1.ucbC] ∧
          node2 = h1.length ∧ st2 = G.MakeMove st1 move)) ∧
      TreeInv G s0 h2 ∧ node2 < h2.length ∧
      simulate G (intOfUint opt.Simulations).toNat w.rand st2 = .ok (rand3, st3) ∧
      update A (G.Score st3) h2 (some node2) = .ok h4 ∧ SameTree h2 h4 ∧
      (∀ m, h4[m]? = (h2[m]?).map (fun nd =>
        if m ∈ parentChain h2 h2.length (some node2) then updated A (G.Score st3) h2 nd
        else nd)) ∧
      iteration A T G opt w = .ok { heap := h4, rnd := rnd2, rand := rand3 } := by
  obtain ⟨r, hr, _, _⟩ := inv.root
  have h0 : 0 < w.heap.length := (List.getElem?_eq_some_iff.mp hr).1
  obtain ⟨h1, node1, st1, nd1, hsel, hre, hnd1, hcond⟩ :=
    selectLoop_spec A T hT G s0 w.heap.length w.heap 0 (G.Clone r.state) inv h0 (by omega)
  have inv1 := treeInv_of_sameTree inv (reordered_sameTree hre)
  have hn1 : node1 < h1.length := (List.getElem?_eq_some_iff.mp hnd1).1
  have hexp : ∃ rnd2 h2 node2 st2, expand A G w.rnd h1 node1 st1 = .ok (rnd2, h2, node2, st2) ∧
      ((nd1.untriedMoves = [] ∧ h2 = h1 ∧ node2 = node1 ∧ st2 = st1) ∨
       (∃ i move, nd1.untriedMoves[i]? = some move ∧
          h2 = (h1.set node1 { nd1 with
              untriedMoves := nd1.untriedMoves.eraseIdx i
              children := nd1.children ++ [h1.length] }) ++
            [newTreeNode A G (some node1) (some move) (G.Clone (G.MakeMove st1 move))
              nd1.ucbC] ∧
          node2 = h1.length ∧ st2 = G.MakeMove st1 move)) ∧
      TreeInv G s0 h2 ∧ node2 < h2.length := by
    by_cases he : nd1.untriedMoves = []
    · exact ⟨_, _, _, _, expand_skip A G w.rnd h1 node1 st1 nd1 hnd1 he,
        Or.inl ⟨he, rfl, rfl, rfl⟩, inv1, hn1⟩
    · obtain ⟨move, hmove, hexp⟩ := expand_grow A G w.rnd h1 node1 st1 nd1 hnd1 he
      exact ⟨_, _, _, _, hexp, Or.inr ⟨_, move, hmove, rfl, rfl, rfl⟩,
        treeInv_grow inv1 A node1 nd1 hnd1 _ move hmove _ _, by simp⟩
  obtain ⟨rnd2, h2, node2, st2, hexp2, hcase, inv2, hn2⟩ := hexp
  obtain ⟨rand3, st3, hsim⟩ := simulate_total G (intOfUint opt.Simulations).toNat w.rand st2
  obtain ⟨h4, hup, _, hspec⟩ := update_spec A (G.Score st3) h2 node2 inv2.below hn2
  obtain ⟨h5, hup5, hst⟩ := update_sameTree A (G.Score st3) h2 node2 inv2.below hn2
  rw [hup] at hup5
  cases hup5
  refine ⟨r, h1, node1, st1, nd1, rnd2, h2, node2, st2, rand3, st3, h4, hr, hsel, hre, hnd1,
    hcond, hexp2, hcase, inv2, hn2, hsim, hup, hst, hspec, ?_⟩
  simp only [iteration, hr, hsel, hexp2, hsim, hup]

theorem iteration_state (A : Float64 F) (T : SortFn) (hT : SortContract T)
    (G : GameState S M F) (hclone : ∀ s, G.Clone s = s) (opt : UctOption F) (s0 : S)
    (w : World S M F) (inv : TreeInv G s0 w.heap) (li : LinkInv w.heap)
    (si : StateInv G w.heap) (pi : PlayerInv G w.heap) :
    ∃ w1, iteration A T G opt w = .ok w1 ∧ TreeInv G s0 w1.heap ∧ LinkInv w1.heap ∧
      StateInv G w1.heap ∧ PlayerInv G w1.heap ∧
      ∃ r h1 node1 st1 rnd2 h2 node2 st2 nd2, w.heap[0]? = some r ∧
        selectLoop A T G w.heap.length w.heap 0 (G.Clone r.state) = .ok (h1, node1, st1) ∧
        expand A G w.rnd h1 node1 st1 = .ok (rnd2, h2, node2, st2) ∧
        h2[node2]? = some nd2 ∧ nd2.state = st2 := by
  obtain ⟨r, h1, node1, st1, nd1, rnd2, h2, node2, st2, rand3, st3, h4, hr, hsel, hre, hnd1,
    _, hexp, hcase, inv2, hn2, _, _, hst, hspec, hit⟩ :=
    iteration_phases A T hT G opt s0 w inv
  have h0 : 0 < w.heap.length := (List.getElem?_eq_some_iff.mp hr).1
  have hst1 := reordered_sameTree hre
  have inv1 := treeInv_of_sameTree inv hst1
  have li1 := linkInv_of_sameTree li hst1
  have si1 := stateInv_of_sameTree si hst1
  have pi1 := playerInv_of_reordered pi hre
  obtain ⟨nd1b, hnd1b, hs1⟩ := selectLoop_state A T hT G hclone s0 w.heap.length w.heap 0
    (G.Clone r.state) inv li si h0 ⟨r, hr, (hclone _).symm⟩ h1 node1 st1 hsel
  rw [hnd1] at hnd1b
  cases hnd1b
  subst hs1
  have hn1 : node1 < h1.length := (List.getElem?_eq_some_iff.mp hnd1).1
  have h2all : LinkInv h2 ∧ StateInv G h2 ∧ PlayerInv G h2 ∧
      ∃ nd2, h2[node2]? = some nd2 ∧ nd2.state = st2 := by
    rcases hcase with ⟨_, e1, e2, e3⟩ | ⟨i, move, hmove, e1, e2, e3⟩
    · subst e1 e2 e3
      exact ⟨li1, si1, pi1, nd1, hnd1, rfl⟩
    · subst e1 e2 e3
      have hg := stateInv_grow hclone si1 pi1 A node1 nd1 hnd1 i move nd1.ucbC
      refine ⟨linkInv_grow inv1 li1 A node1 nd1 hnd1 i move _ _, hg.1, hg.2, ?_⟩
      rw [grow_lookup h1 node1 hn1, if_neg (Nat.ne_of_gt hn1), if_pos rfl]
      exact ⟨_, rfl, by simp only [newTreeNode, hclone]⟩
  obtain ⟨li2, si2, pi2, nd2, hnd2, hs2⟩ := h2all
  refine ⟨_, hit, treeInv_of_sameTree inv2 hst, linkInv_of_sameTree li2 hst,
    stateInv_of_sameTree si2 hst, playerInv_update A (G.Score st3) node2 pi2 hspec,
    r, h1, node1, _, rnd2, h2, node2, st2, nd2, hr, hsel, hexp, hnd2, hs2⟩

theorem initWorld_stateInv (A : Float64 F) (G : GameState S M F) (rnd rand : Rand) (state : S)
    (opt : UctOption F) :
    StateInv G (initWorld A G rnd rand state opt).heap ∧
      PlayerInv G (initWorld A G rnd rand state opt).heap := by
  constructor
  · intro i nd hi p hp
    cases i with
    | zero =>
      simp only [initWorld, List.getElem?_cons_zero, Option.some.injEq] at hi
      subst hi
      simp [newTreeNode] at hp
    | succ k => simp [initWorld] at hi
  · intro i nd hi
    cases i with
    | zero =>
      simp only [initWorld, List.getElem?_cons_zero, Option.some.injEq] at hi
      subst hi
      rfl
    | succ k => simp [initWorld] at hi

theorem iterations_state (A : Float64 F) (T : SortFn) (hT : SortContract T)
    (G : GameState S M F) (hclone : ∀ s, G.Clone s = s) (rnd rand : Rand) (state : S)
    (opt : UctOption F) :
    ∀ N, ∃ w, iterations A T G opt N (initWorld A G rnd rand state opt) = .ok w ∧
      TreeInv G state w.heap ∧ LinkInv w.heap ∧ StateInv G w.heap ∧ PlayerInv G w.heap := by
  intro N
  induction N with
  | zero =>
    exact ⟨_, rfl, initWorld_inv A G rnd rand state opt,
      initWorld_linkInv A G rnd rand state opt,
      (initWorld_stateInv A G rnd rand state opt).1,
      (initWorld_stateInv A G rnd rand state opt).2⟩
  | succ n ih =>
    obtain ⟨w, hw, inv, li, si, pi⟩ := ih
    obtain ⟨w1, hw1, inv1, li1, si1, pi1, _⟩ :=
      iteration_state A T hT G hclone opt state w inv li si pi
    exact ⟨w1, by simp only [iterations, hw, hw1], inv1, li1, si1, pi1⟩

/-- C20: for a game whose `Clone` returns a state equal to its original (a deep copy),
after any number of iterations of `Uct` every node but the root has a parent and a
move, the move is among `AvailableMoves()` of the state of the parent, the state of
the node is a clone of the state of the parent with the move made on it, and the
`player` of the node is `PlayerJustMoved()` of its state; and in the next iteration the
working state at the end of the select and expand phases is the state stored in the
node that `update` is then called on.  The iterations all complete. -/
theorem uct_node_states (A : Float64 F) (T : SortFn) (hT : SortContract T)
    (G : GameState S M F) (hclone : ∀ s, G.Clone s = s) (rnd rand : Rand) (state : S)
    (opt : UctOption F) (k : Nat) :
    ∃ w, iterations A T G opt k (initWorld A G rnd rand state opt) = .ok w ∧
      (∀ (i : Nat) (nd : treeNode S M F), w.heap[i]? = some nd → 0 < i →
        ∃ p pn m, nd.parent = some p ∧ w.heap[p]? = some pn ∧ nd.move = some m ∧
          m ∈ G.AvailableMoves pn.state ∧ nd.state = G.MakeMove (G.Clone pn.state) m ∧
          nd.player = G.PlayerJustMoved nd.state) ∧
      ∃ r h1 node1 st1 rnd2 h2 node2 st2 nd2, w.heap[0]? = some r ∧
        selectLoop A T G w.heap.length w.heap 0 (G.Clone r.state) = .ok (h1, node1, st1) ∧
        expand A G w.rnd h1 node1 st1 = .ok (rnd2, h2, node2, st2) ∧
        h2[node2]? = some nd2 ∧ nd2.state = st2 := by
  obtain ⟨w, hw, inv, li, si, pi⟩ := iterations_state A T hT G hclone rnd rand state opt k
  obtain ⟨_, _, _, _, _, _, hlast⟩ := iteration_state A T hT G hclone opt state w inv li si pi
  refine ⟨w, hw, ?_, hlast⟩
  intro i nd hi hpos
  obtain ⟨⟨p, hp⟩, _⟩ := inv.nonroot i nd hi hpos
  obtain ⟨pn, m, hpn, hm, hs⟩ := si i nd hi p hp
  obtain ⟨pn2, hpn2, hmem⟩ := inv.childOf i nd hi p hp
  rw [hpn] at hpn2
  cases hpn2
  refine ⟨p, pn, m, hp, hpn, hm, ?_, hs, pi i nd hi⟩
  have h1 : some m ∈ childMoves w.heap pn ++ pn.untriedMoves.map some := by
    apply List.mem_append_left
    unfold childMoves
    rw [List.mem_map]
    exact ⟨i, hmem, by rw [hi]; exact hm⟩
  have h2 := (inv.moves p pn hpn).mem_iff.mp h1
  rw [List.mem_map] at h2
  obtain ⟨m2, hm2, e⟩ := h2
  cases e
  exact hm2

theorem uct_node_states_witness :
    (∀ s, (Nim.nimGame ratFloat64).Clone s = s) ∧
    ∃ w, iterations ratFloat64 insertionSort (Nim.nimGame ratFloat64)
        { Iterations := 5, Simulations := 2, UcbConstant := 0 } 4
        (initWorld ratFloat64 (Nim.nimGame ratFloat64) (constRand 1) (constRand 0)
          (Nim.NewNimState 4) { Iterations := 5, Simulations := 2, UcbConstant := 0 })
          = .ok w ∧
      (∀ (i : Nat) (nd : treeNode Nim.NimState Nim.NimMove ℚ), w.heap[i]? = some nd → 0 < i →
        ∃ p pn m, nd.parent = some p ∧ w.heap[p]? = some pn ∧ nd.move = some m ∧
          m ∈ (Nim.nimGame ratFloat64).AvailableMoves pn.state ∧
          nd.state = (Nim.nimGame ratFloat64).MakeMove
            ((Nim.nimGame ratFloat64).Clone pn.state) m ∧
          nd.player = (Nim.nimGame ratFloat64).PlayerJustMoved nd.state) ∧
      ∃ r h1 node1 st1 rnd2 h2 node2 st2 nd2, w.heap[0]? = some r ∧
        selectLoop ratFloat64 insertionSort (Nim.nimGame ratFloat64) w.heap.length w.heap 0
          ((Nim.nimGame ratFloat64).Clone r.state) = .ok (h1, node1, st1) ∧
        expand ratFloat64 (Nim.nimGame ratFloat64) w.rnd h1 node1 st1 =
          .ok (rnd2, h2, node2, st2) ∧
        h2[node2]? = some nd2 ∧ nd2.state = st2 :=
  ⟨fun _ => rfl, uct_node_states ratFloat64 insertionSort insertionSort_contract
    (Nim.nimGame ratFloat64) (fun _ => rfl) (constRand 1) (constRand 0) (Nim.NewNimState 4)
    { Iterations := 5, Simulations := 2, UcbConstant := 0 } 4⟩

theorem sum_indicator_eq (n : Nat) : ∀ (l : List Nat), l.Nodup →
    (l.map (fun c => if c = n then 1 else 0)).sum = if n ∈ l then 1 else 0
  | [], _ => by simp
  | x :: xs, hnd => by
    rw [List.nodup_cons] at hnd
    rw [List.map_cons, List.sum_cons, sum_indicator_eq n xs hnd.2]
    by_cases hx : x = n
    · subst hx
      simp [hnd.1]
    · have hx2 : ¬ n = x := fun e => hx e.symm
      simp [hx, hx2]

theorem sum_map_add_nat {α : Type} (f g : α → Nat) : ∀ (l : List α),
    (l.map (fun c => f c + g c)).sum = (l.map f).sum + (l.map g).sum
  | [] => by simp
  | x :: xs => by
    simp only [List.map_cons, List.sum_cons, sum_map_add_nat f g xs]
    omega

theorem chain_children_sum {G : GameState S M F} {s0 : S} (h : Heap S M F)
    (inv : TreeInv G s0 h) (li : LinkInv h) :
    ∀ fuel n, n < h.length → n < fuel → ∀ (m : Nat) (ndm : treeNode S M F),
      h[m]? = some ndm →
      (ndm.children.map (fun c => if c ∈ parentChain h fuel (some n) then 1 else 0)).sum =
        if m ∈ parentChain h fuel (some n) ∧ m ≠ n then 1 else 0 := by
  intro fuel
  induction fuel with
  | zero => intro n _ hf; omega
  | succ f ih =>
    intro n hn hf m ndm hm
    have hnd : h[n]? = some h[n] := List.getElem?_eq_getElem hn
    simp only [parentChain, hnd]
    have hnC : n ∉ parentChain h f h[n].parent := by
      intro hmem
      rcases Option.eq_none_or_eq_some h[n].parent with hpar | ⟨p, hpar⟩
      · rw [hpar] at hmem
        simp [parentChain] at hmem
      · rw [hpar] at hmem
        have h1 := parentChain_le h inv.below f p n hmem
        have h2 := inv.below n h[n] hnd p hpar
        omega
    have hfun : (fun c => if c ∈ n :: parentChain h f h[n].parent then 1 else 0) =
        (fun c => (if c = n then 1 else 0) +
          (if c ∈ parentChain h f h[n].parent then 1 else 0)) := by
      funext c
      by_cases hc : c = n
      · subst hc
        simp [hnC]
      · simp [hc]
    have hrhs : (m ∈ n :: parentChain h f h[n].parent ∧ m ≠ n) ↔
        m ∈ parentChain h f h[n].parent := by
      constructor
      · rintro ⟨h1, h2⟩
        rw [List.mem_cons] at h1
        rcases h1 with h1 | h1
        · exact absurd h1 h2
        · exact h1
      · intro h1
        refine ⟨List.mem_cons_of_mem _ h1, ?_⟩
        intro e
        subst e
        exact hnC h1
    rw [hfun, sum_map_add_nat, sum_indicator_eq n _ (li m ndm hm).1]
    simp only [hrhs]
    rcases Option.eq_none_or_eq_some h[n].parent with hpar | ⟨p, hpar⟩
    · have hnot : n ∉ ndm.children := by
        intro hmem
        obtain ⟨cn, hcn, hcp⟩ := (li m ndm hm).2 n hmem
        rw [hnd] at hcn
        cases hcn
        rw [hpar] at hcp
        cases hcp
      rw [hpar]
      simp [parentChain, hnot]
    · have hpn : p < n := inv.below n h[n] hnd p hpar
      have hpl : p < h.length := by omega
      have hpd : h[p]? = some h[p] := List.getElem?_eq_getElem hpl
      have hiff : n ∈ ndm.children ↔ m = p := by
        constructor
        · intro hmem
          obtain ⟨cn, hcn, hcp⟩ := (li m ndm hm).2 n hmem
          rw [hnd] at hcn
          cases hcn
          rw [hpar] at hcp
          cases hcp
          rfl
        · intro e
          subst e
          obtain ⟨pn, hpn2, hmem⟩ := inv.childOf n h[n] hnd m hpar
          rw [hm] at hpn2
          cases hpn2
          exact hmem
      have hpin : p ∈ parentChain h f (some p) := by
        obtain ⟨f1, rfl⟩ : ∃ f1, f = f1 + 1 := ⟨f - 1, by omega⟩
        simp [parentChain, hpd]
      rw [hpar, ih p hpl (by omega) m ndm hm]
      by_cases hmp : m = p
      · subst hmp
        simp [hiff, hpin]
      · simp [hiff, hmp]

theorem visitInv_update {G : GameState S M F} {s0 : S} (A : Float64 F) (score : Int → F)
    {h h4 : Heap S M F} (n K : Nat) (inv : TreeInv G s0 h) (li : LinkInv h)
    (hn : n < h.length) (hK : K + 1 < 2 ^ 64) (pre : VisitPre G K h n)
    (hspec : ∀ m, h4[m]? = (h[m]?).map (fun nd =>
        if m ∈ parentChain h h.length (some n) then updated A score h nd else nd)) :
    VisitInv G (K + 1) h4 := by
  have hnd : h[n]? = some h[n] := List.getElem?_eq_getElem hn
  have hnin : n ∈ parentChain h h.length (some n) := by
    obtain ⟨f1, hf1⟩ : ∃ f1, h.length = f1 + 1 := ⟨h.length - 1, by omega⟩
    rw [hf1]
    simp [parentChain, hnd]
  have hvis : ∀ (c : Nat) (ndc : treeNode S M F), h[c]? = some ndc →
      getVisits h4 (some c) =
        ndc.visits + (if c ∈ parentChain h h.length (some n) then 1 else 0) := by
    intro c ndc hc
    have hb := pre.preBound c ndc hc
    simp only [getVisits, hspec c, hc, Option.map_some']
    by_cases hin : c ∈ parentChain h h.length (some n)
    · simp only [if_pos hin, updated]
      exact Nat.mod_eq_of_lt (by omega)
    · simp only [if_neg hin, Nat.add_zero]
  have hcv : ∀ (m : Nat) (ndm : treeNode S M F), h[m]? = some ndm →
      (ndm.children.map (fun c => getVisits h4 (some c))).sum =
        childVisits h ndm +
          (if m ∈ parentChain h h.length (some n) ∧ m ≠ n then 1 else 0) := by
    intro m ndm hm
    have hmap : ndm.children.map (fun c => getVisits h4 (some c)) =
        ndm.children.map (fun c => getVisits h (some c) +
          (if c ∈ parentChain h h.length (some n) then 1 else 0)) := by
      apply List.map_congr_left
      intro c hc
      have hcl := (inv.children m ndm hm c hc).2
      rw [hvis c h[c] (List.getElem?_eq_getElem hcl)]
      simp only [getVisits, List.getElem?_eq_getElem hcl]
    rw [hmap, sum_map_add_nat, chain_children_sum h inv li h.length n hn hn m ndm hm]
    rfl
  have hback : ∀ (i : Nat) (nd4 : treeNode S M F), h4[i]? = some nd4 →
      ∃ nd, h[i]? = some nd ∧ nd4.state = nd.state ∧ nd4.children = nd.children ∧
        nd4.visits = nd.visits + (if i ∈ parentChain h h.length (some n) then 1 else 0) := by
    intro i nd4 hi
    have hv := hvis i
    rw [hspec i] at hi
    cases hnd : h[i]? with
    | none => rw [hnd] at hi; simp at hi
    | some nd =>
      rw [hnd] at hi
      simp only [Option.map_some', Option.some.injEq] at hi
      have hb := pre.preBound i nd hnd
      refine ⟨nd, rfl, ?_⟩
      by_cases hin : i ∈ parentChain h h.length (some n)
      · rw [if_pos hin] at hi ⊢
        subst hi
        exact ⟨rfl, rfl, Nat.mod_eq_of_lt (by omega)⟩
      · rw [if_neg hin] at hi ⊢
        subst hi
        exact ⟨rfl, rfl, rfl⟩
  constructor
  · intro i nd4 hi
    obtain ⟨nd, hnd, _, _, hv⟩ := hback i nd4 hi
    have hb := pre.preBound i nd hnd
    rw [hv]
    split <;> omega
  · intro i nd4 hi hpos
    obtain ⟨nd, hnd, _, _, hv⟩ := hback i nd4 hi
    rw [hv]
    by_cases hin : i ∈ parentChain h h.length (some n)
    · rw [if_pos hin]
      omega
    · rw [if_neg hin]
      have hne : i ≠ n := fun e => hin (e ▸ hnin)
      have := pre.prePos i nd hnd hpos hne
      omega
  · intro i nd4 hi hmoves
    obtain ⟨nd, hnd, hs, hc, hv⟩ := hback i nd4 hi
    rw [hs] at hmoves
    have hb := pre.preBalance i nd hnd hmoves
    have hc2 := hcv i nd hnd
    unfold childVisits
    rw [hc, hc2, hv]
    by_cases hin : i ∈ parentChain h h.length (some n)
    · by_cases hne : i = n
      · have e1 : ¬ (i ∈ parentChain h h.length (some n) ∧ i ≠ n) := fun hh => hh.2 hne
        rw [if_pos hne] at hb
        rw [if_pos hin, if_neg e1]
        omega
      · have e1 : i ∈ parentChain h h.length (some n) ∧ i ≠ n := ⟨hin, hne⟩
        rw [if_neg hne] at hb
        rw [if_pos hin, if_pos e1]
        omega
    · have hne : i ≠ n := fun e => hin (e ▸ hnin)
      have e1 : ¬ (i ∈ parentChain h h.length (some n) ∧ i ≠ n) := fun hh => hin hh.1
      rw [if_neg hne] at hb
      rw [if_neg hin, if_neg e1]
      omega

theorem reordered_back {h h2 : Heap S M F} (a : Reordered h h2) (i : Nat)
    (nd2 : treeNode S M F) (hi : h2[i]? = some nd2) :
    ∃ nd, h[i]? = some nd ∧ nd2 = { nd with children := nd2.children } ∧
      nd2.children.Perm nd.children := by
  have hlt : i < h.length := by
    have := (List.getElem?_eq_some_iff.mp hi).1
    rw [a.1] at this
    exact this
  obtain ⟨nd3, h3, e⟩ := a.2 i h[i] (List.getElem?_eq_getElem hlt)
  rw [hi] at h3
  cases h3
  exact ⟨h[i], List.getElem?_eq_getElem hlt, e⟩

theorem visitInv_of_reordered {G : GameState S M F} {K : Nat} {h h2 : Heap S M F}
    (vi : VisitInv G K h) (a : Reordered h h2) : VisitInv G K h2 := by
  constructor
  · intro i nd2 hi
    obtain ⟨nd, hnd, e, _⟩ := reordered_back a i nd2 hi
    rw [e]
    exact vi.bound i nd hnd
  · intro i nd2 hi hpos
    obtain ⟨nd, hnd, e, _⟩ := reordered_back a i nd2 hi
    rw [e]
    exact vi.pos i nd hnd hpos
  · intro i nd2 hi hm
    obtain ⟨nd, hnd, e, hperm⟩ := reordered_back a i nd2 hi
    have hs : nd2.state = nd.state := by rw [e]
    have hv : nd2.visits = nd.visits := by rw [e]
    rw [hs] at hm
    have hb := vi.balance i nd hnd hm
    have hcv : childVisits h2 nd2 = childVisits h nd := by
      unfold childVisits
      have hfun : (fun c => getVisits h2 (some c)) = (fun c => getVisits h (some c)) :=
        funext (fun c => reordered_getVisits a (some c))
      rw [hfun]
      exact (hperm.map _).sum_eq
    rw [hv, hcv]
    exact hb

theorem visitPre_skip {G : GameState S M F} {s0 : S} {K : Nat} {h : Heap S M F}
    (inv : TreeInv G s0 h) (vi : VisitInv G K h) (n : Nat) (nd : treeNode S M F)
    (hnd : h[n]? = some nd) (hu : nd.untriedMoves = []) (hc : nd.children = []) :
    VisitPre G K h n := by
  have hterm : G.AvailableMoves nd.state = [] := by
    have := (inv.moves n nd hnd).length_eq
    simp only [childMoves, hu, hc, List.map_nil, List.append_nil, List.length_nil,
      List.length_map] at this
    exact List.length_eq_zero.mp this.symm
  constructor
  · exact vi.bound
  · intro i ndi hi hpos _
    exact vi.pos i ndi hi hpos
  · intro i ndi hi hm
    by_cases hin : i = n
    · subst hin
      rw [hnd] at hi
      cases hi
      exact absurd hterm hm
    · rw [if_neg hin]
      exact vi.balance i ndi hi hm

theorem visitPre_grow {G : GameState S M F} {s0 : S} {K : Nat} {h : Heap S M F}
    (inv : TreeInv G s0 h) (vi : VisitInv G K h) (A : Float64 F) (node : Nat)
    (nd : treeNode S M F) (hnd : h[node]? = some nd) (i : Nat) (move : M) (cs : S) (ucbC : F) :
    VisitPre G K ((h.set node { nd with
        untriedMoves := nd.untriedMoves.eraseIdx i
        children := nd.children ++ [h.length] }) ++
      [newTreeNode A G (some node) (some move) cs ucbC]) h.length := by
  have hn : node < h.length := (List.getElem?_eq_some_iff.mp hnd).1
  have hlook := grow_lookup h node hn { nd with
        untriedMoves := nd.untriedMoves.eraseIdx i
        children := nd.children ++ [h.length] }
      (newTreeNode A G (some node) (some move) cs ucbC)
  have hgv : ∀ c, c < h.length → getVisits ((h.set node { nd with
        untriedMoves := nd.untriedMoves.eraseIdx i
        children := nd.children ++ [h.length] }) ++
      [newTreeNode A G (some node) (some move) cs ucbC]) (some c) = getVisits h (some c) := by
    intro c hc
    simp only [getVisits, hlook c]
    by_cases hcn : c = node
    · subst hcn
      rw [if_pos rfl, hnd]
    · rw [if_neg hcn, if_neg (Nat.ne_of_lt hc)]
  have hgl : getVisits ((h.set node { nd with
        untriedMoves := nd.untriedMoves.eraseIdx i
        children := nd.children ++ [h.length] }) ++
      [newTreeNode A G (some node) (some move) cs ucbC]) (some h.length) = 0 := by
    simp only [getVisits, hlook h.length, if_neg (Nat.ne_of_gt hn), if_pos]
    rfl
  have hcv : ∀ (k : Nat) (ndk : treeNode S M F), h[k]? = some ndk →
      (ndk.children.map (fun c => getVisits ((h.set node { nd with
        untriedMoves := nd.untriedMoves.eraseIdx i
        children := nd.children ++ [h.length] }) ++
      [newTreeNode A G (some node) (some move) cs ucbC]) (some c))).sum =
        childVisits h ndk := by
    intro k ndk hk
    unfold childVisits
    congr 1
    apply List.map_congr_left
    intro c hc
    exact hgv c (inv.children k ndk hk c hc).2
  constructor
  · intro k ndk hk
    rw [hlook k] at hk
    by_cases hkn : k = node
    · subst hkn
      rw [if_pos rfl] at hk
      cases hk
      exact vi.bound k nd hnd
    · rw [if_neg hkn] at hk
      by_cases hkl : k = h.length
      · subst hkl
        rw [if_pos rfl] at hk
        cases hk
        exact Nat.zero_le _
      · rw [if_neg hkl] at hk
        exact vi.bound k ndk hk
  · intro k ndk hk hpos hne
    rw [hlook k] at hk
    by_cases hkn : k = node
    · subst hkn
      rw [if_pos rfl] at hk
      cases hk
      exact vi.pos k nd hnd hpos
    · rw [if_neg hkn, if_neg hne] at hk
      exact vi.pos k ndk hk hpos
  · intro k ndk hk hm
    rw [hlook k] at hk
    by_cases hkn : k = node
    · subst hkn
      rw [if_pos rfl] at hk
      cases hk
      have hb := vi.balance k nd hnd hm
      rw [if_neg (Nat.ne_of_lt hn)]
      unfold childVisits
      simp only [List.map_append, List.sum_append, List.map_cons, List.map_nil,
        List.sum_cons, List.sum_nil, hgl]
      rw [hcv k nd hnd]
      omega
    · rw [if_neg hkn] at hk
      by_cases hkl : k = h.length
      · subst hkl
        rw [if_pos rfl] at hk
        cases hk
        rw [if_pos rfl, if_neg (by omega)]
        rfl
      · rw [if_neg hkl] at hk
        have hb := vi.balance k ndk hk hm
        rw [if_neg hkl]
        unfold childVisits
        rw [hcv k ndk hk]
        omega

theorem iteration_pre (A : Float64 F) (T : SortFn) (hT : SortContract T)
    (G : GameState S M F) (opt : UctOption F) (s0 : S) (w : World S M F) (K : Nat)
    (inv : TreeInv G s0 w.heap) (li : LinkInv w.heap) (vi : VisitInv G K w.heap) :
    ∃ rnd2 h2 node2 rand3 st3 h4, TreeInv G s0 h2 ∧ LinkInv h2 ∧ VisitPre G K h2 node2 ∧
      node2 < h2.length ∧ update A (G.Score st3) h2 (some node2) = .ok h4 ∧ SameTree h2 h4 ∧
      (∀ m, h4[m]? = (h2[m]?).map (fun nd =>
        if m ∈ parentChain h2 h2.length (some node2) then updated A (G.Score st3) h2 nd
        else nd)) ∧
      iteration A T G opt w = .ok { heap := h4, rnd := rnd2, rand := rand3 } ∧
      ∀ calls, updateAuxLog A (G.Score st3) h2.length h2 (some node2) = .ok (h4, calls) →
        iterationLog A T G opt w = .ok ({ heap := h4, rnd := rnd2, rand := rand3 }, calls) := by
  obtain ⟨r, h1, node1, st1, nd1, rnd2, h2, node2, st2, rand3, st3, h4, hr, hsel, hre, hnd1,
    hcond, hexp, hcase, inv2, hn2, hsim, hup, hst, hspec, hit⟩ :=
    iteration_phases A T hT G opt s0 w inv
  have hst1 := reordered_sameTree hre
  have inv1 := treeInv_of_sameTree inv hst1
  have li1 := linkInv_of_sameTree li hst1
  have vi1 := visitInv_of_reordered vi hre
  have h2all : LinkInv h2 ∧ VisitPre G K h2 node2 := by
    rcases hcase with ⟨hu, e1, e2, e3⟩ | ⟨i, move, hmove, e1, e2, e3⟩
    · subst e1 e2 e3
      have hc : nd1.children = [] := by
        cases hch : nd1.children with
        | nil => rfl
        | cons c cs =>
          exfalso
          apply hcond
          rw [hu, hch]
          exact ⟨rfl, Nat.succ_pos _⟩
      exact ⟨li1, visitPre_skip inv1 vi1 node2 nd1 hnd1 hu hc⟩
    · subst e1 e2 e3
      exact ⟨linkInv_grow inv1 li1 A node1 nd1 hnd1 i move _ _,
        visitPre_grow inv1 vi1 A node1 nd1 hnd1 i move _ _⟩
  refine ⟨rnd2, h2, node2, rand3, st3, h4, inv2, h2all.1, h2all.2, hn2, hup, hst, hspec, hit, ?_⟩
  intro calls hcalls
  simp only [iterationLog, hr, hsel, hexp, hsim, hcalls]

theorem iteration_visits (A : Float64 F) (T : SortFn) (hT : SortContract T)
    (G : GameState S M F) (opt : UctOption F) (s0 : S) (w : World S M F) (K : Nat)
    (hK : K + 1 < 2 ^ 64) (inv : TreeInv G s0 w.heap) (li : LinkInv w.heap)
    (vi : VisitInv G K w.heap) :
    ∃ w1, iteration A T G opt w = .ok w1 ∧ TreeInv G s0 w1.heap ∧ LinkInv w1.heap ∧
      VisitInv G (K + 1) w1.heap := by
  obtain ⟨rnd2, h2, node2, rand3, st3, h4, inv2, li2, pre2, hn2, _, hst, hspec, hit, _⟩ :=
    iteration_pre A T hT G opt s0 w K inv li vi
  exact ⟨_, hit, treeInv_of_sameTree inv2 hst, linkInv_of_sameTree li2 hst,
    visitInv_update A (G.Score st3) node2 K inv2 li2 hn2 hK pre2 hspec⟩

theorem initWorld_visitInv (A : Float64 F) (G : GameState S M F) (rnd rand : Rand) (state : S)
    (opt : UctOption F) : VisitInv G 0 (initWorld A G rnd rand state opt).heap := by
  have hlook : ∀ (i : Nat) (nd : treeNode S M F),
      (initWorld A G rnd rand state opt).heap[i]? = some nd →
      i = 0 ∧ nd = newTreeNode A G none none state opt.UcbConstant := by
    intro i nd hi
    cases i with
    | zero =>
      simp only [initWorld, List.getElem?_cons_zero, Option.some.injEq] at hi
      exact ⟨rfl, hi.symm⟩
    | succ k => simp [initWorld] at hi
  constructor
  · intro i nd hi
    obtain ⟨_, rfl⟩ := hlook i nd hi
    exact Nat.le_refl _
  · intro i nd hi hpos
    obtain ⟨rfl, _⟩ := hlook i nd hi
    omega
  · intro i nd hi _
    obtain ⟨rfl, rfl⟩ := hlook i nd hi
    rfl

theorem iterations_visits (A : Float64 F) (T : SortFn) (hT : SortContract T)
    (G : GameState S M F) (rnd rand : Rand) (state : S) (opt : UctOption F) :
    ∀ N, N < 2 ^ 64 → ∃ w, iterations A T G opt N (initWorld A G rnd rand state opt) = .ok w ∧
      TreeInv G state w.heap ∧ LinkInv w.heap ∧ VisitInv G N w.heap := by
  intro N
  induction N with
  | zero =>
    intro _
    exact ⟨_, rfl, initWorld_inv A G rnd rand state opt,
      initWorld_linkInv A G rnd rand state opt, initWorld_visitInv A G rnd rand state opt⟩
  | succ n ih =>
    intro hN
    obtain ⟨w, hw, inv, li, vi⟩ := ih (by omega)
    obtain ⟨w1, hw1, inv1, li1, vi1⟩ := iteration_visits A T hT G opt state w n hN inv li vi
    exact ⟨w1, by simp only [iterations, hw, hw1], inv1, li1, vi1⟩

/-- C19: after every completed iteration of `Uct` (the `k`-th, for every count `k` a
`uint64` holds, which the `int` counter of the loop never exceeds) the visits are
conserved down the tree: when the initial state has moves, the `visits` of the root is
the sum of the `visits` of its children; every other node whose state has moves has
`visits` one more than the sum of the `visits` of its children; and every node but the
root has `visits >= 1`, so every child in a slice `children` has been visited.  The
iterations all complete. -/
theorem uct_visits_conserved (A : Float64 F) (T : SortFn) (hT : SortContract T)
    (G : GameState S M F) (rnd rand : Rand) (state : S) (opt : UctOption F) (k : Nat)
    (hk : k < 2 ^ 64) :
    ∃ w, iterations A T G opt k (initWorld A G rnd rand state opt) = .ok w ∧
      (∀ root, w.heap[0]? = some root → G.AvailableMoves state ≠ [] →
        root.visits = childVisits w.heap root) ∧
      (∀ (i : Nat) (nd : treeNode S M F), w.heap[i]? = some nd → 0 < i →
        G.AvailableMoves nd.state ≠ [] → nd.visits = 1 + childVisits w.heap nd) ∧
      (∀ (i : Nat) (nd : treeNode S M F), w.heap[i]? = some nd → 0 < i → 1 ≤ nd.visits) ∧
      (∀ (i : Nat) (nd : treeNode S M F), w.heap[i]? = some nd → ∀ c ∈ nd.children,
        ∃ cn, w.heap[c]? = some cn ∧ 1 ≤ cn.visits) := by
  obtain ⟨w, hw, inv, _, vi⟩ := iterations_visits A T hT G rnd rand state opt k hk
  refine ⟨w, hw, ?_, ?_, vi.pos, ?_⟩
  · intro root hroot hm
    obtain ⟨r, hr, _, hs⟩ := inv.root
    rw [hroot] at hr
    cases hr
    have := vi.balance 0 root hroot (hs ▸ hm)
    rw [if_pos rfl] at this
    omega
  · intro i nd hi hpos hm
    have := vi.balance i nd hi hm
    rw [if_neg (by omega)] at this
    exact this
  · intro i nd hi c hc
    have hb := inv.children i nd hi c hc
    exact ⟨w.heap[c], List.getElem?_eq_getElem hb.2,
      vi.pos c _ (List.getElem?_eq_getElem hb.2) (by omega)⟩

theorem uct_visits_conserved_witness :
    (1000 : Nat) < 2 ^ 64 ∧
    ∃ w, iterations ratFloat64 insertionSort (Nim.nimGame ratFloat64)
        { Iterations := 1000, Simulations := 100, UcbConstant := 0 } 1000
        (initWorld ratFloat64 (Nim.nimGame ratFloat64) (constRand 1) (constRand 0)
          (Nim.NewNimState 100) { Iterations := 1000, Simulations := 100, UcbConstant := 0 })
          = .ok w ∧
      (∀ root, w.heap[0]? = some root →
        (Nim.nimGame ratFloat64).AvailableMoves (Nim.NewNimState 100) ≠ [] →
        root.visits = childVisits w.heap root) ∧
      (∀ (i : Nat) (nd : treeNode Nim.NimState Nim.NimMove ℚ), w.heap[i]? = some nd → 0 < i →
        (Nim.nimGame ratFloat64).AvailableMoves nd.state ≠ [] →
        nd.visits = 1 + childVisits w.heap nd) ∧
      (∀ (i : Nat) (nd : treeNode Nim.NimState Nim.NimMove ℚ), w.heap[i]? = some nd → 0 < i →
        1 ≤ nd.visits) ∧
      (∀ (i : Nat) (nd : treeNode Nim.NimState Nim.NimMove ℚ), w.heap[i]? = some nd →
        ∀ c ∈ nd.children, ∃ cn, w.heap[c]? = some cn ∧ 1 ≤ cn.visits) :=
  ⟨by decide, uct_visits_conserved ratFloat64 insertionSort insertionSort_contract
    (Nim.nimGame ratFloat64) (constRand 1) (constRand 0) (Nim.NewNimState 100)
    { Iterations := 1000, Simulations := 100, UcbConstant := 0 } 1000 (by decide)⟩

end Conservation

/-! ## The evaluations of `upperConfidenceBound` -/

section Evaluations

variable {S M F : Type}

theorem updateAuxLog_spec (A : Float64 F) (score : Int → F) :
    ∀ fuel (h : Heap S M F) n, ParentsBelow h → n < h.length → n < fuel →
      ∃ h2, updateAux A score fuel h (some n) = .ok h2 ∧
        updateAuxLog A score fuel h (some n) =
          .ok (h2, (parentChain h fuel (some n)).reverse.map (callOf h)) := by
  intro fuel
  induction fuel with
  | zero => intro h n _ _ hf; omega
  | succ f ih =>
    intro h n hp hn hf
    obtain ⟨nd0, hnd0⟩ : ∃ nd0, h[n]? = some nd0 := ⟨h[n], List.getElem?_eq_getElem hn⟩
    obtain ⟨b, hb⟩ : ∃ b : treeNode S M F, b = { nd0 with
        totalOutcome := A.add nd0.totalOutcome (score nd0.player)
        visits := (nd0.visits + 1) % 2 ^ 64 } := ⟨_, rfl⟩
    have hbpar : b.parent = nd0.parent := by rw [hb]
    have hbvis : b.visits = (nd0.visits + 1) % 2 ^ 64 := by rw [hb]
    simp only [updateAux, updateAuxLog, hnd0, parentChain]
    rw [← hb]
    rcases Option.eq_none_or_eq_some nd0.parent with hpar | ⟨p, hpar⟩
    · rw [hpar]
      simp only [updateAux, updateAuxLog, computeSelectionScore, computeSelectionScoreLog,
        List.getElem?_set_self hn, parentChain, List.nil_append, List.reverse_cons,
        List.reverse_nil, List.map_cons, List.map_nil]
      refine ⟨_, rfl, ?_⟩
      simp only [callOf, hnd0, hpar, hbpar, hbvis, getVisits]
    · have hpn : p < n := hp n nd0 hnd0 p hpar
      have hget1 : ∀ m, m ≠ n → (h.set n b)[m]? = h[m]? := by
        intro m hm
        exact List.getElem?_set_ne (fun e => hm e.symm)
      have hparEq : ∀ i : Nat, ((h.set n b)[i]?).map
              (fun (nd : treeNode S M F) => nd.parent) =
            (h[i]?).map (fun (nd : treeNode S M F) => nd.parent) := by
        intro i
        by_cases hi : i = n
        · subst hi
          simp [List.getElem?_set_self hn, hnd0, hbpar]
        · rw [hget1 i hi]
      have hp1 : ParentsBelow (h.set n b) := by
        intro i nd hi q hq
        by_cases hin : i = n
        · subst hin
          rw [List.getElem?_set_self hn] at hi
          cases hi
          exact hp i nd0 hnd0 q (hbpar ▸ hq)
        · rw [hget1 i hin] at hi
          exact hp i nd hi q hq
      have hpl : p < (h.set n b).length := by simp; omega
      obtain ⟨h2, hrec, hreclog⟩ := ih _ p hp1 hpl (by omega)
      obtain ⟨h2b, hrec2, hlen2, hspec2⟩ := updateAux_spec A score f _ p hp1 hpl (by omega)
      rw [hrec] at hrec2
      cases hrec2
      rw [hpar, hrec, hreclog]
      have hnotin : n ∉ parentChain (h.set n b) f (some p) := by
        intro hmem
        have := parentChain_le _ hp1 f p n hmem
        omega
      have h2n : h2[n]? = some b := by
        rw [hspec2 n, List.getElem?_set_self hn]
        simp [hnotin]
      obtain ⟨ndp, hndp⟩ : ∃ ndp, h[p]? = some ndp :=
        ⟨h[p], List.getElem?_eq_getElem (by omega)⟩
      have hpin : p ∈ parentChain (h.set n b) f (some p) := by
        obtain ⟨f1, rfl⟩ : ∃ f1, f = f1 + 1 := ⟨f - 1, by omega⟩
        simp [parentChain, hget1 p (by omega), hndp]
      have h2p : getVisits h2 (some p) = (getVisits h (some p) + 1) % 2 ^ 64 := by
        simp only [getVisits, hspec2 p, hget1 p (Nat.ne_of_lt hpn), hndp, Option.map_some',
          if_pos hpin, updated]
      simp only [computeSelectionScore, computeSelectionScoreLog, h2n, hbpar, hpar, h2p]
      refine ⟨_, rfl, ?_⟩
      rw [parentChain_congr _ h hparEq]
      simp only [List.reverse_cons, List.map_append, List.map_cons, List.map_nil]
      have hcn : callOf h n =
          UcbCall.mk n ((getVisits h (some p) + 1) % 2 ^ 64) b.visits := by
        simp only [callOf, hnd0, hpar, hbvis]
      rw [hcn]
      congr 3
      apply List.map_congr_left
      intro m hm
      rw [List.mem_reverse] at hm
      have hmp : m ≤ p := parentChain_le h hp f p m hm
      cases hmm : h[m]? with
      | none => simp only [callOf, hget1 m (by omega), hmm]
      | some nd =>
        simp only [callOf, hget1 m (by omega), hmm]
        rcases Option.eq_none_or_eq_some nd.parent with hq | ⟨q, hq⟩
        · simp only [hq]
        · have hqm : q < m := hp m nd hmm q hq
          simp only [hq, getVisits, hget1 q (by omega)]

theorem mem_parentChain_valid (h : Heap S M F) :
    ∀ fuel x m, m ∈ parentChain h fuel x → m < h.length := by
  intro fuel
  induction fuel with
  | zero => intro x m hm; cases x <;> simp [parentChain] at hm
  | succ f ih =>
    intro x m hm
    cases x with
    | none => simp [parentChain] at hm
    | some n =>
      simp only [parentChain] at hm
      cases hn : h[n]? with
      | none => simp [hn] at hm
      | some nd =>
        simp only [hn, List.mem_cons] at hm
        rcases hm with rfl | hm
        · exact (List.getElem?_eq_some_iff.mp hn).1
        · exact ih _ m hm

theorem chain_count_root {G : GameState S M F} {s0 : S} (h : Heap S M F)
    (inv : TreeInv G s0 h) :
    ∀ fuel n, n < h.length → n < fuel →
      (parentChain h fuel (some n)).countP (fun m => decide (m = 0)) = 1 := by
  intro fuel
  induction fuel with
  | zero => intro n _ hf; omega
  | succ f ih =>
    intro n hn hf
    have hnd : h[n]? = some h[n] := List.getElem?_eq_getElem hn
    simp only [parentChain, hnd, List.countP_cons]
    by_cases h0 : n = 0
    · have hpar : h[n].parent = none := by
        rcases Option.eq_none_or_eq_some h[n].parent with hpar | ⟨p, hpar⟩
        · exact hpar
        · have := inv.below n h[n] hnd p hpar
          omega
      rw [hpar]
      simp [parentChain, h0]
    · obtain ⟨⟨p, hpar⟩, _⟩ := inv.nonroot n h[n] hnd (by omega)
      have hpn : p < n := inv.below n h[n] hnd p hpar
      rw [hpar, ih p (by omega) (by omega)]
      simp [h0]

theorem iteration_calls (A : Float64 F) (T : SortFn) (hT : SortContract T)
    (G : GameState S M F) (opt : UctOption F) (s0 : S) (w : World S M F) (K : Nat)
    (hK : K + 1 < 2 ^ 64) (inv : TreeInv G s0 w.heap) (li : LinkInv w.heap)
    (vi : VisitInv G K w.heap) :
    ∃ w1 calls, iterationLog A T G opt w = .ok (w1, calls) ∧ iteration A T G opt w = .ok w1 ∧
      TreeInv G s0 w1.heap ∧ LinkInv w1.heap ∧ VisitInv G (K + 1) w1.heap ∧
      (∀ c ∈ calls, 1 ≤ c.childVisits ∧ (c.node ≠ 0 → 1 ≤ c.parentVisits) ∧
        (c.node = 0 → c.parentVisits = 0)) ∧
      calls.countP (fun c => decide (c.node = 0)) = 1 := by
  obtain ⟨rnd2, h2, node2, rand3, st3, h4, inv2, li2, pre2, hn2, hup, hst, hspec, hit, hlog⟩ :=
    iteration_pre A T hT G opt s0 w K inv li vi
  obtain ⟨h5, hup5, hcalls⟩ :=
    updateAuxLog_spec A (G.Score st3) h2.length h2 node2 inv2.below hn2 hn2
  have e : h5 = h4 := by
    have := hup5.symm.trans hup
    cases this
    rfl
  subst e
  refine ⟨_, _, hlog _ hcalls, hit, treeInv_of_sameTree inv2 hst, linkInv_of_sameTree li2 hst,
    visitInv_update A (G.Score st3) node2 K inv2 li2 hn2 hK pre2 hspec, ?_, ?_⟩
  · intro c hc
    rw [List.mem_map] at hc
    obtain ⟨m, hm, rfl⟩ := hc
    rw [List.mem_reverse] at hm
    have hml := mem_parentChain_valid h2 _ _ m hm
    have hmd : h2[m]? = some h2[m] := List.getElem?_eq_getElem hml
    have hb := pre2.preBound m h2[m] hmd
    have hcv : (h2[m].visits + 1) % 2 ^ 64 = h2[m].visits + 1 := Nat.mod_eq_of_lt (by omega)
    simp only [callOf, hmd, hcv]
    refine ⟨by omega, ?_, ?_⟩
    · intro hne
      obtain ⟨⟨p, hpar⟩, _⟩ := inv2.nonroot m h2[m] hmd (by omega)
      have hpl : p < h2.length := by
        have := inv2.below m h2[m] hmd p hpar
        omega
      have hpd : h2[p]? = some h2[p] := List.getElem?_eq_getElem hpl
      have hbp := pre2.preBound p h2[p] hpd
      have hpv : (h2[p].visits + 1) % 2 ^ 64 = h2[p].visits + 1 := Nat.mod_eq_of_lt (by omega)
      simp only [hpar, getVisits, hpd, hpv]
      omega
    · intro h0
      have h0m : m = 0 := h0
      subst h0m
      obtain ⟨r, hr, hrp, _⟩ := inv2.root
      rw [hmd] at hr
      cases hr
      simp only [hrp]
  · rw [List.countP_map, List.countP_reverse]
    have := chain_count_root h2 inv2 h2.length node2 hn2 hn2
    rw [← this]
    apply List.countP_congr
    intro m _
    simp [callOf]
    cases h2[m]? <;> rfl

theorem iterations_calls (A : Float64 F) (T : SortFn) (hT : SortContract T)
    (G : GameState S M F) (rnd rand : Rand) (state : S) (opt : UctOption F) :
    ∀ N, N < 2 ^ 64 → ∃ w calls,
      iterationsLog A T G opt N (initWorld A G rnd rand state opt) = .ok (w, calls) ∧
      iterations A T G opt N (initWorld A G rnd rand state opt) = .ok w ∧
      TreeInv G state w.heap ∧ LinkInv w.heap ∧ VisitInv G N w.heap ∧
      (∀ c ∈ calls, 1 ≤ c.childVisits ∧ (c.node ≠ 0 → 1 ≤ c.parentVisits) ∧
        (c.node = 0 → c.parentVisits = 0)) ∧
      calls.countP (fun c => decide (c.node = 0)) = N := by
  intro N
  induction N with
  | zero =>
    intro _
    exact ⟨_, [], rfl, rfl, initWorld_inv A G rnd rand state opt,
      initWorld_linkInv A G rnd rand state opt, initWorld_visitInv A G rnd rand state opt,
      by simp, rfl⟩
  | succ n ih =>
    intro hN
    obtain ⟨w, calls, hwl, hw, inv, li, vi, hall, hcount⟩ := ih (by omega)
    obtain ⟨w1, calls1, hw1l, hw1, inv1, li1, vi1, hall1, hcount1⟩ :=
      iteration_calls A T hT G opt state w n hN inv li vi
    refine ⟨w1, calls ++ calls1, by simp only [iterationsLog, hwl, hw1l],
      by simp only [iterations, hw, hw1], inv1, li1, vi1, ?_, ?_⟩
    · intro c hc
      rw [List.mem_append] at hc
      rcases hc with hc | hc
      · exact hall c hc
      · exact hall1 c hc
    · rw [List.countP_append, hcount, hcount1]

/-- C11, as the code has it: in any run of `Uct`, after `k` iterations (for every count
`k` a `uint64` holds) every evaluation of `upperConfidenceBound` made so far had
`childVisits >= 1`; it had `parentVisits >= 1` when it computed the score of a node
other than the root, and `parentVisits = 0` when it computed the score of the root;
and the score of the root was computed once in every iteration.  The iterations all
complete, and the run with the calls recorded computes the same tree as the run
without. -/
theorem ucb_arguments (A : Float64 F) (T : SortFn) (hT : SortContract T)
    (G : GameState S M F) (rnd rand : Rand) (state : S) (opt : UctOption F) (k : Nat)
    (hk : k < 2 ^ 64) :
    ∃ w calls,
      iterationsLog A T G opt k (initWorld A G rnd rand state opt) = .ok (w, calls) ∧
      iterations A T G opt k (initWorld A G rnd rand state opt) = .ok w ∧
      (∀ c ∈ calls, 1 ≤ c.childVisits ∧ (c.node ≠ 0 → 1 ≤ c.parentVisits) ∧
        (c.node = 0 → c.parentVisits = 0)) ∧
      calls.countP (fun c => decide (c.node = 0)) = k := by
  obtain ⟨w, calls, hwl, hw, _, _, _, hall, hcount⟩ :=
    iterations_calls A T hT G rnd rand state opt k hk
  exact ⟨w, calls, hwl, hw, hall, hcount⟩

theorem ucb_arguments_witness :
    (1000 : Nat) < 2 ^ 64 ∧
    ∃ w calls,
      iterationsLog ratFloat64 insertionSort (Nim.nimGame ratFloat64)
        { Iterations := 1000, Simulations := 100, UcbConstant := 0 } 1000
        (initWorld ratFloat64 (Nim.nimGame ratFloat64) (constRand 1) (constRand 0)
          (Nim.NewNimState 100) { Iterations := 1000, Simulations := 100, UcbConstant := 0 })
          = .ok (w, calls) ∧
      iterations ratFloat64 insertionSort (Nim.nimGame ratFloat64)
        { Iterations := 1000, Simulations := 100, UcbConstant := 0 } 1000
        (initWorld ratFloat64 (Nim.nimGame ratFloat64) (constRand 1) (constRand 0)
          (Nim.NewNimState 100) { Iterations := 1000, Simulations := 100, UcbConstant := 0 })
          = .ok w ∧
      (∀ c ∈ calls, 1 ≤ c.childVisits ∧ (c.node ≠ 0 → 1 ≤ c.parentVisits) ∧
        (c.node = 0 → c.parentVisits = 0)) ∧
      calls.countP (fun c => decide (c.node = 0)) = 1000 :=
  ⟨by decide, ucb_arguments ratFloat64 insertionSort insertionSort_contract
    (Nim.nimGame ratFloat64) (constRand 1) (constRand 0) (Nim.NewNimState 100)
    { Iterations := 1000, Simulations := 100, UcbConstant := 0 } 1000 (by decide)⟩

/-- C11 fails as stated: on the Nim game of 4 chips the first iteration of `Uct`
evaluates `upperConfidenceBound` twice, first for the root (node 0) with
`parentVisits = 0` and `childVisits = 1`, then for the new child (node 1) with
`parentVisits = 1` and `childVisits = 1`: the score of the root is computed, with
`ln(0)`. -/
theorem ucb_root_counterexample :
    (iterationsLog ratFloat64 insertionSort (Nim.nimGame ratFloat64)
        { Iterations := 1, Simulations := 0, UcbConstant := 0 } 1
        (initWorld ratFloat64 (Nim.nimGame ratFloat64) (constRand 0) (constRand 0)
          (Nim.NewNimState 4) { Iterations := 1, Simulations := 0, UcbConstant := 0 })).toOption.map
      Prod.snd = some [UcbCall.mk 0 0 1, UcbCall.mk 1 1 1] := by
  decide!

end Evaluations

/-! ## The state of the caller -/

section Caller

variable {S M F : Type}

theorem overwritten_refl (G : GameObject S M F) (s : S) : Overwritten G s s :=
  Relation.ReflTransGen.refl

theorem overwritten_trans {G : GameObject S M F} {s1 s2 s3 : S} (a : Overwritten G s1 s2)
    (b : Overwritten G s2 s3) : Overwritten G s1 s3 :=
  Relation.ReflTransGen.trans a b

theorem overwritten_step (G : GameObject S M F) (s : S) (arr : List M) :
    Overwritten G s (G.Overwrite s arr) :=
  Relation.ReflTransGen.single ⟨arr, rfl⟩

theorem overwritten_fresh {G : GameObject S M F} (hfresh : ∀ s arr, G.Overwrite s arr = s)
    {s s2 : S} (a : Overwritten G s s2) : s2 = s := by
  induction a with
  | refl => rfl
  | tail _ hstep ih =>
    obtain ⟨arr, e⟩ := hstep
    rw [e, hfresh, ih]

theorem keeps_refl (G : GameObject S M F) (L : Nat) (σ : Store S) : Keeps G L σ σ :=
  ⟨Nat.le_refl _, fun _ s _ hs => ⟨s, hs, overwritten_refl G s⟩⟩

theorem keeps_trans {G : GameObject S M F} {L : Nat} {σ1 σ2 σ3 : Store S}
    (a : Keeps G L σ1 σ2) (b : Keeps G L σ2 σ3) : Keeps G L σ1 σ3 := by
  refine ⟨Nat.le_trans a.1 b.1, ?_⟩
  intro x s hx hs
  obtain ⟨s2, hs2, o2⟩ := a.2 x s hx hs
  obtain ⟨s3, hs3, o3⟩ := b.2 x s2 hx hs2
  exact ⟨s3, hs3, overwritten_trans o2 o3⟩

theorem keeps_of_eq (G : GameObject S M F) (L : Nat) (σ σ2 : Store S)
    (hlen : σ.length ≤ σ2.length) (heq : ∀ a, a < L → σ2[a]? = σ[a]?) : Keeps G L σ σ2 :=
  ⟨hlen, fun a s ha hs => ⟨s, (heq a ha).trans hs, overwritten_refl G s⟩⟩

theorem clone_keeps (G : GameObject S M F) (L : Nat) (σ σ2 : Store S) (a cl : Nat)
    (hL : L ≤ σ.length) (hrun : Ref.Clone G.toGameState σ a = .ok (cl, σ2)) :
    cl = σ.length ∧ σ2.length = σ.length + 1 ∧ Keeps G L σ σ2 := by
  unfold Ref.Clone at hrun
  cases ha : σ[a]? with
  | none => rw [ha] at hrun; cases hrun
  | some s =>
    rw [ha] at hrun
    cases hrun
    refine ⟨rfl, by simp, keeps_of_eq G L _ _ (by simp) ?_⟩
    intro x hx
    exact List.getElem?_append_left (by omega)

theorem makeMove_keeps (G : GameObject S M F) (L : Nat) (σ σ2 : Store S) (sim : Nat) (m : M)
    (hL : L ≤ sim) (hrun : Ref.MakeMove G.toGameState σ sim m = .ok σ2) :
    σ2.length = σ.length ∧ Keeps G L σ σ2 := by
  unfold Ref.MakeMove at hrun
  cases ha : σ[sim]? with
  | none => rw [ha] at hrun; cases hrun
  | some s =>
    rw [ha] at hrun
    cases hrun
    refine ⟨by simp, keeps_of_eq G L _ _ (by simp) ?_⟩
    intro x hx
    exact List.getElem?_set_ne (by omega)

theorem getRandomMoves_keeps (G : GameObject S M F) (L : Nat) (rnd rnd1 : Rand)
    (h h1 : Heap Nat M F) (β β1 : List (List M)) (σ σ1 : Store S) (n : Nat) (move : M)
    (hrun : Ref.getRandomMoves G rnd h β σ n = .ok (move, rnd1, h1, β1, σ1)) :
    σ1.length = σ.length ∧ Keeps G L σ σ1 := by
  simp only [Ref.getRandomMoves] at hrun
  split at hrun
  · cases hrun
  · rename_i nd hn
    split at hrun
    · cases hrun
    · split at hrun
      · cases hrun
      · split at hrun
        · cases hrun
        · split at hrun
          · cases hrun
          · rename_i s hs
            cases hrun
            have hlt : nd.state < σ.length := (List.getElem?_eq_some_iff.mp hs).1
            refine ⟨by simp, by simp, ?_⟩
            intro x sx _ hsx
            by_cases hx : x = nd.state
            · subst hx
              rw [hs] at hsx
              cases hsx
              exact ⟨_, List.getElem?_set_self hlt, overwritten_step G _ _⟩
            · exact ⟨sx, by rw [List.getElem?_set_ne (fun e => hx e.symm)]; exact hsx,
                overwritten_refl G sx⟩

theorem selectLoop_keeps (A : Float64 F) (T : SortFn) (G : GameObject S M F) (L : Nat) :
    ∀ fuel (h : Heap Nat M F) (σ : Store S) node sim, L ≤ sim →
      ∀ h1 σ1 node1, Ref.selectLoop A T G.toGameState fuel h σ node sim = .ok (h1, σ1, node1) →
        Keeps G L σ σ1 := by
  intro fuel
  induction fuel with
  | zero =>
    intro h σ node sim _ h1 σ1 node1 hrun
    simp only [Ref.selectLoop] at hrun
    split at hrun
    · cases hrun
    · split at hrun
      · cases hrun
      · cases hrun
        exact keeps_refl G L σ
  | succ f ih =>
    intro h σ node sim hL h1 σ1 node1 hrun
    simp only [Ref.selectLoop] at hrun
    split at hrun
    · cases hrun
    · split at hrun
      · split at hrun
        · cases hrun
        · split at hrun
          · cases hrun
          · split at hrun
            · cases hrun
            · split at hrun
              · cases hrun
              · rename_i σm hmm
                exact keeps_trans (makeMove_keeps G L σ σm sim _ hL hmm).2
                  (ih _ σm _ sim hL h1 σ1 node1 hrun)
      · cases hrun
        exact keeps_refl G L σ

theorem simulate_keeps (G : GameObject S M F) (L : Nat) :
    ∀ j (rand : Rand) (σ : Store S) sim, L ≤ sim →
      ∀ rand1 σ1, Ref.simulate G.toGameState j rand σ sim = .ok (rand1, σ1) →
        Keeps G L σ σ1 := by
  intro j
  induction j with
  | zero =>
    intro rand σ sim _ rand1 σ1 hrun
    simp only [Ref.simulate] at hrun
    cases hrun
    exact keeps_refl G L σ
  | succ j ih =>
    intro rand σ sim hL rand1 σ1 hrun
    simp only [Ref.simulate] at hrun
    split at hrun
    · cases hrun
    · split at hrun
      · cases hrun
        exact keeps_refl G L σ
      · split at hrun
        · cases hrun
        · split at hrun
          · cases hrun
          · split at hrun
            · cases hrun
            · rename_i σm hmm
              exact keeps_trans (makeMove_keeps G L σ σm sim _ hL hmm).2
                (ih _ σm sim hL rand1 σ1 hrun)

theorem expand_keeps (A : Float64 F) (G : GameObject S M F) (L : Nat) (rnd : Rand)
    (h : Heap Nat M F) (β : List (List M)) (σ : Store S) (node sim : Nat) (hL : L ≤ sim)
    (hσ : L ≤ σ.length) (rnd2 : Rand) (h2 : Heap Nat M F) (β2 : List (List M))
    (σ2 : Store S) (node2 : Nat)
    (hrun : Ref.expand A G rnd h β σ node sim = .ok (rnd2, h2, β2, σ2, node2)) :
    Keeps G L σ σ2 := by
  simp only [Ref.expand] at hrun
  split at hrun
  · cases hrun
  · split at hrun
    · split at hrun
      · cases hrun
      · rename_i move rnd1 h1 β1 σ0 hget
        obtain ⟨l0, k0⟩ := getRandomMoves_keeps G L rnd rnd1 h h1 β β1 σ σ0 node move hget
        split at hrun
        · cases hrun
        · rename_i σa hma
          obtain ⟨l1, k1⟩ := makeMove_keeps G L σ0 σa sim _ hL hma
          split at hrun
          · cases hrun
          · rename_i cl σb hcl
            have k2 := (clone_keeps G L σa σb sim cl (by omega) hcl).2.2
            split at hrun
            · cases hrun
            · split at hrun
              · cases hrun
              · cases hrun
                exact keeps_trans (keeps_trans k0 k1) k2
    · cases hrun
      exact keeps_refl G L σ

theorem iteration_keeps (A : Float64 F) (T : SortFn) (G : GameObject S M F)
    (opt : UctOption F) (L : Nat) (w w1 : Ref.World S M F) (hL : L ≤ w.store.length)
    (hrun : Ref.iteration A T G opt w = .ok w1) : Keeps G L w.store w1.store := by
  simp only [Ref.iteration] at hrun
  split at hrun
  · cases hrun
  · split at hrun
    · cases hrun
    · rename_i sim σ0 hcl
      obtain ⟨hsim, _, k0⟩ := clone_keeps G L w.store σ0 _ sim hL hcl
      have hLs : L ≤ sim := by omega
      split at hrun
      · cases hrun
      · rename_i h1 σ1 node1 hsel
        have k1 := selectLoop_keeps A T G L _ _ σ0 0 sim hLs h1 σ1 node1 hsel
        split at hrun
        · cases hrun
        · rename_i rnd2 h2 β2 σ2 node2 hexp
          have k2 := expand_keeps A G L w.rnd h1 w.backing σ1 node1 sim hLs
            (Nat.le_trans hL (Nat.le_trans k0.1 k1.1)) rnd2 h2 β2 σ2 node2 hexp
          split at hrun
          · cases hrun
          · rename_i rand3 σ3 hsim3
            have k3 := simulate_keeps G L _ w.rand σ2 sim hLs rand3 σ3 hsim3
            split at hrun
            · cases hrun
            · split at hrun
              · cases hrun
              · cases hrun
                exact keeps_trans (keeps_trans (keeps_trans k0 k1) k2) k3

theorem iterations_keeps (A : Float64 F) (T : SortFn) (G : GameObject S M F)
    (opt : UctOption F) (L : Nat) :
    ∀ n (w w1 : Ref.World S M F), L ≤ w.store.length →
      Ref.iterations A T G opt n w = .ok w1 → Keeps G L w.store w1.store := by
  intro n
  induction n with
  | zero =>
    intro w w1 _ hrun
    simp only [Ref.iterations] at hrun
    cases hrun
    exact keeps_refl G L _
  | succ n ih =>
    intro w w1 hL hrun
    simp only [Ref.iterations] at hrun
    split at hrun
    · cases hrun
    · rename_i wm hm
      have k1 := ih w wm hL hm
      exact keeps_trans k1 (iteration_keeps A T G opt L wm w1 (Nat.le_trans hL k1.1) hrun)

theorem refUct_keeps (A : Float64 F) (T : SortFn) (G : GameObject S M F)
    (rnd rand : Rand) (σ : Store S) (state : Nat) (opt : UctOption F) (mv : Option M)
    (σ2 : Store S) (hrun : Ref.Uct A T G rnd rand σ state opt = .ok (mv, σ2)) :
    Keeps G σ.length σ σ2 := by
  simp only [Ref.Uct] at hrun
  split at hrun
  · cases hrun
  · split at hrun
    · cases hrun
    · rename_i w hw
      split at hrun
      · cases hrun
      · cases hrun
        exact iterations_keeps A T G opt σ.length _ _ w (Nat.le_refl _) hw

theorem getVisits_mapState {S1 S2 : Type} (g : S1 → S2) (h : Heap S1 M F) (x : Option Nat) :
    getVisits (h.map (mapState g)) x = getVisits h x := by
  cases x with
  | none => rfl
  | some p =>
    simp only [getVisits, List.getElem?_map]
    cases h[p]? <;> rfl

theorem bySelectionScore_mapState {S1 S2 : Type} (g : S1 → S2) (A : Float64 F)
    (h : Heap S1 M F) : bySelectionScore A (h.map (mapState g)) = bySelectionScore A h := by
  funext a b
  simp only [bySelectionScore, List.getElem?_map]
  cases h[a]? <;> cases h[b]? <;> rfl

theorem byVisits_mapState {S1 S2 : Type} (g : S1 → S2) (h : Heap S1 M F) :
    byVisits (h.map (mapState g)) = byVisits h := by
  funext a b
  simp only [byVisits, List.getElem?_map]
  cases h[a]? <;> cases h[b]? <;> rfl

theorem selectChild_mapState {S1 S2 : Type} (g : S1 → S2) (A : Float64 F) (T : SortFn)
    (h : Heap S1 M F) (n : Nat) :
    selectChild A T (h.map (mapState g)) n =
      (selectChild A T h n).map (fun p => (p.1, p.2.map (mapState g))) := by
  simp only [selectChild, List.getElem?_map, bySelectionScore_mapState]
  cases hn : h[n]? with
  | none => rfl
  | some nd =>
    simp only [Option.map_some']
    have hch : (mapState g nd).children = nd.children := rfl
    rw [hch]
    cases T (bySelectionScore A h) nd.children with
    | nil => rfl
    | cons c cs =>
      simp only [Except.map, List.map_set]
      rfl

theorem getRandomMoves_mapState {S1 S2 : Type} (g : S1 → S2) (rnd : Rand)
    (h : Heap S1 M F) (n : Nat) :
    getRandomMoves rnd (h.map (mapState g)) n =
      (getRandomMoves rnd h n).map (fun p => (p.1, p.2.1, p.2.2.map (mapState g))) := by
  simp only [getRandomMoves, List.getElem?_map]
  cases hn : h[n]? with
  | none => rfl
  | some nd =>
    simp only [Option.map_some']
    have hu : (mapState g nd).untriedMoves = nd.untriedMoves := rfl
    rw [hu]
    cases rnd.Intn nd.untriedMoves.length with
    | error e => rfl
    | ok r =>
      obtain ⟨i, rnd1⟩ := r
      simp only
      cases nd.untriedMoves[i]? with
      | none => rfl
      | some move =>
        simp only [Except.map, List.map_set]
        rfl

theorem computeSelectionScore_mapState {S1 S2 : Type} (g : S1 → S2) (A : Float64 F)
    (h : Heap S1 M F) (n : Nat) :
    computeSelectionScore A (h.map (mapState g)) n =
      (computeSelectionScore A h n).map (List.map (mapState g)) := by
  simp only [computeSelectionScore, List.getElem?_map, getVisits_mapState]
  cases hn : h[n]? with
  | none => rfl
  | some nd =>
    simp only [Option.map_some', Except.map, List.map_set]
    rfl

theorem updateAux_mapState {S1 S2 : Type} (g : S1 → S2) (A : Float64 F) (score : Int → F) :
    ∀ fuel (h : Heap S1 M F) (x : Option Nat),
      updateAux A score fuel (h.map (mapState g)) x =
        (updateAux A score fuel h x).map (List.map (mapState g)) := by
  intro fuel
  induction fuel with
  | zero =>
    intro h x
    cases x <;> rfl
  | succ f ih =>
    intro h x
    cases x with
    | none => rfl
    | some n =>
      simp only [updateAux, List.getElem?_map]
      cases hn : h[n]? with
      | none => rfl
      | some nd =>
        simp only [Option.map_some']
        have hset : (h.map (mapState g)).set n { mapState g nd with
            totalOutcome := A.add (mapState g nd).totalOutcome (score (mapState g nd).player)
            visits := ((mapState g nd).visits + 1) % 2 ^ 64 } =
            (h.set n { nd with
              totalOutcome := A.add nd.totalOutcome (score nd.player)
              visits := (nd.visits + 1) % 2 ^ 64 }).map (mapState g) := by
          rw [List.map_set]
          rfl
        have hp : (mapState g nd).parent = nd.parent := rfl
        rw [hset, hp, ih]
        cases updateAux A score f (h.set n { nd with
              totalOutcome := A.add nd.totalOutcome (score nd.player)
              visits := (nd.visits + 1) % 2 ^ 64 }) nd.parent with
        | error e => rfl
        | ok h2 =>
          simp only [Except.map]
          rw [computeSelectionScore_mapState]
          cases computeSelectionScore A h2 n <;> rfl

theorem bestMove_mapState {S1 S2 : Type} (g : S1 → S2) (T : SortFn) (h : Heap S1 M F) :
    bestMove T (h.map (mapState g)) = bestMove T h := by
  simp only [bestMove, List.getElem?_map, byVisits_mapState]
  cases h0 : h[0]? with
  | none => rfl
  | some r =>
    simp only [Option.map_some']
    have hch : (mapState g r).children = r.children := rfl
    rw [hch]
    cases T (byVisits h) r.children with
    | nil => rfl
    | cons c cs =>
      simp only
      cases h[c]? <;> rfl

theorem agreeOff_refl (sim : Nat) (σ : Store S) : AgreeOff sim σ σ :=
  ⟨rfl, fun _ _ => rfl⟩

theorem agreeOff_trans {sim : Nat} {σ1 σ2 σ3 : Store S} (a : AgreeOff sim σ1 σ2)
    (b : AgreeOff sim σ2 σ3) : AgreeOff sim σ1 σ3 :=
  ⟨b.1.trans a.1, fun x hx => (b.2 x hx).trans (a.2 x hx)⟩

theorem set_states (h : Heap Nat M F) (n : Nat) (nd x : treeNode Nat M F)
    (hn : h[n]? = some nd) (hx : x.state = nd.state) :
    (h.set n x).map (fun k => k.state) = h.map (fun k => k.state) := by
  have hlt : n < h.length := (List.getElem?_eq_some_iff.mp hn).1
  apply List.ext_getElem?
  intro i
  simp only [List.getElem?_map]
  by_cases hi : i = n
  · subst hi
    rw [List.getElem?_set_self hlt, hn]
    simp [hx]
  · rw [List.getElem?_set_ne (fun e => hi e.symm)]

theorem statesOff_of_states {sim len : Nat} {h h1 : Heap Nat M F}
    (hs : h1.map (fun k => k.state) = h.map (fun k => k.state)) (ho : StatesOff sim len h) :
    StatesOff sim len h1 := by
  intro nd hnd
  have hmem : nd.state ∈ h1.map (fun k => k.state) := List.mem_map.mpr ⟨nd, hnd, rfl⟩
  rw [hs, List.mem_map] at hmem
  obtain ⟨nd0, hnd0, e⟩ := hmem
  have := ho nd0 hnd0
  rw [← e]
  exact this

theorem selectChild_states (A : Float64 F) (T : SortFn) (h h1 : Heap Nat M F) (n c : Nat)
    (hrun : selectChild A T h n = .ok (c, h1)) :
    h1.map (fun k => k.state) = h.map (fun k => k.state) := by
  simp only [selectChild] at hrun
  split at hrun
  · cases hrun
  · rename_i nd hn
    split at hrun
    · cases hrun
    · cases hrun
      exact set_states h n nd _ hn rfl

theorem getRandomMoves_states (rnd rnd1 : Rand) (h h1 : Heap Nat M F) (n : Nat) (move : M)
    (hrun : getRandomMoves rnd h n = .ok (move, rnd1, h1)) :
    h1.map (fun k => k.state) = h.map (fun k => k.state) := by
  simp only [getRandomMoves] at hrun
  split at hrun
  · cases hrun
  · rename_i nd hn
    split at hrun
    · cases hrun
    · split at hrun
      · cases hrun
      · cases hrun
        exact set_states h n nd _ hn rfl

theorem computeSelectionScore_states (A : Float64 F) (h h1 : Heap Nat M F) (n : Nat)
    (hrun : computeSelectionScore A h n = .ok h1) :
    h1.map (fun k => k.state) = h.map (fun k => k.state) := by
  simp only [computeSelectionScore] at hrun
  split at hrun
  · cases hrun
  · rename_i nd hn
    cases hrun
    exact set_states h n nd _ hn rfl

theorem updateAux_states (A : Float64 F) (score : Int → F) :
    ∀ fuel (h h1 : Heap Nat M F) (x : Option Nat), updateAux A score fuel h x = .ok h1 →
      h1.map (fun k => k.state) = h.map (fun k => k.state) := by
  intro fuel
  induction fuel with
  | zero =>
    intro h h1 x hrun
    cases x with
    | none =>
      simp only [updateAux] at hrun
      cases hrun
      rfl
    | some n => simp only [updateAux] at hrun; cases hrun
  | succ f ih =>
    intro h h1 x hrun
    cases x with
    | none =>
      simp only [updateAux] at hrun
      cases hrun
      rfl
    | some n =>
      simp only [updateAux] at hrun
      split at hrun
      · cases hrun
      · rename_i nd hn
        split at hrun
        · cases hrun
        · rename_i h2 hrec
          rw [computeSelectionScore_states A h2 h1 n hrun, ih _ h2 _ hrec]
          exact set_states h n nd _ hn rfl

theorem map_valueAt_agree (d : S) {sim : Nat} {σ σ1 : Store S} {h : Heap Nat M F}
    (ho : StatesOff sim σ.length h) (ha : ∀ a, a ≠ sim → a < σ.length → σ1[a]? = σ[a]?) :
    h.map (mapState (valueAt σ1 d)) = h.map (mapState (valueAt σ d)) := by
  apply List.map_congr_left
  intro nd hnd
  have := ho nd hnd
  simp only [mapState, valueAt, ha nd.state this.1 this.2]

theorem mapState_untriedMoves {S1 S2 : Type} (g : S1 → S2) (nd : treeNode S1 M F) :
    (mapState g nd).untriedMoves = nd.untriedMoves := rfl

theorem mapState_children {S1 S2 : Type} (g : S1 → S2) (nd : treeNode S1 M F) :
    (mapState g nd).children = nd.children := rfl

theorem mapState_move {S1 S2 : Type} (g : S1 → S2) (nd : treeNode S1 M F) :
    (mapState g nd).move = nd.move := rfl

theorem mapState_ucbC {S1 S2 : Type} (g : S1 → S2) (nd : treeNode S1 M F) :
    (mapState g nd).ucbC = nd.ucbC := rfl

theorem mapState_state {S1 S2 : Type} (g : S1 → S2) (nd : treeNode S1 M F) :
    (mapState g nd).state = g nd.state := rfl

theorem valueAt_set_self (σ : Store S) (d : S) (sim : Nat) (hsim : sim < σ.length) (x : S) :
    valueAt (σ.set sim x) d sim = x := by
  simp [valueAt, List.getElem?_set_self hsim]

theorem valueAt_of_some (σ : Store S) (d : S) (a : Nat) (s : S) (hs : σ[a]? = some s) :
    valueAt σ d a = s := by
  simp [valueAt, hs]

theorem ref_selectLoop (A : Float64 F) (T : SortFn) (G : GameState S M F) (d : S) :
    ∀ fuel (h : Heap Nat M F) (σ : Store S) node sim, sim < σ.length →
      StatesOff sim σ.length h →
      (Ref.selectLoop A T G fuel h σ node sim).map
          (fun r => (r.1.map (mapState (valueAt r.2.1 d)), r.2.2, valueAt r.2.1 d sim)) =
        selectLoop A T G fuel (h.map (mapState (valueAt σ d))) node (valueAt σ d sim) := by
  intro fuel
  induction fuel with
  | zero =>
    intro h σ node sim hsim ho
    simp only [Ref.selectLoop, selectLoop, List.getElem?_map]
    cases hn : h[node]? with
    | none => rfl
    | some nd =>
      simp only [Option.map_some', mapState_untriedMoves, mapState_children]
      by_cases hc : nd.untriedMoves.length = 0 ∧ nd.children.length > 0
      · rw [if_pos hc, if_pos hc]
        rfl
      · rw [if_neg hc, if_neg hc]
        rfl
  | succ f ih =>
    intro h σ node sim hsim ho
    simp only [Ref.selectLoop, selectLoop, List.getElem?_map]
    cases hn : h[node]? with
    | none => rfl
    | some nd =>
      simp only [Option.map_some', mapState_untriedMoves, mapState_children]
      by_cases hc : nd.untriedMoves.length = 0 ∧ nd.children.length > 0
      · rw [if_pos hc, if_pos hc, selectChild_mapState]
        cases hsel : selectChild A T h node with
        | error e => rfl
        | ok r =>
          obtain ⟨c, h1⟩ := r
          simp only [Except.map, List.getElem?_map]
          cases hcn : h1[c]? with
          | none => rfl
          | some cn =>
            simp only [Option.map_some', mapState_move]
            cases hm : cn.move with
            | none => rfl
            | some m =>
              obtain ⟨s, hs⟩ : ∃ s, σ[sim]? = some s :=
                ⟨σ[sim], List.getElem?_eq_getElem hsim⟩
              have ho1 : StatesOff sim σ.length h1 :=
                statesOff_of_states (selectChild_states A T h h1 node c hsel) ho
              have hih := ih h1 (σ.set sim (G.MakeMove s m)) c sim
                (by rw [List.length_set]; exact hsim) (by rw [List.length_set]; exact ho1)
              rw [valueAt_set_self σ d sim hsim, map_valueAt_agree d ho1
                (fun a ha _ => List.getElem?_set_ne (fun e => ha e.symm))] at hih
              simp only [Ref.MakeMove, hs, valueAt_of_some σ d sim s hs]
              exact hih
      · rw [if_neg hc, if_neg hc]
        rfl

theorem makeMove_agreeOff (G : GameState S M F) (σ σ1 : Store S) (sim : Nat) (m : M)
    (hrun : Ref.MakeMove G σ sim m = .ok σ1) : AgreeOff sim σ σ1 := by
  unfold Ref.MakeMove at hrun
  split at hrun
  · cases hrun
  · cases hrun
    exact ⟨by simp, fun a ha => List.getElem?_set_ne (fun e => ha e.symm)⟩

theorem ref_selectLoop_post (A : Float64 F) (T : SortFn) (G : GameState S M F) :
    ∀ fuel (h : Heap Nat M F) (σ : Store S) node sim h1 σ1 node1,
      Ref.selectLoop A T G fuel h σ node sim = .ok (h1, σ1, node1) →
      AgreeOff sim σ σ1 ∧ h1.map (fun k => k.state) = h.map (fun k => k.state) := by
  intro fuel
  induction fuel with
  | zero =>
    intro h σ node sim h1 σ1 node1 hrun
    simp only [Ref.selectLoop] at hrun
    split at hrun
    · cases hrun
    · split at hrun
      · cases hrun
      · cases hrun
        exact ⟨agreeOff_refl sim σ, rfl⟩
  | succ f ih =>
    intro h σ node sim h1 σ1 node1 hrun
    simp only [Ref.selectLoop] at hrun
    split at hrun
    · cases hrun
    · split at hrun
      · split at hrun
        · cases hrun
        · rename_i c hs hsel
          split at hrun
          · cases hrun
          · split at hrun
            · cases hrun
            · split at hrun
              · cases hrun
              · rename_i σm hmm
                obtain ⟨a1, a2⟩ := ih _ σm _ sim h1 σ1 node1 hrun
                exact ⟨agreeOff_trans (makeMove_agreeOff G σ σm sim _ hmm) a1,
                  a2.trans (selectChild_states A T h hs node c hsel)⟩
      · cases hrun
        exact ⟨agreeOff_refl sim σ, rfl⟩

theorem ref_simulate (G : GameState S M F) (d : S) :
    ∀ j (rand : Rand) (σ : Store S) sim, sim < σ.length →
      (Ref.simulate G j rand σ sim).map (fun r => (r.1, valueAt r.2 d sim)) =
        simulate G j rand (valueAt σ d sim) := by
  intro j
  induction j with
  | zero => intro rand σ sim _; rfl
  | succ j ih =>
    intro rand σ sim hsim
    obtain ⟨s, hs⟩ : ∃ s, σ[sim]? = some s := ⟨σ[sim], List.getElem?_eq_getElem hsim⟩
    simp only [Ref.simulate, simulate, hs, valueAt_of_some σ d sim s hs]
    cases hmv : G.AvailableMoves s with
    | nil =>
      simp only [Except.map, valueAt_of_some σ d sim s hs]
    | cons mv mvs =>
      simp only
      cases hi : rand.Intn (mv :: mvs).length with
      | error e => rfl
      | ok r =>
        obtain ⟨i, rand1⟩ := r
        simp only
        cases hmove : (mv :: mvs)[i]? with
        | none => rfl
        | some move =>
          simp only [Ref.MakeMove, hs]
          have hih := ih rand1 (σ.set sim (G.MakeMove s move)) sim
            (by rw [List.length_set]; exact hsim)
          rw [valueAt_set_self σ d sim hsim] at hih
          exact hih

theorem ref_simulate_post (G : GameState S M F) :
    ∀ j (rand : Rand) (σ : Store S) sim rand1 σ1,
      Ref.simulate G j rand σ sim = .ok (rand1, σ1) → AgreeOff sim σ σ1 := by
  intro j
  induction j with
  | zero =>
    intro rand σ sim rand1 σ1 hrun
    simp only [Ref.simulate] at hrun
    cases hrun
    exact agreeOff_refl sim σ
  | succ j ih =>
    intro rand σ sim rand1 σ1 hrun
    simp only [Ref.simulate] at hrun
    split at hrun
    · cases hrun
    · split at hrun
      · cases hrun
        exact agreeOff_refl sim σ
      · split at hrun
        · cases hrun
        · split at hrun
          · cases hrun
          · split at hrun
            · cases hrun
            · rename_i σm hmm
              exact agreeOff_trans (makeMove_agreeOff G σ σm sim _ hmm)
                (ih _ σm sim rand1 σ1 hrun)

theorem set_same {α : Type} (l : List α) (a : Nat) (x : α) (hx : l[a]? = some x) :
    l.set a x = l := by
  have hlt : a < l.length := (List.getElem?_eq_some_iff.mp hx).1
  apply List.ext_getElem?
  intro i
  by_cases hi : i = a
  · subst hi
    rw [List.getElem?_set_self hlt, hx]
  · rw [List.getElem?_set_ne (fun e => hi e.symm)]

theorem ref_getRandomMoves (G : GameObject S M F) (hfresh : ∀ s arr, G.Overwrite s arr = s)
    (rnd : Rand) (h : Heap Nat M F) (β : List (List M)) (σ : Store S) (n : Nat)
    (hβ : β.length = h.length) (hst : ∀ nd ∈ h, nd.state < σ.length) :
    (Ref.getRandomMoves G rnd h β σ n).map (fun r => (r.1, r.2.1, r.2.2.1)) =
        getRandomMoves rnd h n ∧
      ∀ move rnd1 h1 β1 σ1,
        Ref.getRandomMoves G rnd h β σ n = .ok (move, rnd1, h1, β1, σ1) →
          σ1 = σ ∧ β1.length = β.length := by
  simp only [Ref.getRandomMoves, getRandomMoves]
  cases hn : h[n]? with
  | none => exact ⟨rfl, fun _ _ _ _ _ hr => by cases hr⟩
  | some nd =>
    have hlt : n < h.length := (List.getElem?_eq_some_iff.mp hn).1
    obtain ⟨arr, harr⟩ : ∃ arr, β[n]? = some arr :=
      ⟨β[n], List.getElem?_eq_getElem (by omega)⟩
    have hsl := hst nd (List.getElem?_mem hn)
    obtain ⟨s, hs⟩ : ∃ s, σ[nd.state]? = some s :=
      ⟨σ[nd.state], List.getElem?_eq_getElem hsl⟩
    simp only
    cases hi : rnd.Intn nd.untriedMoves.length with
    | error e => exact ⟨rfl, fun _ _ _ _ _ hr => by cases hr⟩
    | ok r =>
      obtain ⟨i, rnd1⟩ := r
      simp only
      cases hm : nd.untriedMoves[i]? with
      | none => exact ⟨rfl, fun _ _ _ _ _ hr => by cases hr⟩
      | some move =>
        simp only [harr, hs, hfresh, set_same σ nd.state s hs]
        refine ⟨rfl, ?_⟩
        intro move1 rnd2 h1 β1 σ1 hr
        cases hr
        exact ⟨rfl, by simp⟩

theorem ref_expand (A : Float64 F) (G : GameObject S M F)
    (hfresh : ∀ s arr, G.Overwrite s arr = s) (d : S) (rnd : Rand)
    (h : Heap Nat M F) (β : List (List M)) (σ : Store S) (node sim : Nat)
    (hsim : sim < σ.length) (ho : StatesOff sim σ.length h) (hβ : β.length = h.length) :
    (Ref.expand A G rnd h β σ node sim).map
        (fun r => (r.1, r.2.1.map (mapState (valueAt r.2.2.2.1 d)), r.2.2.2.2,
          valueAt r.2.2.2.1 d sim)) =
      expand A G.toGameState rnd (h.map (mapState (valueAt σ d))) node (valueAt σ d sim) := by
  obtain ⟨s, hs⟩ : ∃ s, σ[sim]? = some s := ⟨σ[sim], List.getElem?_eq_getElem hsim⟩
  obtain ⟨eget, pget⟩ := ref_getRandomMoves G hfresh rnd h β σ node hβ
    (fun nd hnd => (ho nd hnd).2)
  simp only [Ref.expand, expand, List.getElem?_map]
  cases hn : h[node]? with
  | none => rfl
  | some nd =>
    simp only [Option.map_some', mapState_untriedMoves]
    by_cases hc : nd.untriedMoves.length > 0
    · rw [if_pos hc, if_pos hc, getRandomMoves_mapState, ← eget]
      cases hget : Ref.getRandomMoves G rnd h β σ node with
      | error e => rfl
      | ok r =>
        obtain ⟨move, rnd1, h1, β1, σ0⟩ := r
        obtain ⟨e0, _⟩ := pget move rnd1 h1 β1 σ0 hget
        subst e0
        have hgetv : getRandomMoves rnd h node = .ok (move, rnd1, h1) := by
          rw [← eget, hget]
          rfl
        have ho1 : StatesOff sim σ0.length h1 :=
          statesOff_of_states (getRandomMoves_states rnd rnd1 h h1 node move hgetv) ho
        have hs1 : (σ0.set sim (G.MakeMove s move))[sim]? = some (G.MakeMove s move) :=
          List.getElem?_set_self hsim
        simp only [Except.map, List.getElem?_map, Ref.MakeMove, hs, Ref.Clone, hs1,
          List.length_set]
        cases hn1 : h1[node]? with
        | none => rfl
        | some nd1 =>
          have hcl : (σ0.set sim (G.MakeMove s move) ++
              [G.Clone (G.MakeMove s move)])[σ0.length]? =
              some (G.Clone (G.MakeMove s move)) := by
            rw [List.getElem?_append_right (by simp)]
            simp
          have hagree : ∀ a, a ≠ sim → a < σ0.length →
              (σ0.set sim (G.MakeMove s move) ++ [G.Clone (G.MakeMove s move)])[a]? =
                σ0[a]? := by
            intro a ha hal
            rw [List.getElem?_append_left (by simpa using hal)]
            exact List.getElem?_set_ne (fun e => ha e.symm)
          have hvsim : valueAt (σ0.set sim (G.MakeMove s move) ++
              [G.Clone (G.MakeMove s move)]) d sim = G.MakeMove s move := by
            apply valueAt_of_some
            rw [List.getElem?_append_left (by simpa using hsim)]
            exact hs1
          have hnd1 : nd1 ∈ h1 := List.getElem?_mem hn1
          have hst1 := ho1 nd1 hnd1
          have hv1 : valueAt (σ0.set sim (G.MakeMove s move) ++
              [G.Clone (G.MakeMove s move)]) d nd1.state = valueAt σ0 d nd1.state := by
            simp only [valueAt, hagree nd1.state hst1.1 hst1.2]
          simp only [Option.map_some', Ref.newTreeNode, hcl, List.map_append, List.map_set,
            List.map_cons, List.map_nil, List.length_map, hvsim,
            valueAt_of_some σ0 d sim s hs, mapState_ucbC]
          rw [map_valueAt_agree d ho1 hagree]
          simp only [mapState, newTreeNode, hv1,
            valueAt_of_some _ d σ0.length (G.Clone (G.MakeMove s move)) hcl]
    · rw [if_neg hc, if_neg hc]
      rfl

theorem ref_getRandomMoves_post (G : GameObject S M F) (rnd rnd1 : Rand)
    (h h1 : Heap Nat M F) (β β1 : List (List M)) (σ σ1 : Store S) (n : Nat) (move : M)
    (hrun : Ref.getRandomMoves G rnd h β σ n = .ok (move, rnd1, h1, β1, σ1)) :
    h1.map (fun k => k.state) = h.map (fun k => k.state) ∧ β1.length = β.length ∧
      σ1.length = σ.length := by
  simp only [Ref.getRandomMoves] at hrun
  split at hrun
  · cases hrun
  · rename_i nd hn
    split at hrun
    · cases hrun
    · split at hrun
      · cases hrun
      · split at hrun
        · cases hrun
        · split at hrun
          · cases hrun
          · cases hrun
            exact ⟨set_states h n nd _ hn rfl, by simp, by simp⟩

theorem ref_expand_post (A : Float64 F) (G : GameObject S M F) (rnd : Rand)
    (h : Heap Nat M F) (β : List (List M)) (σ : Store S) (node sim : Nat)
    (hsim : sim < σ.length) (ho : StatesOff sim σ.length h) (hβ : β.length = h.length)
    (rnd2 : Rand) (h2 : Heap Nat M F) (β2 : List (List M)) (σ2 : Store S) (node2 : Nat)
    (hrun : Ref.expand A G rnd h β σ node sim = .ok (rnd2, h2, β2, σ2, node2)) :
    sim < σ2.length ∧ StatesOff sim σ2.length h2 ∧ β2.length = h2.length := by
  simp only [Ref.expand] at hrun
  split at hrun
  · cases hrun
  · split at hrun
    · split at hrun
      · cases hrun
      · rename_i move rnd1 h1 β1 σ0 hget
        obtain ⟨hst1, hβ1, hl0⟩ := ref_getRandomMoves_post G rnd rnd1 h h1 β β1 σ σ0 node move hget
        have ho1 : StatesOff sim σ.length h1 := statesOff_of_states hst1 ho
        have hh1 : h1.length = h.length := by
          have := congrArg List.length hst1
          simpa using this
        split at hrun
        · cases hrun
        · rename_i σa hma
          have ha := makeMove_agreeOff G.toGameState σ0 σa sim move hma
          split at hrun
          · cases hrun
          · rename_i cl σb hcl
            have hb : cl = σa.length ∧ σb.length = σa.length + 1 := by
              unfold Ref.Clone at hcl
              split at hcl
              · cases hcl
              · cases hcl
                exact ⟨rfl, by simp⟩
            split at hrun
            · cases hrun
            · rename_i nd1 hn1
              split at hrun
              · cases hrun
              · rename_i child arr hchild
                cases hrun
                have hcs : child.state = cl := by
                  unfold Ref.newTreeNode at hchild
                  split at hchild
                  · cases hchild
                  · cases hchild
                    rfl
                obtain ⟨hb1, hb2⟩ := hb
                have hal := ha.1
                refine ⟨by omega, ?_, by simp; omega⟩
                intro nd hnd
                rw [List.mem_append, List.mem_singleton] at hnd
                rcases hnd with hnd | hnd
                · have hmem : nd.state ∈ (h1.set node
                      { nd1 with children := nd1.children ++ [h1.length] }).map
                      (fun k => k.state) := List.mem_map.mpr ⟨nd, hnd, rfl⟩
                  rw [set_states h1 node nd1
                    { nd1 with children := nd1.children ++ [h1.length] } hn1 rfl,
                    List.mem_map] at hmem
                  obtain ⟨nd0, hnd0, e⟩ := hmem
                  have := ho1 nd0 hnd0
                  rw [← e]
                  exact ⟨this.1, by omega⟩
                · subst hnd
                  rw [hcs]
                  exact ⟨by omega, by omega⟩
    · cases hrun
      exact ⟨hsim, ho, hβ⟩

theorem length_of_states {h h1 : Heap Nat M F}
    (hs : h1.map (fun k => k.state) = h.map (fun k => k.state)) : h1.length = h.length := by
  have := congrArg List.length hs
  simpa using this

theorem ref_iteration (A : Float64 F) (T : SortFn) (G : GameObject S M F)
    (hfresh : ∀ s arr, G.Overwrite s arr = s) (opt : UctOption F) (d : S)
    (w : Ref.World S M F) (hb : ∀ nd ∈ w.heap, nd.state < w.store.length)
    (hβ : w.backing.length = w.heap.length) :
    (Ref.iteration A T G opt w).map (absWorld d) =
        iteration A T G.toGameState opt (absWorld d w) ∧
      ∀ w1, Ref.iteration A T G opt w = .ok w1 →
        (∀ nd ∈ w1.heap, nd.state < w1.store.length) ∧
          w1.backing.length = w1.heap.length := by
  simp only [Ref.iteration, iteration, absWorld, List.getElem?_map, List.length_map]
  cases hr : w.heap[0]? with
  | none => exact ⟨rfl, fun w1 hw1 => by cases hw1⟩
  | some root =>
    have hrl := hb root (List.getElem?_mem hr)
    obtain ⟨s0, hs0⟩ : ∃ s0, w.store[root.state]? = some s0 :=
      ⟨w.store[root.state], List.getElem?_eq_getElem hrl⟩
    have hoff : StatesOff w.store.length w.store.length w.heap :=
      fun nd hnd => ⟨Nat.ne_of_lt (hb nd hnd), hb nd hnd⟩
    have hoff0 : StatesOff w.store.length (w.store ++ [G.Clone s0]).length w.heap :=
      fun nd hnd => ⟨Nat.ne_of_lt (hb nd hnd), by simp; exact Nat.lt_succ_of_lt (hb nd hnd)⟩
    have hsim0 : w.store.length < (w.store ++ [G.Clone s0]).length := by simp
    have hv0 : valueAt (w.store ++ [G.Clone s0]) d w.store.length = G.Clone s0 := by
      apply valueAt_of_some
      rw [List.getElem?_append_right (Nat.le_refl _)]
      simp
    have hm0 : w.heap.map (mapState (valueAt (w.store ++ [G.Clone s0]) d)) =
        w.heap.map (mapState (valueAt w.store d)) :=
      map_valueAt_agree d hoff (fun a _ hal => List.getElem?_append_left hal)
    have e1 := ref_selectLoop A T G.toGameState d w.heap.length w.heap
      (w.store ++ [G.Clone s0]) 0 w.store.length hsim0 hoff0
    rw [hv0, hm0] at e1
    simp only [Option.map_some', mapState_state, valueAt_of_some w.store d root.state s0 hs0,
      Ref.Clone, hs0, ← e1]
    cases hsel : Ref.selectLoop A T G.toGameState w.heap.length w.heap
        (w.store ++ [G.Clone s0]) 0 w.store.length with
    | error e => exact ⟨rfl, fun w1 hw1 => by cases hw1⟩
    | ok r1 =>
      obtain ⟨h1, σ1, node1⟩ := r1
      obtain ⟨ag1, hst1⟩ := ref_selectLoop_post A T G.toGameState _ _ _ _ _ h1 σ1 node1 hsel
      have hsim1 : w.store.length < σ1.length := by rw [ag1.1]; exact hsim0
      have hoff1 : StatesOff w.store.length σ1.length h1 := by
        rw [ag1.1]
        exact statesOff_of_states hst1 hoff0
      have hβ1 : w.backing.length = h1.length := by rw [length_of_states hst1]; exact hβ
      have e2 := ref_expand A G hfresh d w.rnd h1 w.backing σ1 node1 w.store.length hsim1
        hoff1 hβ1
      simp only [Except.map, ← e2]
      cases hexp : Ref.expand A G w.rnd h1 w.backing σ1 node1 w.store.length with
      | error e => exact ⟨rfl, fun w1 hw1 => by cases hw1⟩
      | ok r2 =>
        obtain ⟨rnd2, h2, β2, σ2, node2⟩ := r2
        obtain ⟨hsim2, hoff2, hβ2⟩ :=
          ref_expand_post A G w.rnd h1 w.backing σ1 node1 w.store.length hsim1 hoff1 hβ1
            rnd2 h2 β2 σ2 node2 hexp
        have e3 := ref_simulate G.toGameState d (intOfUint opt.Simulations).toNat w.rand σ2
          w.store.length hsim2
        simp only [Except.map, ← e3]
        cases hsm : Ref.simulate G.toGameState (intOfUint opt.Simulations).toNat w.rand σ2
            w.store.length with
        | error e => exact ⟨rfl, fun w1 hw1 => by cases hw1⟩
        | ok r3 =>
          obtain ⟨rand3, σ3⟩ := r3
          have ag3 := ref_simulate_post G.toGameState _ _ _ _ rand3 σ3 hsm
          have hsim3 : w.store.length < σ3.length := by rw [ag3.1]; exact hsim2
          obtain ⟨s3, hs3⟩ : ∃ s3, σ3[w.store.length]? = some s3 :=
            ⟨σ3[w.store.length], List.getElem?_eq_getElem hsim3⟩
          simp only [Except.map, hs3, valueAt_of_some σ3 d w.store.length s3 hs3, update,
            List.length_map, updateAux_mapState]
          cases hup : updateAux A (G.Score s3) h2.length h2 (some node2) with
          | error e => exact ⟨rfl, fun w1 hw1 => by cases hw1⟩
          | ok h4 =>
            have hst4 := updateAux_states A (G.Score s3) _ h2 h4 _ hup
            have hoff4 : StatesOff w.store.length σ2.length h4 :=
              statesOff_of_states hst4 hoff2
            have hm4 : h4.map (mapState (valueAt σ3 d)) = h4.map (mapState (valueAt σ2 d)) :=
              map_valueAt_agree d hoff4 (fun a ha _ => ag3.2 a ha)
            refine ⟨?_, ?_⟩
            · simp only [absWorld, hm4]
            · intro w1 hw1
              cases hw1
              refine ⟨?_, ?_⟩
              · intro nd hnd
                have := (hoff4 nd hnd).2
                rw [ag3.1]
                exact this
              · rw [length_of_states hst4]
                exact hβ2

theorem ref_iterations (A : Float64 F) (T : SortFn) (G : GameObject S M F)
    (hfresh : ∀ s arr, G.Overwrite s arr = s) (opt : UctOption F) (d : S) :
    ∀ n (w : Ref.World S M F), (∀ nd ∈ w.heap, nd.state < w.store.length) →
      w.backing.length = w.heap.length →
      (Ref.iterations A T G opt n w).map (absWorld d) =
          iterations A T G.toGameState opt n (absWorld d w) ∧
        ∀ w1, Ref.iterations A T G opt n w = .ok w1 →
          (∀ nd ∈ w1.heap, nd.state < w1.store.length) ∧
            w1.backing.length = w1.heap.length := by
  intro n
  induction n with
  | zero =>
    intro w hb hβ
    refine ⟨rfl, ?_⟩
    intro w1 hw1
    simp only [Ref.iterations] at hw1
    cases hw1
    exact ⟨hb, hβ⟩
  | succ n ih =>
    intro w hb hβ
    obtain ⟨e1, p1⟩ := ih w hb hβ
    simp only [Ref.iterations, iterations, ← e1]
    cases hR : Ref.iterations A T G opt n w with
    | error e => exact ⟨rfl, fun w1 hw1 => by cases hw1⟩
    | ok wm =>
      simp only [Except.map]
      exact ref_iteration A T G hfresh opt d wm (p1 wm hR).1 (p1 wm hR).2

/-- The two embeddings of `Uct` agree on a game whose `AvailableMoves()` builds a new
slice on every call: called with a pointer to an object holding the state `s`, `Uct`
on objects fails as `Uct` on values does when called with `s`, or returns the same
move. -/
theorem refUct_eq_Uct (A : Float64 F) (T : SortFn) (G : GameObject S M F)
    (hfresh : ∀ s arr, G.Overwrite s arr = s) (rnd rand : Rand)
    (σ : Store S) (state : Nat) (s : S) (opt : UctOption F) (hs : σ[state]? = some s) :
    (Ref.Uct A T G rnd rand σ state opt).map Prod.fst =
      Uct A T G.toGameState rnd rand s opt := by
  have hlt : state < σ.length := (List.getElem?_eq_some_iff.mp hs).1
  have hroot : Ref.newTreeNode A G.toGameState σ none none state opt.UcbConstant =
      .ok (mapState (fun _ => state)
        (newTreeNode A G.toGameState none none s opt.UcbConstant), G.AvailableMoves s) := by
    simp only [Ref.newTreeNode, hs, mapState, newTreeNode]
  obtain ⟨e1, _⟩ := ref_iterations A T G hfresh opt s (intOfUint opt.Iterations).toNat
    { heap := [mapState (fun _ => state)
        (newTreeNode A G.toGameState none none s opt.UcbConstant)],
      backing := [G.AvailableMoves s], store := σ, rnd := rnd, rand := rand }
    (by
      intro nd hnd
      rw [List.mem_singleton] at hnd
      subst hnd
      exact hlt)
    rfl
  have habs : absWorld s
      ({ heap := [mapState (fun _ => state)
           (newTreeNode A G.toGameState none none s opt.UcbConstant)],
         backing := [G.AvailableMoves s], store := σ, rnd := rnd, rand := rand } :
        Ref.World S M F) =
      initWorld A G.toGameState rnd rand s opt := by
    simp only [absWorld, initWorld, newTreeNode, List.map_cons, List.map_nil, mapState,
      valueAt_of_some σ s state s hs]
  rw [habs] at e1
  simp only [Ref.Uct, hroot, Uct, UctLoop, ← e1]
  cases hR : Ref.iterations A T G opt (intOfUint opt.Iterations).toNat
      { heap := [mapState (fun _ => state)
          (newTreeNode A G.toGameState none none s opt.UcbConstant)],
        backing := [G.AvailableMoves s], store := σ, rnd := rnd, rand := rand } with
  | error e => rfl
  | ok w =>
    simp only [Except.map, absWorld, bestMove_mapState]
    cases bestMove T w.heap <;> rfl

/-- C18, as the code has it: `MakeMove` is applied only to the clones that are the
working states, so a game-state object that existed before the call of `Uct` (the one
`state` points to, kept as `root.state`, among them) changes by nothing but the
deletions that `getRandomMoves` makes in place in the slice its `AvailableMoves()`
returned.  For a game whose `AvailableMoves()` builds a new slice on every call, as
that of `NimState` does, whenever `Uct` returns it leaves every such object with the
value it held before the call: for a `NimState` its `chips`, `JustMovedPlayerId` and
`ActivePlayerId`. -/
theorem uct_keeps_caller_state (A : Float64 F) (T : SortFn) (G : GameObject S M F)
    (rnd rand : Rand) (σ : Store S) (state : Nat) (s : S) (opt : UctOption F)
    (mv : Option M) (hs : σ[state]? = some s) :
    (∀ σ2, Ref.Uct A T G rnd rand σ state opt = .ok (mv, σ2) →
      ∀ (a : Nat) (v : S), σ[a]? = some v → ∃ v2, σ2[a]? = some v2 ∧ Overwritten G v v2) ∧
    ((∀ v arr, G.Overwrite v arr = v) →
      Uct A T G.toGameState rnd rand s opt = .ok mv →
      ∃ σ2, Ref.Uct A T G rnd rand σ state opt = .ok (mv, σ2) ∧ σ2[state]? = some s ∧
        ∀ a, a < σ.length → σ2[a]? = σ[a]?) := by
  constructor
  · intro σ2 hrun a v hv
    have k := refUct_keeps A T G rnd rand σ state opt mv σ2 hrun
    exact k.2 a v (List.getElem?_eq_some_iff.mp hv).1 hv
  · intro hfresh hret
    have e := refUct_eq_Uct A T G hfresh rnd rand σ state s opt hs
    rw [hret] at e
    cases hR : Ref.Uct A T G rnd rand σ state opt with
    | error err =>
      rw [hR] at e
      cases e
    | ok r =>
      obtain ⟨mv2, σ2⟩ := r
      rw [hR] at e
      simp only [Except.map, Except.ok.injEq] at e
      subst e
      have k := refUct_keeps A T G rnd rand σ state opt mv2 σ2 hR
      have hkeep : ∀ a, a < σ.length → σ2[a]? = σ[a]? := by
        intro a ha
        obtain ⟨v2, hv2, ov⟩ := k.2 a σ[a] ha (List.getElem?_eq_getElem ha)
        rw [hv2, overwritten_fresh hfresh ov, List.getElem?_eq_getElem ha]
      exact ⟨σ2, rfl, (hkeep state (List.getElem?_eq_some_iff.mp hs).1).trans hs, hkeep⟩

theorem uct_keeps_caller_state_witness :
    ([Nim.NewNimState 4] : Store Nim.NimState)[0]? = some (Nim.NewNimState 4) ∧
    (∀ (v : Nim.NimState) (arr : List Nim.NimMove),
      (Nim.nimObject ratFloat64).Overwrite v arr = v) ∧
    Uct ratFloat64 insertionSort (Nim.nimObject ratFloat64).toGameState (constRand 0)
        (constRand 1) (Nim.NewNimState 4)
        { Iterations := 3, Simulations := 2, UcbConstant := 0 } =
      .ok (some { playerId := 1, chips := 1 }) ∧
    Ref.Uct ratFloat64 insertionSort (Nim.nimObject ratFloat64) (constRand 0) (constRand 1)
        [Nim.NewNimState 4] 0 { Iterations := 3, Simulations := 2, UcbConstant := 0 } =
      .ok (some { playerId := 1, chips := 1 }, nimStore3) ∧
    (∀ (a : Nat) (v : Nim.NimState), ([Nim.NewNimState 4] : Store Nim.NimState)[a]? = some v →
      ∃ v2, nimStore3[a]? = some v2 ∧ Overwritten (Nim.nimObject ratFloat64) v v2) ∧
    ∃ σ2, Ref.Uct ratFloat64 insertionSort (Nim.nimObject ratFloat64) (constRand 0)
        (constRand 1) [Nim.NewNimState 4] 0
        { Iterations := 3, Simulations := 2, UcbConstant := 0 } =
      .ok (some { playerId := 1, chips := 1 }, σ2) ∧
      σ2[0]? = some (Nim.NewNimState 4) ∧
      ∀ a, a < [Nim.NewNimState 4].length → σ2[a]? = [Nim.NewNimState 4][a]? :=
  ⟨rfl, fun _ _ => rfl, by decide!, by decide!,
    (uct_keeps_caller_state ratFloat64 insertionSort (Nim.nimObject ratFloat64)
      (constRand 0) (constRand 1) [Nim.NewNimState 4] 0 (Nim.NewNimState 4)
      { Iterations := 3, Simulations := 2, UcbConstant := 0 }
      (some { playerId := 1, chips := 1 }) rfl).1 nimStore3 (by decide!),
    (uct_keeps_caller_state ratFloat64 insertionSort (Nim.nimObject ratFloat64)
      (constRand 0) (constRand 1) [Nim.NewNimState 4] 0 (Nim.NewNimState 4)
      { Iterations := 3, Simulations := 2, UcbConstant := 0 }
      (some { playerId := 1, chips := 1 }) rfl).2 (fun _ _ => rfl) (by decide!)⟩

/-- C18 fails as stated: for the game `sliceGame`, whose `AvailableMoves()` returns the
slice the state holds, `Uct` called with the state `[10, 20, 30]` returns the move `10`
after 3 iterations and leaves `[30, 30, 30]` in the object of the caller, on which
`MakeMove` was never called: the three deletions of `getRandomMoves` at the root were
made in place in that slice. -/
theorem caller_state_counterexample :
    ([[10, 20, 30]] : Store (List Nat))[0]? = some [10, 20, 30] ∧
    Ref.Uct ratFloat64 insertionSort (sliceGame ratFloat64) (constRand 0) (constRand 0)
        [[10, 20, 30]] 0 { Iterations := 3, Simulations := 0, UcbConstant := 0 } =
      .ok (some 10, [[30, 30, 30], [], [], [], [], [], []]) := by
  refine ⟨rfl, by decide!⟩

end Caller

/-! ## The random sources and the number of iterations -/

/-- C13 fails on the code: the rollout draws from the global source of `math/rand`, not
from `rnd`.  On Nim with 3 chips, 4 iterations, 2 rollout steps and `rnd` drawing 0
every time, `Uct` returns "take 1" when the global source draws 0 and "take 3" when it
draws 1. -/
theorem uct_depends_on_global_rand :
    Uct ratFloat64 insertionSort (Nim.nimGame ratFloat64) (constRand 0) (constRand 0)
        (Nim.NewNimState 3) { Iterations := 4, Simulations := 2, UcbConstant := 0 } =
      .ok (some { playerId := 1, chips := 1 }) ∧
    Uct ratFloat64 insertionSort (Nim.nimGame ratFloat64) (constRand 0) (constRand 1)
        (Nim.NewNimState 3) { Iterations := 4, Simulations := 2, UcbConstant := 0 } =
      .ok (some { playerId := 1, chips := 3 }) := by
  refine ⟨by decide!, by decide!⟩

section Returns

variable {S M F : Type}

theorem intOfUint_toNat_lt (x : Nat) : (intOfUint x).toNat < 2 ^ 63 := by
  unfold intOfUint
  split <;> omega

theorem uct_returns_iff (A : Float64 F) (T : SortFn) (hT : SortContract T)
    (G : GameState S M F) (rnd rand : Rand) (state : S) (opt : UctOption F) :
    (∃ m, Uct A T G rnd rand state opt = .ok (some m)) ↔
      (G.AvailableMoves state ≠ [] ∧ 0 < intOfUint opt.Iterations) := by
  have hlt := intOfUint_toNat_lt opt.Iterations
  constructor
  · rintro ⟨m, hm⟩
    constructor
    · intro hterm
      obtain ⟨w, r, hw, hh, _, hc, _, _, _⟩ :=
        iterations_terminal A T G rnd rand state opt hterm (intOfUint opt.Iterations).toNat
      have hnil : T (byVisits [r]) [] = [] := (hT.1 (byVisits [r]) []).eq_nil
      simp [Uct, UctLoop, hw, bestMove, hh, hc, hnil] at hm
    · by_contra hle
      have h0 : (intOfUint opt.Iterations).toNat = 0 := by omega
      have hnil : T (byVisits [newTreeNode A G none none state opt.UcbConstant]) [] = [] :=
        (hT.1 _ []).eq_nil
      simp only [Uct, UctLoop, h0, iterations, initWorld, bestMove, List.getElem?_cons_zero]
        at hm
      have hch : (newTreeNode A G none none state opt.UcbConstant).children = [] := rfl
      rw [hch, hnil] at hm
      cases hm
  · rintro ⟨hmoves, hpos⟩
    obtain ⟨w, hw, inv, _, vi⟩ := iterations_visits A T hT G rnd rand state opt
      (intOfUint opt.Iterations).toNat (by omega)
    obtain ⟨w2, hw2, _, hv⟩ := iterations_spec A T hT G rnd rand state opt
      (intOfUint opt.Iterations).toNat
    rw [hw] at hw2
    cases hw2
    obtain ⟨r, hr, _, hs⟩ := inv.root
    have hbal := vi.balance 0 r hr (hs ▸ hmoves)
    rw [if_pos rfl] at hbal
    simp only [getVisits, hr] at hv
    have hvis : 1 ≤ r.visits := by
      rw [hv, Nat.mod_eq_of_lt (by omega)]
      omega
    have hne : r.children ≠ [] := by
      intro e
      simp [childVisits, e] at hbal
      omega
    have hperm := hT.1 (byVisits w.heap) r.children
    cases hsort : T (byVisits w.heap) r.children with
    | nil =>
      rw [hsort] at hperm
      exact absurd hperm.symm.eq_nil hne
    | cons c cs =>
      rw [hsort] at hperm
      have hc : c ∈ r.children := hperm.mem_iff.mp (List.mem_cons_self _ _)
      have hb := inv.children 0 r hr c hc
      have hcd : w.heap[c]? = some w.heap[c] := List.getElem?_eq_getElem hb.2
      obtain ⟨_, m, hm⟩ := inv.nonroot c _ hcd hb.1
      refine ⟨m, ?_⟩
      simp only [Uct, UctLoop, hw, bestMove, hr, hsort, hcd, hm]

end Returns

/-- C17 fails on the code for `Iterations ≥ 2^63`: `int(opt.Iterations)` is negative, no
iteration runs, and `Uct` fails at `root.children[0]` although the state has legal moves
and `Iterations ≥ 1`. -/
theorem uct_huge_iterations_fails :
    (Nim.nimGame ratFloat64).AvailableMoves (Nim.NewNimState 4) ≠ [] ∧
    intOfUint 9223372036854775808 = -9223372036854775808 ∧
    Uct ratFloat64 insertionSort (Nim.nimGame ratFloat64) (constRand 0) (constRand 0)
        (Nim.NewNimState 4)
        { Iterations := 9223372036854775808, Simulations := 100, UcbConstant := 0 } =
      .error .indexOutOfRange := by
  refine ⟨by decide, by decide, by decide!⟩

end Mcts
